import Mathlib

/-!
# MG-RAST exporter: sequence codec, ledger, writer engine and recovery

A shallow embedding of `mgrast-exporter/file/file.go`, `index/index.go`,
`exporter/writer.go` and `exporter/exporter.go`, with the properties of the
specification stated over it.

Conventions of the embedding.

* A Go `[]byte` and a Go `string` are a `List Nat`; the bytes the code singles
  out are `GT` (`'>'`, 62), `NL` (`'\n'`, 10) and `BAR` (`'|'`, 124).
* `bytes.TrimSpace` is embedded on all bytes: it removes the leading and trailing
  white space characters "as defined by Unicode", each in its UTF-8 encoding.
* `bytes.ToUpper` is embedded on ASCII input (bytes below 128): off ASCII it
  depends on the case tables of the Unicode standard.  A statement that depends on
  it assumes ASCII bytes.
* Go `int` values (file ordinals, record counters) are unbounded `Int`: they
  count files and records on disk.
* A compressed file is represented by its decompressed content; compression is
  an opaque transform.  A file of zero bytes on disk is the empty content, and
  opening it with `gzip.NewReader` fails with `io.EOF`.
* A `gzip.Writer` keeps what it is given until `Close`: the writer engine never
  calls `Flush`, so the records handed to `currWrite.Write` are `pending` and
  reach the file when the writer closes it, at a rotation and at termination.
  A file that is still open is described by the records that have reached it:
  the ten bytes of the gzip header, which the first `Write` emits, hold no
  record, and no theorem decodes a file that is still open.
* The export directory holds files named by `FileFromInt` and their renamed
  `.temp` copies; a file is the list of the chunks written to it.
* The writer goroutine and its channels are run sequentially: the writer is a
  state and a step function over the signals it receives.  What the file system
  answers to a write and to `Stat` comes with the signal.
* `Export` is run against that writer: a signal it sends reaches a live writer
  at once; once the writer has returned, the signals stay in the buffer of
  `RecBuffer`, and a wait for `Done` never ends.
* A nil pointer is `none` and dereferencing it is the outcome `panic`.
* A loop that may spin forever is run with fuel; `none` (or the outcome `hang`)
  is the loop that never returns.
-/

namespace MGRast

/-! ## Bytes and the library functions used by the codec -/

abbrev Bytes := List Nat

/-- The record delimiter `'>'`. -/
def GT : Nat := 62

/-- The line separator `'\n'`. -/
def NL : Nat := 10

/-- ASCII input: every byte is below `utf8.RuneSelf`. -/
def Ascii (s : Bytes) : Prop := ∀ b ∈ s, b < 128

instance (s : Bytes) : Decidable (Ascii s) := by
  unfold Ascii; infer_instance

/-- Go `asciiSpace`: `'\t'`, `'\n'`, `'\v'`, `'\f'`, `'\r'`, `' '`. -/
def isSpace (b : Nat) : Bool :=
  b == 9 || b == 10 || b == 11 || b == 12 || b == 13 || b == 32

/-- One byte of `bytes.ToUpper` on ASCII input: `'a'..'z'` move to `'A'..'Z'`. -/
def upperByte (b : Nat) : Nat :=
  if 97 ≤ b ∧ b ≤ 122 then b - 32 else b

/-- Go `bytes.ToUpper` on ASCII input. -/
def ToUpper (s : Bytes) : Bytes := s.map upperByte

/-- Remove the longest suffix whose bytes satisfy `p`. -/
def trimRightWhile (p : Nat → Bool) (s : Bytes) : Bytes :=
  (s.reverse.dropWhile p).reverse

/-- Go `bytes.TrimRight(s, ">")`: drop every trailing `'>'`. -/
def TrimRight (s : Bytes) : Bytes := trimRightWhile (fun b => b == GT) s

/-- The UTF-8 encodings of the white space characters of Go `unicode.IsSpace`:
`'\t'`, `'\n'`, `'\v'`, `'\f'`, `'\r'`, `' '`, U+0085, U+00A0, U+1680, U+2000 to
U+200A, U+2028, U+2029, U+202F, U+205F and U+3000. -/
def spaceRunes : List Bytes :=
  [[9], [10], [11], [12], [13], [32], [194, 133], [194, 160], [225, 154, 128],
    [226, 128, 128], [226, 128, 129], [226, 128, 130], [226, 128, 131], [226, 128, 132],
    [226, 128, 133], [226, 128, 134], [226, 128, 135], [226, 128, 136], [226, 128, 137],
    [226, 128, 138], [226, 128, 168], [226, 128, 169], [226, 128, 175], [226, 129, 159],
    [227, 128, 128]]

/-- The bytes start with a white space character. -/
def startsWithSpace (s : Bytes) : Bool := spaceRunes.any (fun r => r.isPrefixOf s)

/-- The bytes end with a white space character. -/
def endsWithSpace (s : Bytes) : Bool := spaceRunes.any (fun r => r.isSuffixOf s)

/-- The bytes hold a white space character. -/
def holdsSpace (s : Bytes) : Bool := spaceRunes.any (fun r => decide (r <:+: s))

/-- Remove white space characters from the front, one for each unit of fuel.
Decoding forward, the first character is a white space exactly when the bytes
start with the encoding of one: the encodings above are the only byte sequences
that `utf8.DecodeRune` reads as these characters. -/
def trimSpaceLeft : Nat → Bytes → Bytes
  | 0, s => s
  | n + 1, s =>
    match spaceRunes.find? (fun r => r.isPrefixOf s) with
    | some r => trimSpaceLeft n (s.drop r.length)
    | none => s

/-- Remove white space characters from the end, one for each unit of fuel.
Decoding backward (`utf8.DecodeLastRune`), the last character is a white space
exactly when the bytes end with the encoding of one: the bytes of an encoding
after its first are continuation bytes, so the scan back stops at its first byte. -/
def trimSpaceRight : Nat → Bytes → Bytes
  | 0, s => s
  | n + 1, s =>
    match spaceRunes.find? (fun r => r.isSuffixOf s) with
    | some r => trimSpaceRight n (s.take (s.length - r.length))
    | none => s

/-- Go `bytes.TrimSpace`: slice off all leading and trailing white space, as
defined by Unicode.  Every character removed takes at least one byte, so the
length is fuel enough. -/
def TrimSpace (s : Bytes) : Bytes := trimSpaceRight s.length (trimSpaceLeft s.length s)

/-- Go `bytes.Split(s, []byte{sep})`: the fields between the separators, always
at least one field. -/
def Split (sep : Nat) : Bytes → List Bytes
  | [] => [[]]
  | b :: bs =>
    if b = sep then [] :: Split sep bs
    else
      match Split sep bs with
      | [] => [[b]]
      | l :: ls => (b :: l) :: ls

/-- Go `bufio.Reader.ReadBytes(delim)` on the unread bytes: the data up to and
including the first `delim`, whether `io.EOF` was hit before a delimiter was
found, and the bytes left unread. -/
def ReadBytes (delim : Nat) : Bytes → Bytes × Bool × Bytes
  | [] => ([], true, [])
  | b :: bs =>
    if b = delim then ([b], false, bs)
    else
      let r := ReadBytes delim bs
      (b :: r.1, r.2.1, r.2.2)

/-! ## Sequence codec (`file/file.go`) -/

set_option linter.dupNamespace false in
/-- Go `file.Seq`. -/
structure Seq where
  ID : Bytes
  Seq : Bytes
  deriving DecidableEq, Repr

/-- Go `(*Seq).Record`: `'>' + ID + '\n' + ToUpper(Seq) + '\n'`. -/
def Seq.Record (s : MGRast.Seq) : Bytes :=
  [GT] ++ s.ID ++ [NL] ++ ToUpper s.Seq ++ [NL]

/-- The `error` values the codec returns. -/
inductive Err where
  | nil
  | EOF
  | invalid
  deriving DecidableEq, Repr

/-- Go `file.Reader`: `f` holds the bytes of the underlying stream that have not
been consumed, `opened` tells whether `self.r` has been set, `c` selects the
decompression layer. -/
structure Reader where
  f : Bytes
  opened : Bool
  c : Bool
  deriving DecidableEq, Repr

/-- Go `file.NewReader`. -/
def NewReader (f : Bytes) (c : Bool) : Reader := { f := f, opened := false, c := c }

/-- The tail of `Reader.Read` after the loop (file.go:113-121). -/
def readFinish (label body : Bytes) (eof : Bool) : Option Seq × Err :=
  let seq : Option Seq := if label.length > 0 then some { ID := label, Seq := body } else none
  let err : Err := if label.length > 0 then Err.nil else Err.invalid
  (seq, if eof then Err.EOF else err)

/-- One iteration of the `for` loop of `Reader.Read` (file.go:78-112) with
`prev` accumulated so far and `rest` unread: either the loop goes on (`continue`)
with a new `prev` and the bytes left unread, or it ends (`break`) and the call
returns.  `eof` is set in the iteration in which `ReadBytes` first reports
`io.EOF`; from then on nothing is unread and every `ReadBytes` reports it again. -/
def readStep (prev rest : Bytes) : Sum (Bytes × Bytes) ((Option Seq × Err) × Bytes) :=
  let rb := ReadBytes GT rest
  let eof := rb.2.1
  let read := if prev.length > 0 then prev ++ rb.1 else rb.1
  if read.length = 1 then
    if eof then Sum.inr (readFinish [] [] eof, rb.2.2)
    else Sum.inl (prev, rb.2.2)
  else if ¬ NL ∈ read then
    Sum.inl (read, rb.2.2)
  else
    let lines := Split NL (TrimSpace (TrimRight read))
    let label := lines.headD []
    let body := if lines.length > 1 then (lines.drop 1).flatten else []
    Sum.inr (readFinish label body eof, rb.2.2)

/-- The `for` loop of `Reader.Read`; one unit of fuel per iteration. -/
def readLoop : Nat → Bytes → Bytes → Option ((Option Seq × Err) × Bytes)
  | 0, _, _ => none
  | fuel + 1, prev, rest =>
    match readStep prev rest with
    | Sum.inl (prev', rest') => readLoop fuel prev' rest'
    | Sum.inr res => some res

/-- Go `(*Reader).Read`: the record (or `nil`), the error, and the reader after
the call; `none` when the loop never returns.  Every iteration but the last two
consumes a byte, so `length + 2` iterations decide (`readLoop_enough_fuel`). -/
def Reader.Read (self : Reader) : Option ((Option Seq × Err) × Reader) :=
  if ¬ self.opened ∧ self.c ∧ self.f = [] then
    some ((none, Err.EOF), self)
  else
    match readLoop (self.f.length + 2) [] self.f with
    | none => none
    | some (res, rest) => some (res, { self with f := rest, opened := true })

/-- The results of `n` successive `Read` calls on a reader, oldest first. -/
def readN : Nat → Reader → Option (List (Option Seq × Err))
  | 0, _ => some []
  | n + 1, r =>
    match r.Read with
    | none => none
    | some (res, r') => (readN n r').map (fun l => res :: l)

/-- A record given as an identifier line and body lines. -/
structure LineRecord where
  id : Bytes
  lines : List Bytes
  deriving DecidableEq, Repr

/-- The body lines of a record on the wire: each line followed by `'\n'`. -/
def bodyLines (lines : List Bytes) : Bytes := (lines.map (fun l => l ++ [NL])).flatten

/-- A record without its leading delimiter: `identifier '\n' line1 '\n' ...`. -/
def LineRecord.chunk (r : LineRecord) : Bytes := r.id ++ NL :: bodyLines r.lines

/-- The stream form of a record: `'>' identifier '\n' line1 '\n' ...`. -/
def LineRecord.encode (r : LineRecord) : Bytes := GT :: r.chunk

/-- An identifier line that `Read` gives back whole: it is non-empty, does not
start with `'>'`, holds no newline, and neither starts nor ends with a white
space character.  A `'>'` after the first byte is allowed. -/
def GoodId (id : Bytes) : Prop :=
  id ≠ [] ∧ id.head? ≠ some GT ∧ NL ∉ id ∧ startsWithSpace id = false ∧
    endsWithSpace id = false

instance (id : Bytes) : Decidable (GoodId id) := by
  unfold GoodId; infer_instance

/-- A body line holds no `'>'` and no white space character. -/
def GoodLine (l : Bytes) : Prop := GT ∉ l ∧ holdsSpace l = false

instance (l : Bytes) : Decidable (GoodLine l) := by
  unfold GoodLine; infer_instance

/-- Identifier and body lines both meet the conditions of the stream format. -/
def GoodRecord (r : LineRecord) : Prop := GoodId r.id ∧ ∀ l ∈ r.lines, GoodLine l

instance (r : LineRecord) : Decidable (GoodRecord r) := by
  unfold GoodRecord; infer_instance

/-- The record `Read` is expected to return: the identifier and the body lines
joined without separators. -/
def LineRecord.toSeq (r : LineRecord) : Seq := { ID := r.id, Seq := r.lines.flatten }

/-- The optional delimiter in front of the first chunk of a stream. -/
def leadGT (lead : Bool) : Bytes := if lead then [GT] else []

/-- What follows a record chunk in a stream: nothing, or the delimiter of the
next record and the bytes after it. -/
def tailOf (more : Option Bytes) : Bytes :=
  match more with
  | none => []
  | some rest => GT :: rest

/-- The error `Read` returns with a record: `io.EOF` when nothing follows it. -/
def errOf (more : Option Bytes) : Err :=
  match more with
  | none => Err.EOF
  | some _ => Err.nil

/-! ## Ledger (`index/index.go`)

A Go `string` is kept as its bytes. -/

/-- Go `index.Index`. -/
structure Index where
  Project : Bytes
  Metagenomes : List Bytes
  StartFile : Int
  StartRecord : Int
  EndFile : Int
  EndRecord : Int
  Completed : Bool
  deriving DecidableEq, Repr

/-- Go `new(index.Index)`: every field at its zero value. -/
def Index.new : Index :=
  { Project := [], Metagenomes := [], StartFile := 0, StartRecord := 0, EndFile := 0,
    EndRecord := 0, Completed := false }

/-- Go `index.PrevInfo`. -/
structure PrevInfo where
  M : Bytes
  F : Int
  R : Int
  deriving DecidableEq, Repr

/-- Go `new(index.PrevInfo)`. -/
def PrevInfo.new : PrevInfo := { M := [], F := 0, R := 0 }

/-- Go `(*Index).Init`. -/
def Index.Init (i : Index) (p m : Bytes) (f r : Int) : Index :=
  { i with Project := p, Metagenomes := i.Metagenomes ++ [m], StartFile := f, StartRecord := r }

/-- Go `(*Index).Update`: the loop clears `add` at every equal sample. -/
def Index.Update (i : Index) (mg : Bytes) : Index :=
  if mg = [] then i
  else
    let add := i.Metagenomes.foldl (fun add m => if m = mg then false else add) true
    if add then { i with Metagenomes := i.Metagenomes ++ [mg] } else i

/-- Go `(*Index).Finalize`. -/
def Index.Finalize (i : Index) (mg : Bytes) (f r : Int) : Index :=
  { i.Update mg with EndFile := f, EndRecord := r, Completed := true }

/-- Go `index.Indexes`, a slice of pointers to entries.  The embedding keeps the
entries themselves; a pointer held by a caller is the position of its entry. -/
abbrev Indexes := List Index

/-- Go `(*Indexes).Get`: the last entry; `none` is the index-out-of-range panic
on an empty ledger. -/
def Indexes.Get (idx : Indexes) : Option Index := idx.getLast?

/-- Go `(*Indexes).Add`. -/
def Indexes.Add (idx : Indexes) (i : Index) : Indexes := idx ++ [i]

/-- Go `(*Indexes).Len`. -/
def Indexes.Len (idx : Indexes) : Int := idx.length

/-- Go `(*Indexes).RemoveFromEnd`: reslice to the first `len - n` entries.
`none` is the slice-bounds panic for `n` above the length; a negative `n` would
reslice into spare capacity, which the embedding does not keep, and is `none`
as well. -/
def Indexes.RemoveFromEnd (idx : Indexes) (n : Int) : Option Indexes :=
  if 0 ≤ n ∧ n ≤ idx.length then some (idx.take (idx.length - n.toNat)) else none

/-- The ordinals visited by `for n := sf; n <= ef; n++`. -/
def fileRange (sf ef : Int) : List Int :=
  (List.range (ef + 1 - sf).toNat).map (fun (k : Nat) => sf + (k : Int))

/-- The body of the inner loop of `FileList`: append an ordinal not seen yet.
`seen` holds exactly the ordinals appended to `files`, so membership in `files`
stands for the map. -/
def addFile (files : List Int) (n : Int) : List Int :=
  if n ∈ files then files else files ++ [n]

/-- Go `(*Indexes).FileList`: unique ordered list of the ordinals of the entries
at positions `from` and above. -/
def Indexes.FileList (idx : Indexes) (from_ : Int) : List Int :=
  idx.enum.foldl
    (fun files ni =>
      if (ni.1 : Int) < from_ then files
      else (fileRange ni.2.StartFile ni.2.EndFile).foldl addFile files)
    []

/-- First-occurrence de-duplication, as the specification words it: keep each
ordinal where it first appears and drop its later occurrences. -/
def dedupFirst : List Int → List Int
  | [] => []
  | a :: l => a :: (dedupFirst l).filter (fun b => b != a)

/-- The specification of `fileNumbers(from)`: the concatenated ranges
`startFile..endFile` of the entries at positions `from` and above, de-duplicated
keeping first occurrences. -/
def fileNumbersSpec (idx : Indexes) (from_ : Int) : List Int :=
  dedupFirst ((idx.drop from_.toNat).map (fun i => fileRange i.StartFile i.EndFile)).flatten

/-! ## Output directory

The directory holds the files `<n>.fasta.gz` written by `FileFromInt` and the
renamed copies `<n>.fasta.gz.temp`; a file is the list of the byte chunks written
to it, its content their concatenation. -/

/-- The name of a file of the export directory. -/
inductive FName where
  | export (n : Int)
  | temp (n : Int)
  deriving DecidableEq, Repr

/-- Go `FileFromInt`. -/
def FileFromInt (num : Int) : FName := FName.export num

abbrev Dir := List (FName × List Bytes)

/-- The chunks of a file, `none` when the file does not exist. -/
def Dir.get : Dir → FName → Option (List Bytes)
  | [], _ => none
  | (m, c) :: d, n => if m = n then some c else Dir.get d n

/-- Create the file or replace its chunks. -/
def Dir.put : Dir → FName → List Bytes → Dir
  | [], n, c => [(n, c)]
  | (m, c') :: d, n, c => if m = n then (m, c) :: d else (m, c') :: Dir.put d n c

/-- Go `os.Remove`. -/
def Dir.remove : Dir → FName → Dir
  | [], _ => []
  | (m, c) :: d, n => if m = n then Dir.remove d n else (m, c) :: Dir.remove d n

/-- Go `(*Exporter).exportFiles`: the names matching `*.fasta.gz`. -/
def Dir.exportFiles (d : Dir) : List FName :=
  (d.map Prod.fst).filter (fun n => match n with | FName.export _ => true | FName.temp _ => false)

/-! ## Writer engine (`exporter/writer.go`) -/

/-- Go `exporter.Record`. -/
structure Record where
  R : Bytes
  P : Bytes
  M : Bytes
  deriving DecidableEq, Repr

/-- A Go `int64` product wraps around. -/
def wrap64 (x : Int) : Int := (x + 2 ^ 63) % 2 ^ 64 - 2 ^ 63

/-- Go `(*RWBuffer).Init`: the threshold `b.Size` in bytes, `size` MiB in debug
mode and `size` GiB otherwise. -/
def RWBuffer.Init (size : Int) (debug : Bool) : Int :=
  if debug then wrap64 (wrap64 (size * 1024) * 1024)
  else wrap64 (wrap64 (wrap64 (size * 1024) * 1024) * 1024)

/-- What the writer receives on `RecBuffer`, together with the answers of the
file system to the calls the signal triggers: `writeErr` tells whether
`currWrite.Write` fails for this record, `size` is what `currFile.Stat` reports
after the write. -/
inductive Signal where
  | boundary
  | record (rec : Record) (writeErr : Bool) (size : Int)
  deriving DecidableEq, Repr

/-- Apply `f` to the last entry of the ledger: a method called through
`currIndex`, which in normal mode points at the entry added last. -/
def modifyLast (f : Index → Index) : Indexes → Indexes
  | [] => []
  | [i] => [f i]
  | i :: j :: l => i :: modifyLast f (j :: l)

/-- The state of `WriterHandle`: the configured threshold `b.Size`, the mode,
the global ledger `index.ExportIndex`, the snapshot file `export.index`, the
directory, the records `currWrite` has been given and not yet brought to the
file, and the locals of the function.  `acks` counts the messages sent on
`Done`, `returned` is set once the function has returned.  `overwrote` is set
when a rotation opens a file that already exists: without `O_APPEND` the writes
land on its first bytes, and the chunks kept for that file (the new ones only)
no longer describe it. -/
structure Writer where
  Size : Int
  simpleWrite : Bool
  ExportIndex : Indexes
  snapshot : Option Indexes
  dir : Dir
  pending : List Bytes
  prev : PrevInfo
  fileCount : Int
  recCount : Int
  projectDone : Bool
  acks : Nat
  returned : Bool
  overwrote : Bool
  deriving DecidableEq, Repr

/-- The file the writer appends to. -/
def Writer.currFile (w : Writer) : FName := FileFromInt w.fileCount

/-- Go `os.OpenFile(fname, O_APPEND|O_CREATE|O_WRONLY)`: create the file when it
is missing. -/
def Dir.openAppend (d : Dir) (n : FName) : Dir :=
  match d.get n with
  | none => d.put n []
  | some _ => d

/-- Go `currWrite.Close()` (file.go:57-61): the chunks given to `currWrite.Write`
since the file was opened reach the file.  When nothing was given there is no
`gzip.Writer` to close and the file stays as it is. -/
def Dir.flush (d : Dir) (n : FName) (chunks : List Bytes) : Dir :=
  if chunks = [] then d else d.put n ((d.get n).getD [] ++ chunks)

/-- The start of `WriterHandle` (writer.go:44-74): choose the start coordinates,
open the start file, add the fresh entry in normal mode.  Opening a file is
taken to succeed. -/
def WriterHandle.start (Size : Int) (idx : Indexes) (snapshot : Option Indexes) (dir : Dir)
    (simpleWrite : Bool) (startFile startRec : Int) : Writer :=
  let start : Int × Int :=
    if startFile = 0 ∨ startRec = 0 then
      match idx.getLast? with
      | none => (1, 1)
      | some l => (l.EndFile, l.EndRecord + 1)
    else (startFile, startRec)
  { Size := Size
    simpleWrite := simpleWrite
    ExportIndex := if simpleWrite then idx else idx.Add Index.new
    snapshot := snapshot
    dir := dir.openAppend (FileFromInt start.1)
    pending := []
    prev := PrevInfo.new
    fileCount := start.1
    recCount := start.2
    projectDone := false
    acks := 0
    returned := false
    overwrote := false }

/-- The entry `currIndex` points at in normal mode. -/
def Writer.currIndex (w : Writer) : Index := w.ExportIndex.getLast?.getD Index.new

/-- The third branch of the ledger update (writer.go:131-135): the record's
project is neither that of the open entry nor is the entry empty. -/
def Writer.violation (w : Writer) (rec : Record) : Bool :=
  w.currIndex.Project != rec.P && w.currIndex.Project != []

/-- The ledger update of a written record (writer.go:123-130). -/
def Writer.updateIndex (w : Writer) (rec : Record) : Indexes :=
  if w.currIndex.Project = rec.P then
    if rec.M ≠ w.prev.M then modifyLast (fun i => i.Update rec.M) w.ExportIndex
    else w.ExportIndex
  else
    modifyLast (fun i => i.Init rec.P rec.M w.fileCount w.recCount) w.ExportIndex

/-- One iteration of the loop of `WriterHandle` (writer.go:75-157). -/
def Writer.step (w : Writer) (sig : Signal) : Writer :=
  if w.returned then w
  else
    match sig with
    | Signal.boundary =>
      if w.projectDone then
        { w with
            dir := w.dir.flush w.currFile w.pending
            pending := []
            acks := w.acks + 1
            returned := true }
      else if w.simpleWrite then
        { w with projectDone := true }
      else
        let idx := modifyLast (fun i => i.Finalize w.prev.M w.prev.F w.prev.R) w.ExportIndex
        { w with
            projectDone := true
            ExportIndex := idx.Add Index.new
            snapshot := some idx
            acks := w.acks + 1 }
    | Signal.record rec writeErr size =>
      if writeErr then
        { w with projectDone := false }
      else
        let pending := w.pending ++ [rec.R]
        if w.simpleWrite then
          { w with projectDone := false, pending := pending }
        else if w.violation rec then
          { w with projectDone := false, pending := pending }
        else
          let idx := w.updateIndex rec
          let prev : PrevInfo := { M := rec.M, F := w.fileCount, R := w.recCount }
          if size > w.Size then
            let dir := w.dir.flush w.currFile pending
            let next := FileFromInt (w.fileCount + 1)
            { w with
                projectDone := false
                ExportIndex := idx
                prev := prev
                fileCount := w.fileCount + 1
                recCount := 1
                overwrote := w.overwrote || (dir.get next).isSome
                dir := dir.put next []
                pending := [] }
          else
            { w with
                projectDone := false
                pending := pending
                ExportIndex := idx
                prev := prev
                recCount := w.recCount + 1 }

/-- The writer after it has received the signals in order. -/
def Writer.run (w : Writer) (sigs : List Signal) : Writer := sigs.foldl Writer.step w

/-- No write fails and the third branch of the ledger update is never taken
while the writer receives the signals. -/
def Writer.cleanRun : Writer → List Signal → Prop
  | _, [] => True
  | w, Signal.boundary :: sigs => Writer.cleanRun (w.step Signal.boundary) sigs
  | w, Signal.record rec writeErr size :: sigs =>
    writeErr = false ∧ w.violation rec = false ∧
      Writer.cleanRun (w.step (Signal.record rec writeErr size)) sigs

/-! ## Recovery operations (`exporter/exporter.go`, `index/index.go`) -/

/-- The errors the recovery operations return. -/
inductive Failure where
  | rename
  | open_
  | eofBeforeLast
  | invalidRecord
  | read (e : Err)
  | incomplete
  | header
  | projectID
  | metagenomeID
  deriving DecidableEq, Repr

/-- How a call ends: it returns a value, returns an error, panics, or never
returns. -/
inductive Outcome (α : Type) where
  | ok (a : α)
  | error (e : Failure)
  | panic
  | hang
  deriving DecidableEq, Repr

/-- The ledger snapshot `export.index` and the export directory. -/
structure Store where
  snapshot : Option Indexes
  dir : Dir
  deriving DecidableEq, Repr

/-- Go `(*Indexes).Init` on the empty global ledger of a fresh process: the
entries of the snapshot when the file exists, no entry otherwise.  The snapshot
is taken to be well-formed JSON. -/
def Indexes.Init (snapshot : Option Indexes) : Indexes := snapshot.getD []

/-- The copy loop of `truncateExportFile` (exporter.go:329-349) with `n`
iterations left: read a record from the renamed file and submit its encoding to
the writer.  The replayed writes are taken to succeed. -/
def copyRecords : Nat → Reader → Writer → Outcome Writer
  | 0, _, w => Outcome.ok w
  | n + 1, rd, w =>
    match rd.Read with
    | none => Outcome.hang
    | some ((seq, er), rd') =>
      if er ≠ Err.nil then
        if er = Err.EOF then Outcome.error Failure.eofBeforeLast
        else Outcome.error (Failure.read er)
      else
        match seq with
        | none => Outcome.error Failure.invalidRecord
        | some sq =>
          copyRecords n rd' (w.step (Signal.record { R := sq.Record, P := [], M := [] } false 0))

/-- Go `(*Exporter).truncateExportFile`, with the directory it leaves behind:
rename the file, replay its first `newRec` records through a writer in
replay-only mode, remove the renamed copy.  When the copy loop returns an error
the writer, started before the loop, has opened the file anew and is left
waiting; the records copied so far are pending in it and never reach the file,
and the renamed copy stays. -/
def truncateExportFile.run (Size : Int) (idx : Indexes) (dir : Dir) (fint newRec : Int) :
    Dir × Outcome Unit :=
  let filePath := FileFromInt fint
  let tempFile := FName.temp fint
  match dir.get filePath with
  | none => (dir, Outcome.error Failure.rename)
  | some chunks =>
    let dir1 := (dir.remove filePath).put tempFile chunks
    let w := WriterHandle.start Size idx none dir1 true fint 1
    let tempReader := NewReader chunks.flatten true
    match copyRecords newRec.toNat tempReader w with
    | Outcome.ok w1 =>
      let w2 := (w1.step Signal.boundary).step Signal.boundary
      (w2.dir.remove tempFile, Outcome.ok ())
    | Outcome.error e => (w.dir, Outcome.error e)
    | Outcome.panic => (w.dir, Outcome.panic)
    | Outcome.hang => (w.dir, Outcome.hang)

/-- Go `(*Exporter).truncateExportFile`: how the call returns, with the directory
when it returns no error. -/
def truncateExportFile (Size : Int) (idx : Indexes) (dir : Dir) (fint newRec : Int) :
    Outcome Dir :=
  match truncateExportFile.run Size idx dir fint newRec with
  | (dir', Outcome.ok _) => Outcome.ok dir'
  | (_, Outcome.error e) => Outcome.error e
  | (_, Outcome.panic) => Outcome.panic
  | (_, Outcome.hang) => Outcome.hang

/-- Go `(*Exporter).Clean`. -/
def Clean (Size : Int) (st : Store) : Outcome Store :=
  let idx := Indexes.Init st.snapshot
  let indexFiles := (idx.FileList 0).map FileFromInt
  let extra := st.dir.exportFiles.filter (fun f => f ∉ indexFiles)
  let dir := extra.foldl Dir.remove st.dir
  match idx.Get with
  | none => Outcome.panic
  | some lastIndex =>
    match truncateExportFile Size idx dir lastIndex.EndFile lastIndex.EndRecord with
    | Outcome.ok dir' => Outcome.ok { snapshot := st.snapshot, dir := dir' }
    | Outcome.error e => Outcome.error e
    | Outcome.panic => Outcome.panic
    | Outcome.hang => Outcome.hang

/-- Go `SliceIndex`: the first position below `limit` at which the predicate
holds, or `-1`. -/
def SliceIndex (limit : Nat) (predicate : Nat → Bool) : Int :=
  match (List.range limit).find? predicate with
  | some i => (i : Int)
  | none => -1

/-- The third branch of `(*Exporter).Remove` up to the deletion loop
(exporter.go:139-150): the new last entry and the ordinals the loop removes. -/
def Remove.filesRemove (idx : Indexes) (count : Int) : Outcome (Index × List Int) :=
  let newLastPos := idx.Len - count - 1
  if newLastPos < 0 then Outcome.panic
  else
    match idx.get? newLastPos.toNat with
    | none => Outcome.panic
    | some newLastIndex =>
      let filesRemove := idx.FileList (newLastPos + 1)
      let lastFile := newLastIndex.EndFile
      if lastFile = 0 ∨ newLastIndex.EndRecord = 0 ∨ newLastIndex.Completed = false then
        Outcome.error Failure.incomplete
      else
        let lastFilePos := SliceIndex filesRemove.length
          (fun i => filesRemove.get? i == some lastFile)
        if lastFilePos ≠ -1 then
          Outcome.ok (newLastIndex,
            filesRemove.take lastFilePos.toNat ++ filesRemove.drop (lastFilePos.toNat + 1))
        else Outcome.ok (newLastIndex, filesRemove)

/-- Go `(*Exporter).Remove`, with the store it leaves behind: the deletion loop
(exporter.go:152-155), `RemoveFromEnd` and `Save`, then `truncateExportFile` on
the end file of the new last entry. -/
def Remove.run (Size : Int) (st : Store) (count : Int) : Store × Outcome Unit :=
  let idx := Indexes.Init st.snapshot
  if idx.Len = 0 then (st, Outcome.ok ())
  else if idx.Len ≤ count then
    ({ snapshot := none
       dir := (idx.FileList 0).foldl (fun d n => d.remove (FileFromInt n)) st.dir },
      Outcome.ok ())
  else
    match Remove.filesRemove idx count with
    | Outcome.ok (newLastIndex, filesRemove) =>
      let dir := filesRemove.foldl (fun d n => d.remove (FileFromInt n)) st.dir
      match idx.RemoveFromEnd count with
      | none => ({ snapshot := st.snapshot, dir := dir }, Outcome.panic)
      | some idx' =>
        let t := truncateExportFile.run Size idx' dir newLastIndex.EndFile newLastIndex.EndRecord
        ({ snapshot := some idx', dir := t.1 }, t.2)
    | Outcome.error e => (st, Outcome.error e)
    | Outcome.panic => (st, Outcome.panic)
    | Outcome.hang => (st, Outcome.hang)

/-- Go `(*Exporter).Remove`: how the call returns, with the store when it returns
no error. -/
def Remove (Size : Int) (st : Store) (count : Int) : Outcome Store :=
  match Remove.run Size st count with
  | (st', Outcome.ok _) => Outcome.ok st'
  | (_, Outcome.error e) => Outcome.error e
  | (_, Outcome.panic) => Outcome.panic
  | (_, Outcome.hang) => Outcome.hang

/-- The byte `'|'`. -/
def BAR : Nat := 124

/-- The bytes of `"mgp"`. -/
def MGP : Bytes := [109, 103, 112]

/-- The bytes of `"mgm"`. -/
def MGM : Bytes := [109, 103, 109]

/-- Go `file.ParseHeader`: project and sample of a header `project|sample|...`. -/
def ParseHeader (h : Bytes) : Except Failure (Bytes × Bytes) :=
  let parts := Split BAR h
  if parts.length < 3 then Except.error Failure.header
  else
    let p := parts.headD []
    let m := (parts.drop 1).headD []
    if ¬ MGP.isPrefixOf p then Except.error Failure.projectID
    else if ¬ MGM.isPrefixOf m then Except.error Failure.metagenomeID
    else Except.ok (p, m)

/-- Apply `f` to the entry at position `k`: a method called through a pointer
to that entry. -/
def modifyAt (f : Index → Index) (k : Nat) (idx : Indexes) : Indexes :=
  match idx.get? k with
  | none => idx
  | some e => idx.set k (f e)

/-- The ledger update of `indexFile` for one record (index.go:225-239).  Pointers
are positions in the ledger, `none` the nil pointer; dereferencing nil panics. -/
def indexRecord (idx : Indexes) (prev : Option PrevInfo) (currIndex nextIndex : Option Nat)
    (proj mg : Bytes) (fnum rnum : Int) : Outcome (Indexes × Option Nat) :=
  match currIndex with
  | none => Outcome.panic
  | some k =>
    let cur := (idx.get? k).getD Index.new
    if cur.Project = proj then
      match prev with
      | none => Outcome.panic
      | some pv =>
        if mg ≠ pv.M then Outcome.ok (modifyAt (fun i => i.Update mg) k idx, nextIndex)
        else Outcome.ok (idx, nextIndex)
    else if cur.Project = [] then
      Outcome.ok (modifyAt (fun i => i.Init proj mg fnum rnum) k idx, nextIndex)
    else
      match prev with
      | none => Outcome.panic
      | some pv =>
        let idx1 := modifyAt (fun i => i.Finalize pv.M pv.F pv.R) k idx
        let idx2 := idx1.Add (Index.new.Init proj mg fnum rnum)
        Outcome.ok (idx2, some idx1.length)

/-- The loop of `indexFile` (index.go:206-249).  `next` is the named result of
`indexFile`; the function never assigns it, so it is the nil pointer when
`next.M = mg` stores through it. -/
def indexLoop (fnum : Int) :
    Nat → Int → Reader → Indexes → Option PrevInfo → Option Nat → Option PrevInfo →
      Option Nat → Outcome (Indexes × Option PrevInfo × Option Nat)
  | 0, _, _, _, _, _, _, _ => Outcome.hang
  | fuel + 1, rnum, fr, idx, prev, currIndex, next, nextIndex =>
    let rnum := rnum + 1
    match fr.Read with
    | none => Outcome.hang
    | some ((seq, er), fr') =>
      if er ≠ Err.nil ∧ er ≠ Err.EOF then Outcome.error (Failure.read er)
      else
        let eof : Bool := er ≠ Err.nil
        if eof ∧ seq = none then Outcome.ok (idx, next, nextIndex)
        else
          match seq with
          | none => Outcome.panic
          | some sq =>
            match ParseHeader sq.ID with
            | Except.error e => Outcome.error e
            | Except.ok (proj, mg) =>
              match indexRecord idx prev currIndex nextIndex proj mg fnum rnum with
              | Outcome.ok (idx', nextIndex') =>
                match next with
                | none => Outcome.panic
                | some _ =>
                  let next' : Option PrevInfo := some { M := mg, F := fnum, R := rnum }
                  let nextIndex'' := if nextIndex' = none then currIndex else nextIndex'
                  if eof then Outcome.ok (idx', next', nextIndex'')
                  else indexLoop fnum fuel rnum fr' idx' prev currIndex next' nextIndex''
              | Outcome.error e => Outcome.error e
              | Outcome.panic => Outcome.panic
              | Outcome.hang => Outcome.hang

/-- The ordinal `strconv.Atoi(strings.Split(filepath.Base(f), ".")[0])` reads
off a file name. -/
def FName.fnum : FName → Int
  | FName.export n => n
  | FName.temp n => n

/-- Go `(*Indexes).indexFile`.  A `Read` without error consumes at least one
byte, so the loop runs at most `length + 1` times. -/
def indexFile (idx : Indexes) (dir : Dir) (f : FName) (prev : Option PrevInfo)
    (currIndex : Option Nat) : Outcome (Indexes × Option PrevInfo × Option Nat) :=
  match dir.get f with
  | none => Outcome.error Failure.open_
  | some chunks =>
    indexLoop f.fnum (chunks.flatten.length + 1) 0 (NewReader chunks.flatten true) idx prev
      currIndex none none

/-- The loop of `IndexAllFiles` over the files. -/
def indexFiles (dir : Dir) :
    List FName → Indexes → Option PrevInfo → Option Nat →
      Outcome (Indexes × Option PrevInfo × Option Nat)
  | [], idx, prev, currIndex => Outcome.ok (idx, prev, currIndex)
  | f :: files, idx, prev, currIndex =>
    match indexFile idx dir f prev currIndex with
    | Outcome.ok (idx', prev', currIndex') => indexFiles dir files idx' prev' currIndex'
    | Outcome.error e => Outcome.error e
    | Outcome.panic => Outcome.panic
    | Outcome.hang => Outcome.hang

/-- Go `(*Indexes).IndexAllFiles`: the ledger it builds. -/
def Indexes.IndexAllFiles (idx : Indexes) (dir : Dir) (files : List FName) : Outcome Indexes :=
  match indexFiles dir files (idx.Add Index.new) (some PrevInfo.new) (some idx.length) with
  | Outcome.ok (idx', prev, currIndex) =>
    match prev, currIndex with
    | some pv, some k => Outcome.ok (modifyAt (fun i => i.Finalize pv.M pv.F pv.R) k idx')
    | _, _ => Outcome.panic
  | Outcome.error e => Outcome.error e
  | Outcome.panic => Outcome.panic
  | Outcome.hang => Outcome.hang

/-! ## Orchestrator (`exporter/exporter.go`) -/

/-- The identifier `Export` gives a record (exporter.go:275):
`bytes.Join([][]byte{projID, mgID, seq.ID}, []byte{'|'})`. -/
def newHead (projID mgID ID : Bytes) : Bytes := projID ++ [BAR] ++ mgID ++ [BAR] ++ ID

/-- Go `DirHasFiles`: whether every listed ordinal names a file of the
directory, and the names that are missing. -/
def DirHasFiles (files : List Int) (dir : Dir) : Bool × List FName :=
  files.foldl
    (fun acc i =>
      match dir.get (FileFromInt i) with
      | none => (false, acc.2 ++ [FileFromInt i])
      | some _ => acc)
    (true, [])

/-- The loop of `IsComplete` over the entries from position `n` on
(index.go:145-151); the named results keep their zero values unless an entry
that is not completed is met. -/
def IsComplete.loop : Nat → List Index → Bool × Bytes × Int
  | _, [] => (true, [], 0)
  | n, i :: rest =>
    if !i.Completed then (false, i.Project, (n : Int) + 1) else IsComplete.loop (n + 1) rest

/-- Go `(*Indexes).IsComplete`: `ok`, `badProject`, `badPos`. -/
def Indexes.IsComplete (idx : Indexes) : Bool × Bytes × Int := IsComplete.loop 0 idx

/-- Go `(*Indexes).Contains`. -/
def Indexes.Contains (idx : Indexes) (p : Bytes) : Bool := idx.any (fun i => i.Project == p)

/-- Go `(*Indexes).HasFiles`: whether every listed file carries an ordinal of the
ledger, and the files that do not. -/
def Indexes.HasFiles (idx : Indexes) (files : List FName) : Bool × List FName :=
  let ifiles := idx.FileList 0
  files.foldl
    (fun acc f => if ifiles.any (fun ifile => f.fnum == ifile) then acc else (false, acc.2 ++ [f]))
    (true, [])

/-- One entry of the paginated listing of the object store, with the byte stream
the store returns for its node.  `valid` tells whether the node carries the
fields `Export` reads (`attributes`, `id`, `project_id` and the `id` of the
sample) with the types it expects; `stream` is `none` when the fetch fails. -/
structure Item where
  valid : Bool
  projID : Bytes
  mgID : Bytes
  stream : Option Bytes
  deriving DecidableEq, Repr

/-- How a call of `Export` ends once the writer is started: it returns `nil`, it
returns an error, a `Read` never returns, or it blocks for ever on a channel
whose other end has returned. -/
inductive ExportEnd where
  | ok
  | error
  | hang
  | deadlock
  deriving DecidableEq, Repr

/-- The capacity of `RecBuffer` (writer.go:16). -/
def RecBufferCap : Nat := 1024

/-- The state of the loop of `Export` (exporter.go:195-295): the local
`prevProject`, the writer goroutine, the signals put on `RecBuffer` so far, oldest
first, and the number of them left in the buffer because the writer had returned. -/
structure ExportState where
  prevProject : Bytes
  w : Writer
  sent : List Signal
  queued : Nat
  deriving DecidableEq, Repr

/-- Go `RecordWriter.RecBuffer <- x`.  A live writer receives the signal; once
the writer has returned the signal stays in the buffer, and the send blocks for
ever (`none`) when the buffer is full. -/
def ExportState.send (s : ExportState) (sig : Signal) : Option ExportState :=
  if s.w.returned then
    if s.queued < RecBufferCap then
      some { s with sent := s.sent ++ [sig], queued := s.queued + 1 }
    else none
  else some { s with w := s.w.step sig, sent := s.sent ++ [sig] }

/-- Go `RecordWriter.RecBuffer <- nil` followed by `_ = <-RecordWriter.Done`
(exporter.go:234-235, 297-302): the state after the send, and whether the
acknowledgment arrives; a writer that has returned sends none. -/
def ExportState.boundary (s : ExportState) : ExportState × Bool :=
  match s.send Signal.boundary with
  | none => (s, false)
  | some s' => (s', !s.w.returned)

/-- The record loop of `Export` over one stream (exporter.go:256-291).  `fs k` is
what the file system answers to the write and to `Stat` for the signal number
`k`.  The result is the state when the loop is left and, unless it is left by
`break`, how `Export` ends.  A `Read` that returns no error leaves fewer bytes
unread, so the loop runs at most `length + 1` times. -/
def exportRecords (projID mgID : Bytes) (fs : Nat → Bool × Int) :
    Nat → Reader → ExportState → ExportState × Option ExportEnd
  | 0, _, s => (s, some ExportEnd.hang)
  | fuel + 1, sr, s =>
    match sr.Read with
    | none => (s, some ExportEnd.hang)
    | some ((seq, er), sr') =>
      if er ≠ Err.nil ∧ er ≠ Err.EOF then (s, some ExportEnd.error)
      else
        let eof : Bool := er ≠ Err.nil
        match seq with
        | none => if eof then (s, none) else exportRecords projID mgID fs fuel sr' s
        | some sq =>
          let tagged : Seq := { ID := newHead projID mgID sq.ID, Seq := sq.Seq }
          let record : Record := { R := tagged.Record, P := projID, M := mgID }
          match s.send (Signal.record record (fs s.sent.length).1 (fs s.sent.length).2) with
          | none => (s, some ExportEnd.deadlock)
          | some s' => if eof then (s', none) else exportRecords projID mgID fs fuel sr' s'

/-- The loop of `Export` over the listing (exporter.go:195-302), followed by the
two closing signals.  `nextErr` tells whether the listing ends with an error
other than `io.EOF`.  `Contains` reads the ledger the writer works on; the
project it looks for differs from `prevProject`, the only project the open entry
can carry, so the answer does not depend on how far the writer has got. -/
def exportItems (fs : Nat → Bool × Int) (nextErr : Bool) :
    List Item → ExportState → ExportState × ExportEnd
  | [], s =>
    if nextErr then (s, ExportEnd.error)
    else
      let b1 := s.boundary
      if !b1.2 then (b1.1, ExportEnd.deadlock)
      else
        let b2 := b1.1.boundary
        if !b2.2 then (b2.1, ExportEnd.deadlock) else (b2.1, ExportEnd.ok)
  | item :: items, s =>
    if !item.valid then (s, ExportEnd.error)
    else if item.projID = [] ∨ item.mgID = [] then exportItems fs nextErr items s
    else if s.prevProject = [] ∧ s.w.ExportIndex.Contains item.projID then
      exportItems fs nextErr items s
    else if s.prevProject ≠ [] ∧ s.prevProject ≠ item.projID ∧
        s.w.ExportIndex.Contains item.projID then
      exportItems fs nextErr items s
    else
      let b := if s.prevProject ≠ [] ∧ s.prevProject ≠ item.projID then s.boundary else (s, true)
      if !b.2 then (b.1, ExportEnd.deadlock)
      else
        let s1 : ExportState := { b.1 with prevProject := item.projID }
        match item.stream with
        | none => (s1, ExportEnd.error)
        | some bytes =>
          match exportRecords item.projID item.mgID fs (bytes.length + 1)
              (NewReader bytes false) s1 with
          | (s2, some e) => (s2, e)
          | (s2, none) => exportItems fs nextErr items s2

/-- The validation at the start of `Export` (exporter.go:175-187). -/
def Export.valid (st : Store) : Bool :=
  (Indexes.Init st.snapshot).IsComplete.1 &&
    (DirHasFiles ((Indexes.Init st.snapshot).FileList 0) st.dir).1 &&
    ((Indexes.Init st.snapshot).HasFiles st.dir.exportFiles).1

/-- The writer `Export` starts: `RecordWriter.Init` and `WriterHandle(false, 0, 0)`
(exporter.go:191-192). -/
def Export.writer (size : Int) (debug : Bool) (st : Store) : Writer :=
  WriterHandle.start (RWBuffer.Init size debug) (Indexes.Init st.snapshot) st.snapshot st.dir
    false 0 0

/-- Go `(*Exporter).Export`: `none` when the validation fails and the call
returns its error before the writer is started; otherwise the state when the call
ends (or stops for ever) and how it ends. -/
def Export (size : Int) (debug : Bool) (st : Store) (fs : Nat → Bool × Int)
    (items : List Item) (nextErr : Bool) : Option (ExportState × ExportEnd) :=
  if Export.valid st then
    some (exportItems fs nextErr items
      { prevProject := [], w := Export.writer size debug st, sent := [], queued := 0 })
  else none

/-! ## Conditions on the signals the writer receives -/

/-- The write triggered by the signal does not fail. -/
def Signal.writeOk : Signal → Bool
  | Signal.boundary => true
  | Signal.record _ writeErr _ => !writeErr

/-- The record carries a project ID. -/
def Signal.hasProject : Signal → Bool
  | Signal.boundary => true
  | Signal.record rec _ _ => rec.P != []

/-- The record is tagged as `Export` tags it: project and sample ID are both
present (exporter.go:218-220 skips an item without them). -/
def Signal.tagged : Signal → Bool
  | Signal.boundary => true
  | Signal.record rec _ _ => rec.P != [] && rec.M != []

/-- Every boundary signal comes right after a record; the flag tells whether the
signal received before the list was a record. -/
def recordBeforeBoundary : Bool → List Signal → Bool
  | _, [] => true
  | b, Signal.boundary :: sigs => b && recordBeforeBoundary false sigs
  | _, Signal.record _ _ _ :: sigs => recordBeforeBoundary true sigs

/-! ## The shape of the records `Read` returns -/

/-- What holds of every record `Read` returns: the identifier is non-empty and
holds no newline, the body holds neither `'>'` nor newline, the last byte of
the record (of the body, or of the identifier when the body is empty) is no
white space, and with an empty body the identifier ends with no white space
character. -/
def ReadShape (s : Seq) : Prop :=
  s.ID ≠ [] ∧ NL ∉ s.ID ∧ GT ∉ s.Seq ∧ NL ∉ s.Seq ∧
    (s.ID ++ s.Seq).getLast?.any isSpace = false ∧
    (s.Seq = [] → endsWithSpace s.ID = false)

/-! ## Predicates on the writer state used in the proofs -/

/-- The ledger of a normal-mode writer keeps every entry but the last completed. -/
def Writer.priorCompleted (w : Writer) : Prop :=
  ∀ e ∈ w.ExportIndex.dropLast, e.Completed = true

/-- The state of a normal-mode writer whose files are all of its own making:
the records in the current file and the pending ones are together one less than
the record counter says, no file with a higher ordinal exists, and no rotation
has opened an existing file. -/
def Writer.ownFiles (w : Writer) : Prop :=
  w.simpleWrite = false ∧ w.overwrote = false ∧ w.ExportIndex ≠ [] ∧
    (∃ c, w.dir.get (FileFromInt w.fileCount) = some c ∧
      ((c ++ w.pending).length : Int) + 1 = w.recCount) ∧
    ∀ n, w.fileCount < n → w.dir.get (FileFromInt n) = none

/-- The ledger of a live normal-mode writer is ordered: the entries before the
open one are completed, each with `StartFile ≤ EndFile` and no `EndFile` above the
file counter, each `StartFile` at or above the previous `EndFile`; the open entry
is not completed, and once it carries a project it starts at or above every
earlier `EndFile` and at or below the file of the last record. -/
def Writer.ordered (w : Writer) : Prop :=
  w.simpleWrite = false ∧ w.returned = false ∧
    ∃ fin cur, w.ExportIndex = fin ++ [cur] ∧ cur.Completed = false ∧
      (∀ e ∈ fin, e.Completed = true ∧ e.StartFile ≤ e.EndFile ∧ e.EndFile ≤ w.fileCount) ∧
      fin.Chain' (fun a b => a.EndFile ≤ b.StartFile) ∧
      (cur.Project ≠ [] →
        cur.StartFile ≤ w.prev.F ∧ w.prev.F ≤ w.fileCount ∧
          ∀ e ∈ fin, e.EndFile ≤ cur.StartFile)

/-- No entry of the ledger lists a sample twice, and an open entry without
project lists no sample. -/
def Writer.samplesUnique (w : Writer) : Prop :=
  (∀ e ∈ w.ExportIndex, e.Metagenomes.Nodup) ∧
    (w.currIndex.Project = [] → w.currIndex.Metagenomes = [])

/-- The scan of the signals for mixed projects: `none` once a record without
project, or with a project other than that of the records since the last
boundary, has been met; otherwise the project of the records since the last
boundary, if there is any. -/
def scanStep : Option (Option Bytes) → Signal → Option (Option Bytes)
  | none, _ => none
  | some _, Signal.boundary => some none
  | some none, Signal.record rec _ _ => if rec.P ≠ [] then some (some rec.P) else none
  | some (some p), Signal.record rec _ _ => if rec.P = p ∧ rec.P ≠ [] then some (some p) else none

/-- The invariant of the loop of `Export`: the writer has received the signals
sent; its open entry carries no project, or that of `prevProject` while the
writer is live and has met a record since the last boundary; the records since
the last boundary carry `prevProject`; no record met the protocol-violation
branch. -/
def ExportState.inv (w0 : Writer) (s : ExportState) : Prop :=
  s.w = w0.run s.sent ∧ s.w.simpleWrite = false ∧
    (s.w.currIndex.Project = [] ∨
      (s.w.currIndex.Project = s.prevProject ∧ s.w.projectDone = false ∧
        s.w.returned = false)) ∧
    (s.sent.foldl scanStep (some none) = some none ∨
      (s.sent.foldl scanStep (some none) = some (some s.prevProject) ∧ s.prevProject ≠ [])) ∧
    ∀ (a c : List Signal) (r : Record) (e : Bool) (z : Int),
      s.sent = a ++ Signal.record r e z :: c → (w0.run a).violation r = false

/-! ## Lemmas on the library functions -/

theorem ReadBytes_found (d : Nat) (x rest : Bytes) (hx : d ∉ x) :
    ReadBytes d (x ++ d :: rest) = (x ++ [d], false, rest) := by
  induction x with
  | nil => simp [ReadBytes]
  | cons b x ih =>
    have hb : b ≠ d := fun h => hx (by simp [h])
    have hx' : d ∉ x := fun h => hx (by simp [h])
    simp [ReadBytes, hb, ih hx']

theorem ReadBytes_eof (d : Nat) (x : Bytes) (hx : d ∉ x) :
    ReadBytes d x = (x, true, []) := by
  induction x with
  | nil => simp [ReadBytes]
  | cons b x ih =>
    have hb : b ≠ d := fun h => hx (by simp [h])
    have hx' : d ∉ x := fun h => hx (by simp [h])
    simp [ReadBytes, hb, ih hx']

theorem Split_ne_nil (sep : Nat) (x : Bytes) : Split sep x ≠ [] := by
  induction x with
  | nil => simp [Split]
  | cons b x ih =>
    unfold Split
    split
    · simp
    · split <;> simp

theorem Split_no_sep (sep : Nat) (x : Bytes) (hx : sep ∉ x) : Split sep x = [x] := by
  induction x with
  | nil => simp [Split]
  | cons b x ih =>
    have hb : b ≠ sep := fun h => hx (by simp [h])
    have hx' : sep ∉ x := fun h => hx (by simp [h])
    simp [Split, hb, ih hx']

theorem Split_append_sep (sep : Nat) (x t : Bytes) (hx : sep ∉ x) :
    Split sep (x ++ sep :: t) = x :: Split sep t := by
  induction x with
  | nil => simp [Split]
  | cons b x ih =>
    have hb : b ≠ sep := fun h => hx (by simp [h])
    have hx' : sep ∉ x := fun h => hx (by simp [h])
    simp [Split, hb, ih hx']

theorem Split_flatten (sep : Nat) (x : Bytes) :
    (Split sep x).flatten = x.filter (fun b => b != sep) := by
  induction x with
  | nil => simp [Split]
  | cons b x ih =>
    unfold Split
    by_cases hb : b = sep
    · simp [hb, ih]
    · have hne := Split_ne_nil sep x
      cases hs : Split sep x with
      | nil => exact absurd hs hne
      | cons l ls =>
        rw [hs] at ih
        simp [hb] at ih ⊢
        simp [← ih]

theorem trimRightWhile_split (p : Nat → Bool) (x : Bytes) :
    ∃ w, x = trimRightWhile p x ++ w ∧ ∀ b ∈ w, p b = true := by
  refine ⟨(x.reverse.takeWhile p).reverse, ?_, ?_⟩
  · have h := List.takeWhile_append_dropWhile p x.reverse
    have h2 := congrArg List.reverse h
    simp only [List.reverse_append, List.reverse_reverse] at h2
    exact h2.symm
  · intro b hb
    have hb' : b ∈ x.reverse.takeWhile p := by simpa using hb
    exact List.mem_takeWhile_imp hb'

theorem trimRightWhile_keep (p : Nat → Bool) (x : Bytes) (b : Nat) (hb : p b = false) :
    trimRightWhile p (x ++ [b]) = x ++ [b] := by
  simp [trimRightWhile, List.dropWhile, hb]

theorem trimRightWhile_drop (p : Nat → Bool) (x : Bytes) (b : Nat) (hb : p b = true) :
    trimRightWhile p (x ++ [b]) = trimRightWhile p x := by
  simp [trimRightWhile, List.dropWhile, hb]

theorem trimRightWhile_append (p : Nat → Bool) (x : Bytes) (b : Nat) (y : Bytes)
    (hb : p b = false) :
    trimRightWhile p (x ++ [b] ++ y) = x ++ [b] ++ trimRightWhile p y := by
  induction y using List.reverseRecOn with
  | nil => simp [trimRightWhile, List.dropWhile, hb]
  | append_singleton y c ih =>
    by_cases hc : p c = true
    · rw [← List.append_assoc, trimRightWhile_drop p _ c hc, trimRightWhile_drop p y c hc, ih]
    · have hc' : p c = false := by simpa using hc
      rw [← List.append_assoc, trimRightWhile_keep p _ c hc', trimRightWhile_keep p y c hc']
      simp

/-- A non-empty list ends in its last element. -/
theorem eq_dropLast_append_getLast (x : Bytes) (hx : x ≠ []) :
    ∃ x' b, x = x' ++ [b] ∧ x.getLast? = some b := by
  induction x using List.reverseRecOn with
  | nil => exact absurd rfl hx
  | append_singleton y c _ => exact ⟨y, c, rfl, by simp⟩

/-- The trimmed bytes do not end in white space. -/
theorem trimRightWhile_last (p : Nat → Bool) (r : Bytes) :
    (trimRightWhile p r).getLast?.any p = false := by
  induction r using List.reverseRecOn with
  | nil => simp [trimRightWhile]
  | append_singleton t a ih =>
    by_cases ha : p a = true
    · rw [trimRightWhile_drop p t a ha]; exact ih
    · have ha' : p a = false := by simpa using ha
      rw [trimRightWhile_keep p t a ha']
      simp [ha']

theorem spaceRunes_ne_nil : ∀ r ∈ spaceRunes, r ≠ [] := by decide

/-- An encoding is a single ASCII white space byte, or all of its bytes are at or
above 128. -/
theorem spaceRunes_lengths :
    ∀ r ∈ spaceRunes,
      (r.length = 1 ∧ ∀ b ∈ r, isSpace b = true) ∨ (1 < r.length ∧ ∀ b ∈ r, 128 ≤ b) := by
  decide

theorem spaceRunes_bytes (r : Bytes) (hr : r ∈ spaceRunes) :
    (∃ b, r = [b] ∧ isSpace b = true) ∨ (1 < r.length ∧ ∀ b ∈ r, 128 ≤ b) := by
  rcases spaceRunes_lengths r hr with ⟨h1, h2⟩ | h
  · left
    match r, h1, h2 with
    | [b], _, h2 => exact ⟨b, rfl, h2 b (by simp)⟩
  · exact Or.inr h

theorem isSpace_mem_spaceRunes (b : Nat) (h : isSpace b = true) : [b] ∈ spaceRunes := by
  simp only [isSpace, Bool.or_eq_true, beq_iff_eq] at h
  rcases h with ((((h | h) | h) | h) | h) | h <;> subst h <;> decide

theorem isSpace_lt (b : Nat) (h : isSpace b = true) : b < 128 := by
  simp only [isSpace, Bool.or_eq_true, beq_iff_eq] at h
  omega

theorem startsWithSpace_eq_false (s : Bytes) :
    startsWithSpace s = false ↔ ∀ r ∈ spaceRunes, ¬ r <+: s := by
  simp [startsWithSpace, List.any_eq_false]

theorem endsWithSpace_eq_false (s : Bytes) :
    endsWithSpace s = false ↔ ∀ r ∈ spaceRunes, ¬ r <:+ s := by
  simp [endsWithSpace, List.any_eq_false]

theorem holdsSpace_eq_false (s : Bytes) :
    holdsSpace s = false ↔ ∀ r ∈ spaceRunes, ¬ r <:+: s := by
  simp [holdsSpace, List.any_eq_false]

/-- Bytes without a white space character hold no ASCII white space byte. -/
theorem holdsSpace_bytes (l : Bytes) (h : holdsSpace l = false) : ∀ b ∈ l, isSpace b = false := by
  intro b hb
  by_contra hs
  have hs' : isSpace b = true := by simpa using hs
  have hr := isSpace_mem_spaceRunes b hs'
  apply (holdsSpace_eq_false l).mp h [b] hr
  obtain ⟨s, t, rfl⟩ := List.append_of_mem hb
  exact ⟨s, t, by simp⟩

/-- An encoding in front of bytes that follow non-empty bytes `x`: it lies in
`x` when the byte after `x` is an ASCII byte. -/
theorem prefix_of_ascii_next (r x y : Bytes) (hr : r ∈ spaceRunes) (hx : x ≠ [])
    (hy : ∀ c, y.head? = some c → c < 128) (h : r <+: x ++ y) : r <+: x := by
  rcases List.prefix_or_prefix_of_prefix h (List.prefix_append x y) with h1 | h1
  · exact h1
  · obtain ⟨t, ht⟩ := h1
    cases t with
    | nil => rw [List.append_nil] at ht; rw [← ht]
    | cons c t =>
      exfalso
      rw [← ht] at h
      have h2 : c :: t <+: y := (List.prefix_append_right_inj x).mp h
      obtain ⟨y', hy'⟩ := h2
      have hc : c < 128 := hy c (by rw [← hy']; rfl)
      rcases spaceRunes_bytes r hr with ⟨b, hb, _⟩ | ⟨_, hall⟩
      · rw [← ht] at hb
        cases x with
        | nil => exact hx rfl
        | cons a x => simp at hb
      · have := hall c (by rw [← ht]; simp)
        omega

/-- An encoding at the end of bytes that are followed by non-empty bytes `x`: it
lies in `x` when the byte before `x` is an ASCII byte. -/
theorem suffix_of_ascii_prev (r x y : Bytes) (hr : r ∈ spaceRunes) (hx : x ≠ [])
    (hy : ∀ c, y.getLast? = some c → c < 128) (h : r <:+ y ++ x) : r <:+ x := by
  rcases List.suffix_or_suffix_of_suffix h (List.suffix_append y x) with h1 | h1
  · exact h1
  · obtain ⟨t, ht⟩ := h1
    induction t using List.reverseRecOn with
    | nil => rw [List.nil_append] at ht; rw [← ht]
    | append_singleton t c _ =>
      exfalso
      rw [← ht] at h
      have h2 : t ++ [c] <:+ y := by
        obtain ⟨u, hu⟩ := h
        have hu' : (u ++ (t ++ [c])) ++ x = y ++ x := by simpa using hu
        exact ⟨u, List.append_cancel_right hu'⟩
      obtain ⟨y', hy'⟩ := h2
      have hc : c < 128 := hy c (by rw [← hy', ← List.append_assoc]; simp)
      rcases spaceRunes_bytes r hr with ⟨b, hb, _⟩ | ⟨_, hall⟩
      · rw [← ht] at hb
        have hl := congrArg List.length hb
        simp only [List.length_append, List.length_cons, List.length_nil] at hl
        have : x.length = 0 := by omega
        exact hx (List.length_eq_zero.mp this)
      · have := hall c (by rw [← ht]; simp)
        omega

/-- An encoding in front of bytes that start with an ASCII white space byte is
that byte. -/
theorem prefix_space_byte (r : Bytes) (b : Nat) (t : Bytes) (hr : r ∈ spaceRunes)
    (hb : isSpace b = true) (h : r <+: b :: t) : r = [b] := by
  have hne := spaceRunes_ne_nil r hr
  rcases List.prefix_cons_iff.mp h with h1 | ⟨u, hu, _⟩
  · exact absurd h1 hne
  · rcases spaceRunes_bytes r hr with ⟨c, hc, _⟩ | ⟨_, hall⟩
    · rw [hc] at hu
      simp only [List.cons.injEq] at hu
      rw [hc, hu.1]
    · have := hall b (by rw [hu]; simp)
      have := isSpace_lt b hb
      omega

/-- An encoding at the end of bytes that end with an ASCII white space byte is
that byte. -/
theorem suffix_space_byte (r : Bytes) (b : Nat) (t : Bytes) (hr : r ∈ spaceRunes)
    (hb : isSpace b = true) (h : r <:+ t ++ [b]) : r = [b] := by
  have h' : r.reverse <+: b :: t.reverse := by
    have := List.reverse_prefix.mpr h
    simpa using this
  have hne : r.reverse ≠ [] := by simpa using spaceRunes_ne_nil r hr
  rcases List.prefix_cons_iff.mp h' with h1 | ⟨u, hu, _⟩
  · exact absurd h1 hne
  · rcases spaceRunes_bytes r hr with ⟨c, hc, _⟩ | ⟨_, hall⟩
    · rw [hc] at hu
      simp only [List.reverse_cons, List.reverse_nil, List.nil_append, List.cons.injEq] at hu
      rw [hc, hu.1]
    · have hm : b ∈ r := by
        have : b ∈ r.reverse := by rw [hu]; simp
        simpa using this
      have := hall b hm
      have := isSpace_lt b hb
      omega

theorem trimSpaceLeft_stop (n : Nat) (s : Bytes) (h : startsWithSpace s = false) :
    trimSpaceLeft n s = s := by
  cases n with
  | zero => rfl
  | succ n =>
    have hf : spaceRunes.find? (fun r => r.isPrefixOf s) = none := by
      rw [List.find?_eq_none]
      intro r hr
      have := (startsWithSpace_eq_false s).mp h r hr
      simpa using this
    simp only [trimSpaceLeft, hf]

theorem trimSpaceRight_stop (n : Nat) (s : Bytes) (h : endsWithSpace s = false) :
    trimSpaceRight n s = s := by
  cases n with
  | zero => rfl
  | succ n =>
    have hf : spaceRunes.find? (fun r => r.isSuffixOf s) = none := by
      rw [List.find?_eq_none]
      intro r hr
      have := (endsWithSpace_eq_false s).mp h r hr
      simpa using this
    simp only [trimSpaceRight, hf]

/-- One iteration of the trim on bytes that start with an ASCII white space. -/
theorem trimSpaceLeft_byte (n : Nat) (b : Nat) (t : Bytes) (hb : isSpace b = true) :
    trimSpaceLeft (n + 1) (b :: t) = trimSpaceLeft n t := by
  cases hf : spaceRunes.find? (fun r => r.isPrefixOf (b :: t)) with
  | none =>
    exfalso
    rw [List.find?_eq_none] at hf
    exact hf [b] (isSpace_mem_spaceRunes b hb) (by simp)
  | some r =>
    have hr : r ∈ spaceRunes := List.mem_of_find?_eq_some hf
    have hp : r <+: b :: t := by
      have := List.find?_some hf
      simpa using this
    have := prefix_space_byte r b t hr hb hp
    subst this
    simp only [trimSpaceLeft, hf, List.length_singleton, List.drop_succ_cons, List.drop_zero]

/-- One iteration of the trim on bytes that end with an ASCII white space. -/
theorem trimSpaceRight_byte (n : Nat) (b : Nat) (t : Bytes) (hb : isSpace b = true) :
    trimSpaceRight (n + 1) (t ++ [b]) = trimSpaceRight n t := by
  cases hf : spaceRunes.find? (fun r => r.isSuffixOf (t ++ [b])) with
  | none =>
    exfalso
    rw [List.find?_eq_none] at hf
    exact hf [b] (isSpace_mem_spaceRunes b hb) (by simp)
  | some r =>
    have hr : r ∈ spaceRunes := List.mem_of_find?_eq_some hf
    have hp : r <:+ t ++ [b] := by
      have := List.find?_some hf
      simpa using this
    have := suffix_space_byte r b t hr hb hp
    subst this
    simp only [trimSpaceRight, hf, List.length_singleton, List.length_append,
      Nat.add_sub_cancel, List.take_left']

/-- The trim from the front removes leading ASCII white space bytes and stops at
bytes that start with no white space character. -/
theorem trimSpaceLeft_spaces (a m : Bytes) (ha : ∀ x ∈ a, isSpace x = true)
    (hm : startsWithSpace m = false) :
    ∀ n, a.length ≤ n → trimSpaceLeft n (a ++ m) = m := by
  induction a with
  | nil => intro n _; exact trimSpaceLeft_stop n m hm
  | cons b a ih =>
    intro n hn
    obtain ⟨n', rfl⟩ : ∃ n', n = n' + 1 := ⟨n - 1, by simp at hn; omega⟩
    rw [List.cons_append, trimSpaceLeft_byte n' b _ (ha b (by simp))]
    exact ih (fun x hx => ha x (by simp [hx])) n' (by simp at hn; omega)

/-- The trim from the end removes trailing ASCII white space bytes and stops at
bytes that end with no white space character. -/
theorem trimSpaceRight_spaces (m b : Bytes) (hb : ∀ x ∈ b, isSpace x = true)
    (hm : endsWithSpace m = false) :
    ∀ n, b.length ≤ n → trimSpaceRight n (m ++ b) = m := by
  induction b using List.reverseRecOn with
  | nil => intro n _; rw [List.append_nil]; exact trimSpaceRight_stop n m hm
  | append_singleton b c ih =>
    intro n hn
    obtain ⟨n', rfl⟩ : ∃ n', n = n' + 1 := ⟨n - 1, by simp at hn; omega⟩
    rw [← List.append_assoc, trimSpaceRight_byte n' c _ (hb c (by simp))]
    exact ih (fun x hx => hb x (by simp [hx])) n' (by simp at hn; omega)

theorem startsWithSpace_nil : startsWithSpace [] = false := by decide

theorem endsWithSpace_nil : endsWithSpace [] = false := by decide

/-- `TrimSpace` on bytes with ASCII white space around a core that neither starts
nor ends with a white space character: the core is left. -/
theorem TrimSpace_core (a m b : Bytes) (ha : ∀ x ∈ a, isSpace x = true)
    (hb : ∀ x ∈ b, isSpace x = true)
    (hm : startsWithSpace m = false ∧ endsWithSpace m = false) :
    TrimSpace (a ++ m ++ b) = m := by
  unfold TrimSpace
  by_cases hme : m = []
  · subst hme
    have h1 : trimSpaceLeft (a ++ [] ++ b).length (a ++ [] ++ b) = [] := by
      have := trimSpaceLeft_spaces (a ++ b) [] (by
        intro x hx
        rcases List.mem_append.mp hx with h | h
        · exact ha x h
        · exact hb x h) startsWithSpace_nil (a ++ [] ++ b).length (by simp)
      simpa using this
    rw [h1]
    exact trimSpaceRight_stop _ [] endsWithSpace_nil
  · have hmb : startsWithSpace (m ++ b) = false := by
      rw [startsWithSpace_eq_false]
      intro r hr hp
      have hy : ∀ c, b.head? = some c → c < 128 := by
        intro c hc
        cases b with
        | nil => simp at hc
        | cons d b =>
          simp only [List.head?_cons, Option.some.injEq] at hc
          subst hc
          exact isSpace_lt d (hb d (by simp))
      exact (startsWithSpace_eq_false m).mp hm.1 r hr (prefix_of_ascii_next r m b hr hme hy hp)
    have h1 : trimSpaceLeft (a ++ m ++ b).length (a ++ m ++ b) = m ++ b := by
      have := trimSpaceLeft_spaces a (m ++ b) ha hmb (a ++ m ++ b).length (by simp)
      simpa using this
    rw [h1]
    exact trimSpaceRight_spaces m b hb hm.2 _ (by simp; omega)

/-- An encoding that ends bytes holding a separator it does not hold lies behind
the separator. -/
theorem suffix_after_sep (r x y : Bytes) (sep : Nat) (hs : sep ∉ r) (h : r <:+ x ++ sep :: y) :
    r <:+ y := by
  rcases List.suffix_or_suffix_of_suffix h (List.suffix_append x (sep :: y)) with h1 | h1
  · rcases List.suffix_cons_iff.mp h1 with h2 | h2
    · exact absurd (by rw [h2]; simp) hs
    · exact h2
  · obtain ⟨t, ht⟩ := h1
    exact absurd (by rw [← ht]; simp) hs

/-- Bytes that lie in bytes holding a separator they do not hold lie on one side
of the separator. -/
theorem infix_sep (r x y : Bytes) (sep : Nat) (hs : sep ∉ r) (h : r <:+: x ++ sep :: y) :
    r <:+: x ∨ r <:+: y := by
  obtain ⟨s, t, hst⟩ := h
  rcases List.append_eq_append_iff.mp hst with ⟨a', h1, _⟩ | ⟨c', h1, h2⟩
  · left
    exact ⟨s, a', h1.symm⟩
  · cases c' with
    | nil =>
      left
      rw [List.append_nil] at h1
      exact ⟨s, [], by simp [h1]⟩
    | cons d c'' =>
      simp only [List.cons_append, List.cons.injEq] at h2
      obtain ⟨hd, hy⟩ := h2
      subst hd
      rcases List.append_eq_append_iff.mp h1 with ⟨a', _, h4⟩ | ⟨e, _, h4⟩
      · exact absurd (by rw [h4]; simp) hs
      · cases e with
        | nil =>
          simp only [List.nil_append] at h4
          exact absurd (by rw [← h4]; simp) hs
        | cons f e' =>
          simp only [List.cons_append, List.cons.injEq] at h4
          right
          exact ⟨e', t, by rw [hy, h4.2]⟩

theorem spaceRunes_multi_no_NL : ∀ r ∈ spaceRunes, 1 < r.length → NL ∉ r := by decide

/-- An encoding made of bytes of ASCII input is one ASCII white space byte. -/
theorem rune_in_ascii (r : Bytes) (hr : r ∈ spaceRunes) (s : Bytes) (hA : Ascii s)
    (hsub : ∀ b ∈ r, b ∈ s) : ∃ b, r = [b] ∧ isSpace b = true := by
  rcases spaceRunes_bytes r hr with h | ⟨hlen, hall⟩
  · exact h
  · exfalso
    cases r with
    | nil => simp at hlen
    | cons b t =>
      have h1 := hall b (by simp)
      have h2 := hA b (hsub b (by simp))
      omega

/-- On ASCII bytes a white space character at the front is a white space byte. -/
theorem startsWithSpace_ascii (s : Bytes) (hA : Ascii s) (h : s.head?.any isSpace = false) :
    startsWithSpace s = false := by
  rw [startsWithSpace_eq_false]
  intro r hr hp
  obtain ⟨b, hb, hs⟩ := rune_in_ascii r hr s hA (fun c hc => hp.subset hc)
  subst hb
  obtain ⟨t, ht⟩ := hp
  rw [← ht] at h
  simp [hs] at h

theorem suffix_singleton_getLast (b : Nat) (s : Bytes) (h : [b] <:+ s) : s.getLast? = some b := by
  obtain ⟨t, ht⟩ := h
  rw [← ht]
  simp

/-- On ASCII bytes a white space character at the end is a white space byte. -/
theorem endsWithSpace_ascii (s : Bytes) (hA : Ascii s) (h : s.getLast?.any isSpace = false) :
    endsWithSpace s = false := by
  rw [endsWithSpace_eq_false]
  intro r hr hp
  obtain ⟨b, hb, hs⟩ := rune_in_ascii r hr s hA (fun c hc => hp.subset hc)
  subst hb
  rw [suffix_singleton_getLast b s hp] at h
  simp [hs] at h

/-- On ASCII bytes a white space character is a white space byte. -/
theorem holdsSpace_ascii (s : Bytes) (hA : Ascii s) (h : ∀ b ∈ s, isSpace b = false) :
    holdsSpace s = false := by
  rw [holdsSpace_eq_false]
  intro r hr hp
  obtain ⟨b, hb, hs⟩ := rune_in_ascii r hr s hA (fun c hc => hp.subset hc)
  subst hb
  have := h b (hp.subset (by simp))
  rw [hs] at this
  exact absurd this (by simp)

/-- Bytes that end with no white space character end with no white space byte. -/
theorem endsWithSpace_getLast (s : Bytes) (h : endsWithSpace s = false) :
    s.getLast?.any isSpace = false := by
  induction s using List.reverseRecOn with
  | nil => rfl
  | append_singleton t b _ =>
    by_contra hc
    have hs : isSpace b = true := by simpa using hc
    exact (endsWithSpace_eq_false _).mp h [b] (isSpace_mem_spaceRunes b hs) ⟨t, rfl⟩

/-- Bytes that start with no white space character start with no white space byte. -/
theorem startsWithSpace_head (s : Bytes) (h : startsWithSpace s = false) :
    s.head?.any isSpace = false := by
  cases s with
  | nil => rfl
  | cons b t =>
    by_contra hc
    have hs : isSpace b = true := by simpa using hc
    exact (startsWithSpace_eq_false _).mp h [b] (isSpace_mem_spaceRunes b hs) ⟨t, rfl⟩

theorem trimSpaceLeft_final : ∀ (n : Nat) (s : Bytes), trimSpaceLeft n s <:+ s
  | 0, s => List.suffix_refl s
  | n + 1, s => by
    unfold trimSpaceLeft
    cases spaceRunes.find? (fun r => r.isPrefixOf s) with
    | none => exact List.suffix_refl s
    | some r => exact (trimSpaceLeft_final n _).trans (List.drop_suffix _ s)

theorem trimSpaceRight_initial : ∀ (n : Nat) (s : Bytes), trimSpaceRight n s <+: s
  | 0, s => List.prefix_refl s
  | n + 1, s => by
    unfold trimSpaceRight
    cases spaceRunes.find? (fun r => r.isSuffixOf s) with
    | none => exact List.prefix_refl s
    | some r => exact (trimSpaceRight_initial n _).trans (List.take_prefix _ s)

/-- With the length as fuel the trim from the end leaves no white space character
at the end. -/
theorem trimSpaceRight_ends : ∀ (n : Nat) (s : Bytes), s.length ≤ n →
    endsWithSpace (trimSpaceRight n s) = false
  | 0, s, h => by
    have : s = [] := List.length_eq_zero.mp (by omega)
    subst this
    decide
  | n + 1, s, h => by
    unfold trimSpaceRight
    cases hf : spaceRunes.find? (fun r => r.isSuffixOf s) with
    | none =>
      rw [List.find?_eq_none] at hf
      rw [endsWithSpace_eq_false]
      intro r hr hs
      exact hf r hr (by simpa using hs)
    | some r =>
      have hr : r ∈ spaceRunes := List.mem_of_find?_eq_some hf
      have hp : r <:+ s := by
        have := List.find?_some hf
        simpa using this
      have hne : 0 < r.length := List.length_pos.mpr (spaceRunes_ne_nil r hr)
      have hle := hp.length_le
      exact trimSpaceRight_ends n _ (by rw [List.length_take]; omega)

/-- The trimmed bytes end with no white space character. -/
theorem TrimSpace_ends (s : Bytes) : endsWithSpace (TrimSpace s) = false := by
  unfold TrimSpace
  exact trimSpaceRight_ends _ _ (trimSpaceLeft_final _ s).length_le

/-- The trimmed bytes sit inside the bytes given. -/
theorem TrimSpace_infix (r : Bytes) : ∃ a w, r = a ++ TrimSpace r ++ w := by
  obtain ⟨a, ha⟩ := trimSpaceLeft_final r.length r
  obtain ⟨w, hw⟩ := trimSpaceRight_initial r.length (trimSpaceLeft r.length r)
  refine ⟨a, w, ?_⟩
  unfold TrimSpace
  rw [List.append_assoc, hw, ha]

theorem spaceRunes_not_upper : ∀ r ∈ spaceRunes, ∀ b ∈ r, b < 65 ∨ 90 < b := by decide

theorem upperByte_eq (c b : Nat) (h : upperByte c = b) (hb : b < 65 ∨ 90 < b) : c = b := by
  unfold upperByte at h
  split at h
  · omega
  · exact h

theorem map_upperByte_eq : ∀ (x r : Bytes), x.map upperByte = r → (∀ b ∈ r, b < 65 ∨ 90 < b) →
    x = r
  | [], r, h, _ => by simpa using h
  | c :: x, [], h, _ => by simp at h
  | c :: x, b :: r, h, hb => by
    simp only [List.map_cons, List.cons.injEq] at h
    rw [upperByte_eq c b h.1 (hb b (by simp)),
      map_upperByte_eq x r h.2 (fun d hd => hb d (by simp [hd]))]

/-- A white space character in the uppercased bytes is one in the bytes. -/
theorem ToUpper_infix_rune (r : Bytes) (hr : r ∈ spaceRunes) (l : Bytes)
    (h : r <:+: ToUpper l) : r <:+: l := by
  obtain ⟨s, t, hst⟩ := h
  unfold ToUpper at hst
  obtain ⟨l1, l2, hl, h1, _⟩ := List.map_eq_append_iff.mp hst.symm
  obtain ⟨l3, l4, hl1, _, h4⟩ := List.map_eq_append_iff.mp h1
  have := map_upperByte_eq l4 r h4 (spaceRunes_not_upper r hr)
  subst this
  exact ⟨l3, l2, by rw [hl, hl1]⟩

theorem spaceRunes_NL : ∀ r ∈ spaceRunes, NL ∈ r → r = [NL] := by decide

theorem bodyLines_cons (l : Bytes) (ls : List Bytes) :
    bodyLines (l :: ls) = l ++ NL :: bodyLines ls := by
  simp [bodyLines]

/-- A white space character other than the newline in the joined lines lies in one
of the lines. -/
theorem bodyLines_infix (r : Bytes) (hnl : NL ∉ r) (hne : r ≠ []) :
    ∀ lines : List Bytes, r <:+: bodyLines lines → ∃ l ∈ lines, r <:+: l := by
  intro lines
  induction lines with
  | nil =>
    intro h
    have : r = [] := by simpa [bodyLines] using h
    exact absurd this hne
  | cons l ls ih =>
    intro h
    rw [bodyLines_cons] at h
    rcases infix_sep r l (bodyLines ls) NL hnl h with h1 | h1
    · exact ⟨l, by simp, h1⟩
    · obtain ⟨m, hm, hr⟩ := ih h1
      exact ⟨m, by simp [hm], hr⟩

theorem bodyLines_filter (lines : List Bytes) (h : ∀ l ∈ lines, GoodLine l) :
    (bodyLines lines).filter (fun b => b != NL) = lines.flatten := by
  induction lines with
  | nil => simp [bodyLines]
  | cons l ls ih =>
    have hl : GoodLine l := h l (by simp)
    have hls : ∀ m ∈ ls, GoodLine m := fun m hm => h m (by simp [hm])
    have h1 : l.filter (fun b => b != NL) = l := by
      rw [List.filter_eq_self]
      intro b hb
      have := holdsSpace_bytes l hl.2 b hb
      simp only [bne_iff_ne, ne_eq]
      intro hbn
      subst hbn
      simp [isSpace, NL] at this
    have h2 : (NL :: bodyLines ls).filter (fun b => b != NL) = ls.flatten := by
      rw [List.filter_cons_of_neg (by simp)]
      exact ih hls
    rw [bodyLines_cons, List.filter_append, h1, h2]
    simp

theorem bodyLines_space (lines : List Bytes) (h : ∀ l ∈ lines, GoodLine l) :
    ∀ b ∈ bodyLines lines, isSpace b = true → b = NL := by
  intro b hb hs
  simp only [bodyLines, List.mem_flatten, List.mem_map] at hb
  obtain ⟨m, ⟨l, hl, rfl⟩, hbm⟩ := hb
  rcases List.mem_append.mp hbm with h1 | h1
  · have := holdsSpace_bytes l (h l hl).2 b h1
    rw [this] at hs
    exact absurd hs (by simp)
  · simpa using h1

theorem bodyLines_no_GT (lines : List Bytes) (h : ∀ l ∈ lines, GoodLine l) :
    GT ∉ bodyLines lines := by
  intro hb
  simp only [bodyLines, List.mem_flatten, List.mem_map] at hb
  obtain ⟨m, ⟨l, hl, rfl⟩, hbm⟩ := hb
  rcases List.mem_append.mp hbm with h1 | h1
  · exact (h l hl).1 h1
  · simp [GT, NL] at h1

/-- The line processing of `Read` (file.go:105-110) on a well-formed record
chunk gives back the identifier and the body lines joined. -/
theorem decode_chunk (id : Bytes) (lines : List Bytes) (hid : GoodId id)
    (hl : ∀ l ∈ lines, GoodLine l) :
    let ls := Split NL (TrimSpace (id ++ NL :: bodyLines lines))
    ls.headD [] = id ∧ (if ls.length > 1 then (ls.drop 1).flatten else []) = lines.flatten := by
  obtain ⟨hne, _, hnl, hhead0, hlast0⟩ := hid
  -- trailing white space: only inside the body part
  obtain ⟨w, hw, hwsp⟩ := trimRightWhile_split isSpace (NL :: bodyLines lines)
  have hTlast := trimRightWhile_last isSpace (NL :: bodyLines lines)
  have hcore : startsWithSpace (id ++ trimRightWhile isSpace (NL :: bodyLines lines)) = false ∧
      endsWithSpace (id ++ trimRightWhile isSpace (NL :: bodyLines lines)) = false := by
    cases hT : trimRightWhile isSpace (NL :: bodyLines lines) with
    | nil => rw [List.append_nil]; exact ⟨hhead0, hlast0⟩
    | cons t T1 =>
      rw [hT] at hw hTlast
      have ht : t = NL := by
        have := congrArg List.head? hw
        simpa using this.symm
      subst ht
      have hbl : bodyLines lines = T1 ++ w := by
        have := hw
        simp only [List.cons_append, List.cons.injEq, true_and] at this
        exact this
      constructor
      · rw [startsWithSpace_eq_false]
        intro r hr hp
        exact (startsWithSpace_eq_false id).mp hhead0 r hr
          (prefix_of_ascii_next r id (NL :: T1) hr hne
            (by intro c hc; simp only [List.head?_cons, Option.some.injEq] at hc; subst hc; decide)
            hp)
      · rw [endsWithSpace_eq_false]
        intro r hr hs
        by_cases hrn : NL ∈ r
        · have := spaceRunes_NL r hr hrn
          subst this
          have hl1 := suffix_singleton_getLast NL _ hs
          have hl2 : (id ++ NL :: T1).getLast? = (NL :: T1).getLast? := by
            rw [List.getLast?_append]
            cases h : (NL :: T1).getLast? with
            | none => simp at h
            | some c => rfl
          rw [hl2] at hl1
          rw [hl1] at hTlast
          exact absurd hTlast (by decide)
        · have h1 : r <:+ T1 := suffix_after_sep r id T1 NL hrn hs
          have h2 : r <:+: bodyLines lines := by
            rw [hbl]
            exact (h1.isInfix).trans (List.prefix_append T1 w).isInfix
          obtain ⟨l, hlm, hrl⟩ := bodyLines_infix r hrn (spaceRunes_ne_nil r hr) lines h2
          exact (holdsSpace_eq_false l).mp (hl l hlm).2 r hr hrl
  have hts : TrimSpace (id ++ NL :: bodyLines lines)
      = id ++ trimRightWhile isSpace (NL :: bodyLines lines) := by
    have := TrimSpace_core [] (id ++ trimRightWhile isSpace (NL :: bodyLines lines)) w
      (by simp) hwsp hcore
    rw [List.nil_append, List.append_assoc, ← hw] at this
    exact this
  have hwnl : w.filter (fun c => c != NL) = [] := by
    rw [List.filter_eq_nil_iff]
    intro c hc
    have hc1 : c ∈ NL :: bodyLines lines := by rw [hw]; exact List.mem_append_right _ hc
    have hsp := hwsp c hc
    rcases List.mem_cons.mp hc1 with h1 | h1
    · simp [h1]
    · have := bodyLines_space lines hl c h1 hsp
      simp [this]
  have hfilt : (trimRightWhile isSpace (NL :: bodyLines lines)).filter (fun c => c != NL)
      = lines.flatten := by
    have h1 : (NL :: bodyLines lines).filter (fun c => c != NL) = lines.flatten := by
      simp [bodyLines_filter lines hl]
    rw [hw, List.filter_append, hwnl, List.append_nil] at h1
    exact h1
  intro ls
  have hls : ls = Split NL (id ++ trimRightWhile isSpace (NL :: bodyLines lines)) := by
    simp only [ls, hts]
  cases hT : trimRightWhile isSpace (NL :: bodyLines lines) with
  | nil =>
    rw [hT] at hls hfilt
    simp only [List.append_nil] at hls
    rw [Split_no_sep NL id hnl] at hls
    simp [hls] at hfilt ⊢
    exact hfilt
  | cons t T' =>
    rw [hT] at hls hfilt hw
    have ht : t = NL := by
      have := congrArg List.head? hw
      simpa using this.symm
    subst ht
    rw [Split_append_sep NL id T' hnl] at hls
    have hlen : (Split NL T').length > 0 := List.length_pos.mpr (Split_ne_nil NL T')
    simp only [hls, List.headD_cons, List.length_cons, List.drop_succ_cons, List.drop_zero,
      true_and]
    have : (Split NL T').length + 1 > 1 := by omega
    rw [if_pos this, Split_flatten]
    simpa using hfilt

theorem bodyLines_append (ls : List Bytes) (l : Bytes) :
    bodyLines (ls ++ [l]) = bodyLines ls ++ l ++ [NL] := by
  simp [bodyLines]

/-- A record chunk ends with a newline. -/
theorem chunk_ends_NL (id : Bytes) (lines : List Bytes) :
    ∃ c, id ++ NL :: bodyLines lines = c ++ [NL] := by
  induction lines using List.reverseRecOn with
  | nil => exact ⟨id, by simp [bodyLines]⟩
  | append_singleton ls l _ =>
    exact ⟨id ++ NL :: (bodyLines ls ++ l), by simp [bodyLines_append]⟩

/-! ## The fuel of `Read` -/

theorem readLoop_succ (n : Nat) (prev rest : Bytes) :
    readLoop (n + 1) prev rest =
      match readStep prev rest with
      | Sum.inl (p, r) => readLoop n p r
      | Sum.inr res => some res := rfl

theorem readLoop_mono : ∀ (n : Nat) (p r : Bytes) (x : (Option Seq × Err) × Bytes),
    readLoop n p r = some x → readLoop (n + 1) p r = some x
  | 0, _, _, _, h => by simp [readLoop] at h
  | n + 1, p, r, x, h => by
    rw [readLoop_succ] at h ⊢
    cases hs : readStep p r with
    | inl pr =>
      obtain ⟨p', r'⟩ := pr
      rw [hs] at h
      exact readLoop_mono n p' r' x h
    | inr res =>
      rw [hs] at h
      exact h

theorem ReadBytes_rest_length (d : Nat) (r : Bytes) :
    (ReadBytes d r).2.2.length ≤ r.length - 1 := by
  induction r with
  | nil => simp [ReadBytes]
  | cons b r ih =>
    unfold ReadBytes
    split
    · simp
    · simp only [List.length_cons]
      omega

theorem readStep_rest (p r p' r' : Bytes) (h : readStep p r = Sum.inl (p', r')) :
    r'.length ≤ r.length - 1 ∧ (r = [] → p' = p) := by
  have hlen := ReadBytes_rest_length GT r
  unfold readStep at h
  dsimp only at h
  by_cases h1 : (if p.length > 0 then p ++ (ReadBytes GT r).1 else (ReadBytes GT r).1).length = 1
  · rw [if_pos h1] at h
    by_cases h2 : (ReadBytes GT r).2.1 = true
    · rw [if_pos h2] at h
      exact absurd h (by simp)
    · rw [if_neg h2] at h
      simp only [Sum.inl.injEq, Prod.mk.injEq] at h
      obtain ⟨h3, h4⟩ := h
      subst h3 h4
      exact ⟨hlen, fun _ => rfl⟩
  · rw [if_neg h1] at h
    by_cases h3 : ¬ NL ∈ (if p.length > 0 then p ++ (ReadBytes GT r).1 else (ReadBytes GT r).1)
    · rw [if_pos h3] at h
      simp only [Sum.inl.injEq, Prod.mk.injEq] at h
      obtain ⟨hp, h4⟩ := h
      subst h4
      refine ⟨hlen, ?_⟩
      intro hr
      subst hr
      rw [← hp]
      cases p <;> simp [ReadBytes]
    · rw [if_neg h3] at h
      exact absurd h (by simp)

theorem readLoop_stuck_nil (p : Bytes) (h : readStep p [] = Sum.inl (p, [])) :
    ∀ n, readLoop n p [] = none
  | 0 => rfl
  | n + 1 => by
    rw [readLoop_succ, h]
    exact readLoop_stuck_nil p h n

theorem readLoop_diverges : ∀ (k : Nat) (r p : Bytes) (n : Nat), r.length ≤ k →
    r.length + 2 ≤ n → readLoop n p r = none → ∀ m, readLoop m p r = none := by
  intro k
  induction k with
  | zero =>
    intro r p n hk hn h m
    have hr : r = [] := List.length_eq_zero.mp (by omega)
    subst hr
    obtain ⟨n', rfl⟩ : ∃ n', n = n' + 1 := ⟨n - 1, by simp at hn; omega⟩
    rw [readLoop_succ] at h
    cases hs : readStep p [] with
    | inl pr =>
      obtain ⟨p', r'⟩ := pr
      have h1 := readStep_rest p [] p' r' hs
      have hr' : r' = [] := List.length_eq_zero.mp (by simpa using h1.1)
      have hp' : p' = p := h1.2 rfl
      subst hr' hp'
      exact readLoop_stuck_nil _ hs m
    | inr res =>
      rw [hs] at h
      exact absurd h (by simp)
  | succ k ih =>
    intro r p n hk hn h m
    by_cases hr : r.length ≤ k
    · exact ih r p n hr hn h m
    · obtain ⟨n', rfl⟩ : ∃ n', n = n' + 1 := ⟨n - 1, by omega⟩
      rw [readLoop_succ] at h
      cases hs : readStep p r with
      | inl pr =>
        obtain ⟨p', r'⟩ := pr
        rw [hs] at h
        have h1 := readStep_rest p r p' r' hs
        have := ih r' p' n' (by omega) (by omega) h
        cases m with
        | zero => rfl
        | succ m =>
          rw [readLoop_succ, hs]
          exact this m
      | inr res =>
        rw [hs] at h
        exact absurd h (by simp)

/-- The fuel of `Read` decides: with `length + 2` iterations or more the loop
gives the same answer, a result or none. -/
theorem readLoop_enough_fuel (p r : Bytes) (n : Nat) (hn : r.length + 2 ≤ n) :
    readLoop n p r = readLoop (r.length + 2) p r := by
  cases h : readLoop (r.length + 2) p r with
  | none => exact readLoop_diverges r.length r p _ (le_refl _) (le_refl _) h n
  | some x =>
    obtain ⟨d, rfl⟩ : ∃ d, n = r.length + 2 + d := ⟨n - (r.length + 2), by omega⟩
    clear hn
    induction d with
    | zero => exact h
    | succ d ih => exact readLoop_mono _ p r x ih

/-! ## `Read` on well-formed records -/

theorem body_no_GT (lines : List Bytes) (hl : ∀ l ∈ lines, GoodLine l) :
    GT ∉ NL :: bodyLines lines := by
  intro h
  rcases List.mem_cons.mp h with h2 | h2
  · simp [GT, NL] at h2
  · exact bodyLines_no_GT lines hl h2

/-- A leading delimiter alone costs one iteration of the loop and is skipped. -/
theorem readLoop_skip (n : Nat) (s : Bytes) : readLoop (n + 1) [] (GT :: s) = readLoop n [] s := by
  simp [readLoop, readStep, ReadBytes]

/-- The accumulated bytes in front of what `ReadBytes` returned. -/
theorem prev_append (prev x : Bytes) :
    (if prev.length > 0 then prev ++ x else x) = prev ++ x := by
  cases prev <;> simp

/-- The last iteration on a record: the bytes up to the end of the body hold no
further `'>'`, and `prev` followed by them is a well-formed chunk. -/
theorem readStep_final (prev x : Bytes) (lines : List Bytes) (more : Option Bytes)
    (hx : GT ∉ x) (hid : GoodId (prev ++ x)) (hl : ∀ l ∈ lines, GoodLine l) :
    readStep prev (x ++ NL :: bodyLines lines ++ tailOf more)
      = Sum.inr ((some { ID := prev ++ x, Seq := lines.flatten }, errOf more), more.getD []) := by
  have hnoGT : GT ∉ x ++ NL :: bodyLines lines := by
    intro h
    rcases List.mem_append.mp h with h1 | h1
    · exact hx h1
    · exact body_no_GT lines hl h1
  obtain ⟨c, hc⟩ := chunk_ends_NL (prev ++ x) lines
  have hdec := decode_chunk (prev ++ x) lines hid hl
  have hidlen : 0 < (prev ++ x).length := List.length_pos.mpr hid.1
  have hnl : NL ∈ (prev ++ x) ++ NL :: bodyLines lines := by simp
  have hlen1 : ¬ ((prev ++ x) ++ NL :: bodyLines lines).length = 1 := by
    simp only [List.length_append, List.length_cons] at hidlen ⊢
    omega
  cases more with
  | none =>
    have hrb := ReadBytes_eof GT (x ++ NL :: bodyLines lines) hnoGT
    have htr : TrimRight ((prev ++ x) ++ NL :: bodyLines lines)
        = (prev ++ x) ++ NL :: bodyLines lines := by
      unfold TrimRight
      rw [hc, trimRightWhile_keep _ _ NL (by simp [GT, NL])]
    have hread : prev ++ (x ++ NL :: bodyLines lines) = (prev ++ x) ++ NL :: bodyLines lines := by
      simp
    unfold readStep
    simp only [tailOf, List.append_nil, hrb]
    simp only [prev_append]
    simp only [hread, htr]
    rw [if_neg hlen1, if_neg (by simp)]
    simp only [hdec.1, hdec.2, readFinish, hidlen, if_true, errOf, Option.getD_none,
      gt_iff_lt]
  | some rest =>
    have hrb := ReadBytes_found GT (x ++ NL :: bodyLines lines) rest hnoGT
    have htr : TrimRight (((prev ++ x) ++ NL :: bodyLines lines) ++ [GT])
        = (prev ++ x) ++ NL :: bodyLines lines := by
      unfold TrimRight
      rw [trimRightWhile_drop _ _ GT (by simp), hc,
        trimRightWhile_keep _ _ NL (by simp [GT, NL])]
    have hread : prev ++ ((x ++ NL :: bodyLines lines) ++ [GT])
        = ((prev ++ x) ++ NL :: bodyLines lines) ++ [GT] := by
      simp
    have hlen2 : ¬ (((prev ++ x) ++ NL :: bodyLines lines) ++ [GT]).length = 1 := by
      simp only [List.length_append, List.length_cons, List.length_nil] at hidlen ⊢
      omega
    have hstream : x ++ NL :: bodyLines lines ++ tailOf (some rest)
        = (x ++ NL :: bodyLines lines) ++ GT :: rest := by
      simp [tailOf]
    unfold readStep
    simp only [hstream, hrb]
    simp only [prev_append]
    simp only [hread, htr]
    rw [if_neg hlen2, if_neg (by simp)]
    simp only [hdec.1, hdec.2, readFinish, hidlen, if_true, errOf, Option.getD_some,
      gt_iff_lt]
    simp

/-- An iteration that meets a `'>'` before any newline: the bytes read join
`prev` and the loop goes on. -/
theorem readStep_accumulate (prev y z : Bytes) (hy : GT ∉ y) (hne : prev ++ y ≠ [])
    (hnl : NL ∉ prev ++ y) :
    readStep prev (y ++ GT :: z) = Sum.inl (prev ++ y ++ [GT], z) := by
  have hrb := ReadBytes_found GT y z hy
  have hlen : 0 < (prev ++ y).length := List.length_pos.mpr hne
  have hlen1 : ¬ (prev ++ (y ++ [GT])).length = 1 := by
    simp only [List.length_append, List.length_cons, List.length_nil] at hlen ⊢
    omega
  have hnl' : ¬ NL ∈ prev ++ (y ++ [GT]) := by
    intro h
    rw [← List.append_assoc] at h
    rcases List.mem_append.mp h with h1 | h1
    · exact hnl h1
    · simp [GT, NL] at h1
  unfold readStep
  simp only [hrb]
  simp only [prev_append]
  rw [if_neg hlen1, if_pos hnl']
  simp

/-- The bytes up to the first `'>'` of a list that holds one. -/
theorem split_first_GT (x : Bytes) (h : GT ∈ x) : ∃ y z, x = y ++ GT :: z ∧ GT ∉ y := by
  induction x with
  | nil => exact absurd h (by simp)
  | cons b t ih =>
    by_cases hb : b = GT
    · exact ⟨[], t, by simp [hb], by simp⟩
    · have ht : GT ∈ t := by
        rcases List.mem_cons.mp h with h1 | h1
        · exact absurd h1.symm hb
        · exact h1
      obtain ⟨y, z, hyz, hy⟩ := ih ht
      refine ⟨b :: y, z, by simp [hyz], ?_⟩
      intro hm
      rcases List.mem_cons.mp hm with h1 | h1
      · exact hb h1.symm
      · exact hy h1

/-- The loop on a record whose identifier line may hold `'>'`: every `'>'` met
before the newline of the identifier line extends `prev`, and the record is cut
at the first `'>'` after the body. -/
theorem readLoop_label (lines : List Bytes) (more : Option Bytes)
    (hl : ∀ l ∈ lines, GoodLine l) :
    ∀ (k : Nat) (x prev : Bytes) (n : Nat), x.length ≤ k → k < n → GoodId (prev ++ x) →
      readLoop n prev (x ++ NL :: bodyLines lines ++ tailOf more)
        = some ((some { ID := prev ++ x, Seq := lines.flatten }, errOf more), more.getD []) := by
  intro k
  induction k with
  | zero =>
    intro x prev n hk hn hid
    have hx : x = [] := List.length_eq_zero.mp (by omega)
    obtain ⟨n', rfl⟩ : ∃ n', n = n' + 1 := ⟨n - 1, by omega⟩
    rw [readLoop_succ, readStep_final prev x lines more (by simp [hx]) hid hl]
  | succ k ih =>
    intro x prev n hk hn hid
    obtain ⟨n', rfl⟩ : ∃ n', n = n' + 1 := ⟨n - 1, by omega⟩
    by_cases hg : GT ∈ x
    · obtain ⟨y, z, hyz, hy⟩ := split_first_GT x hg
      subst hyz
      have hne : prev ++ y ≠ [] := by
        intro he
        have hp : prev = [] := (List.append_eq_nil.mp he).1
        have hy0 : y = [] := (List.append_eq_nil.mp he).2
        subst hp hy0
        exact hid.2.1 (by simp)
      have hnl : NL ∉ prev ++ y := by
        intro hm
        apply hid.2.2.1
        rcases List.mem_append.mp hm with h1 | h1
        · exact List.mem_append_left _ h1
        · exact List.mem_append_right _ (List.mem_append_left _ h1)
      have hstream : (y ++ GT :: z) ++ NL :: bodyLines lines ++ tailOf more
          = y ++ GT :: (z ++ NL :: bodyLines lines ++ tailOf more) := by simp
      have hlen : z.length ≤ k := by
        simp only [List.length_append, List.length_cons] at hk
        omega
      have hid' : GoodId ((prev ++ y ++ [GT]) ++ z) := by
        have : (prev ++ y ++ [GT]) ++ z = prev ++ (y ++ GT :: z) := by simp
        rw [this]; exact hid
      rw [readLoop_succ, hstream, readStep_accumulate prev y _ hy hne hnl]
      have := ih z (prev ++ y ++ [GT]) n' hlen (by omega) hid'
      simp only [List.append_assoc, List.singleton_append] at this ⊢
      exact this
    · rw [readLoop_succ, readStep_final prev x lines more hg hid hl]

theorem Read_record (rd : Reader) (lead : Bool) (r : LineRecord) (more : Option Bytes)
    (hr : GoodRecord r) (hf : rd.f = leadGT lead ++ r.chunk ++ tailOf more) :
    rd.Read = some ((some r.toSeq, errOf more), { rd with f := more.getD [], opened := true }) := by
  have hne : rd.f ≠ [] := by
    rw [hf]; cases lead <;> simp [leadGT, LineRecord.chunk]
  have hidlen : r.id.length < rd.f.length + 1 := by
    rw [hf]
    simp only [LineRecord.chunk, List.length_append, List.length_cons]
    omega
  unfold Reader.Read
  rw [if_neg (by simp [hne])]
  have hid : GoodId ([] ++ r.id) := by simpa using hr.1
  have hloop : readLoop (rd.f.length + 2) [] rd.f
      = some ((some r.toSeq, errOf more), more.getD []) := by
    have hmain := readLoop_label r.lines more hr.2 r.id.length r.id [] (rd.f.length + 1)
      (le_refl _) hidlen hid
    have hmain2 := readLoop_mono _ _ _ _ hmain
    rw [hf] at hmain hmain2 ⊢
    cases lead with
    | true =>
      simp only [leadGT, if_true, List.singleton_append, List.cons_append, List.length_cons,
        List.nil_append] at hmain ⊢
      rw [readLoop_skip]
      simpa [LineRecord.chunk, LineRecord.toSeq] using hmain
    | false =>
      simp only [leadGT, Bool.false_eq_true, if_false, List.nil_append] at hmain2 ⊢
      simpa [LineRecord.chunk, LineRecord.toSeq] using hmain2
  rw [hloop]

/-- Successive reads over a stream of well-formed records, started either at the
first delimiter or right after it. -/
theorem readN_records (rs : List LineRecord) :
    ∀ (r : LineRecord) (rd : Reader) (lead : Bool),
      rd.f = leadGT lead ++ r.chunk ++ (rs.map LineRecord.encode).flatten →
      (∀ x ∈ r :: rs, GoodRecord x) →
      ∃ res, readN (rs.length + 1) rd = some res ∧
        res.map Prod.fst = (r :: rs).map (fun x => some x.toSeq) ∧
        res.map Prod.snd = List.replicate rs.length Err.nil ++ [Err.EOF] := by
  induction rs with
  | nil =>
    intro r rd lead hf hg
    have h := Read_record rd lead r none (hg r (by simp)) (by simpa [tailOf] using hf)
    simp only [errOf, Option.getD_none] at h
    refine ⟨[(some r.toSeq, Err.EOF)], ?_, by simp, by simp⟩
    simp [readN, h]
  | cons r2 rs ih =>
    intro r rd lead hf hg
    have hf' : rd.f = leadGT lead ++ r.chunk ++ GT :: (r2.chunk ++ (rs.map LineRecord.encode).flatten) := by
      rw [hf]; simp [LineRecord.encode]
    have h := Read_record rd lead r (some (r2.chunk ++ (rs.map LineRecord.encode).flatten))
      (hg r (by simp)) (by simpa [tailOf] using hf')
    simp only [errOf, Option.getD_some] at h
    obtain ⟨res, hres, h1, h2⟩ := ih r2 { rd with f := r2.chunk ++ (rs.map LineRecord.encode).flatten, opened := true } false
      (by simp [leadGT]) (fun x hx => hg x (by simp [List.mem_cons.mp hx]))
    refine ⟨(some r.toSeq, Err.nil) :: res, ?_, ?_, ?_⟩
    · rw [readN, h]
      simp [hres]
    · simp [h1]
    · simp [h2, List.replicate_succ]

theorem upperByte_space (b : Nat) (h : isSpace b = false) : isSpace (upperByte b) = false := by
  unfold upperByte
  split
  · simp only [isSpace, Bool.or_eq_false_iff, beq_eq_false_iff_ne, ne_eq]
    omega
  · exact h

theorem upperByte_GT (b : Nat) (h : b ≠ GT) : upperByte b ≠ GT := by
  unfold upperByte
  split
  · simp only [GT] at h ⊢; omega
  · exact h

theorem ToUpper_good (l : Bytes) (h : GoodLine l) : GoodLine (ToUpper l) := by
  constructor
  · intro hm
    simp only [ToUpper, List.mem_map] at hm
    obtain ⟨b, hb, hbe⟩ := hm
    have hne : b ≠ GT := fun e => h.1 (e ▸ hb)
    exact upperByte_GT b hne hbe
  · rw [holdsSpace_eq_false]
    intro r hr hi
    exact (holdsSpace_eq_false l).mp h.2 r hr (ToUpper_infix_rune r hr l hi)

/-! ## Sequence codec: properties C1 and C2 -/

/-- C1, as stated, fails: the record with identifier `id` and body `a>c` is
encoded as `>id\nA>C\n`, and `Read` on these bytes returns the record with body
`A` and no end-of-stream; the `'>'` of the body ends the record, because the
bytes read up to it already hold the newline of the identifier line. -/
theorem C1_embedded_delimiter_splits :
    (⟨[105, 100], [97, 62, 99]⟩ : Seq).ID ≠ [] ∧
    GT ∈ (⟨[105, 100], [97, 62, 99]⟩ : Seq).Seq ∧
    NL ∉ (⟨[105, 100], [97, 62, 99]⟩ : Seq).Seq ∧
    Reader.Read (NewReader (Seq.Record ⟨[105, 100], [97, 62, 99]⟩) false)
      = some ((some ⟨[105, 100], [65]⟩, Err.nil), { f := [67, 10], opened := true, c := false }) ∧
    ([65] : Bytes) ≠ ToUpper [97, 62, 99] := by
  decide

/-- C1, amended: for every record whose identifier is non-empty, does not start
with `'>'`, holds no newline and has no leading or trailing white space, and
whose body is free of `'>'` and white space (ASCII bytes), `Read` on the encoding
returns the identifier and the uppercased body, together with end-of-stream, and
leaves nothing unread. -/
theorem C1_roundtrip_delimiter_free (s : Seq) (c : Bool) (hid : GoodId s.ID)
    (hbody : GoodLine s.Seq) (_hascii : Ascii s.ID ∧ Ascii s.Seq) :
    Reader.Read (NewReader s.Record c)
      = some ((some ⟨s.ID, ToUpper s.Seq⟩, Err.EOF), { f := [], opened := true, c := c }) := by
  have hr : GoodRecord ⟨s.ID, [ToUpper s.Seq]⟩ := by
    refine ⟨hid, ?_⟩
    intro l hl
    simp only [List.mem_singleton] at hl
    subst hl
    exact ToUpper_good s.Seq hbody
  have hf : (NewReader s.Record c).f = leadGT true ++ (⟨s.ID, [ToUpper s.Seq]⟩ : LineRecord).chunk := by
    simp [NewReader, Seq.Record, leadGT, LineRecord.chunk, bodyLines]
  have h := Read_record (NewReader s.Record c) true ⟨s.ID, [ToUpper s.Seq]⟩ none hr
    (by simpa [tailOf] using hf)
  simp only [errOf, Option.getD_none] at h
  rw [h]
  simp [LineRecord.toSeq, NewReader]

/-- The amended C1 at the record with identifier `a>b` and body `acgt`. -/
theorem C1_roundtrip_delimiter_free_witness :
    Reader.Read (NewReader (Seq.Record ⟨[97, 62, 98], [97, 99, 103, 116]⟩) false)
      = some ((some ⟨[97, 62, 98], ToUpper [97, 99, 103, 116]⟩, Err.EOF),
          { f := [], opened := true, c := false }) :=
  C1_roundtrip_delimiter_free ⟨[97, 62, 98], [97, 99, 103, 116]⟩ false (by decide) (by decide)
    (by decide)

/-- C2: for a non-empty list of records whose identifiers are non-empty, hold no
newline, do not start with `'>'` (in particular: are free of `'>'`) and have no
leading or trailing white space, and whose body lines are non-empty and free of
`'>'` and white space, as many `Read` calls as there are records on the stream of
their encodings return these records in order, each body being its lines joined;
every call before the last returns no error and the last returns the record
together with `io.EOF`.  White space is the white space of `bytes.TrimSpace`: the
characters Unicode defines as such, in their UTF-8 encoding; the bytes are
arbitrary otherwise. -/
theorem C2_reads_return_the_records (recs : List LineRecord) (c : Bool) (hne : recs ≠ [])
    (hid : ∀ r ∈ recs, GoodId r.id)
    (hlines : ∀ r ∈ recs, ∀ l ∈ r.lines, l ≠ [] ∧ GoodLine l) :
    ∃ res, readN recs.length (NewReader (recs.map LineRecord.encode).flatten c) = some res ∧
      res.map Prod.fst = recs.map (fun r => some r.toSeq) ∧
      res.map Prod.snd = List.replicate (recs.length - 1) Err.nil ++ [Err.EOF] := by
  cases recs with
  | nil => exact absurd rfl hne
  | cons r rs =>
    have hg : ∀ x ∈ r :: rs, GoodRecord x :=
      fun x hx => ⟨hid x hx, fun l hl => (hlines x hx l hl).2⟩
    have h := readN_records rs r (NewReader ((r :: rs).map LineRecord.encode).flatten c) true
      (by simp [NewReader, leadGT, LineRecord.encode]) hg
    simpa using h

/-- C2 at the two records `id` with lines `AC`, `G` and `x` without body. -/
theorem C2_reads_return_the_records_witness :
    ∃ res, readN 2 (NewReader
        (([⟨[105, 100], [[65, 67], [71]]⟩, ⟨[120], []⟩] : List LineRecord).map
          LineRecord.encode).flatten false) = some res ∧
      res.map Prod.fst = [some ⟨[105, 100], [65, 67, 71]⟩, some ⟨[120], []⟩] ∧
      res.map Prod.snd = [Err.nil, Err.EOF] :=
  C2_reads_return_the_records [⟨[105, 100], [[65, 67], [71]]⟩, ⟨[120], []⟩] false
    (by decide) (by decide) (by decide)

/-! ## Writer engine: lemmas -/

theorem modifyLast_concat (f : Index → Index) (init : Indexes) (a : Index) :
    modifyLast f (init ++ [a]) = init ++ [f a] := by
  induction init with
  | nil => simp [modifyLast]
  | cons b init ih =>
    cases init with
    | nil => simp [modifyLast]
    | cons c init =>
      simp only [List.cons_append] at ih ⊢
      simp only [modifyLast, ih]

/-- A non-empty ledger is its earlier entries followed by its last entry. -/
theorem Indexes.eq_concat (l : Indexes) (h : l ≠ []) : ∃ init a, l = init ++ [a] := by
  induction l using List.reverseRecOn with
  | nil => exact absurd rfl h
  | append_singleton init a _ => exact ⟨init, a, rfl⟩

theorem modifyLast_dropLast (f : Index → Index) (l : Indexes) :
    (modifyLast f l).dropLast = l.dropLast := by
  by_cases h : l = []
  · subst h; simp [modifyLast]
  · obtain ⟨init, a, rfl⟩ := Indexes.eq_concat l h
    simp [modifyLast_concat]

theorem modifyLast_ne_nil (f : Index → Index) (l : Indexes) (h : l ≠ []) :
    modifyLast f l ≠ [] := by
  obtain ⟨init, a, rfl⟩ := Indexes.eq_concat l h
  simp [modifyLast_concat]

theorem Writer.run_append (w : Writer) (a b : List Signal) :
    w.run (a ++ b) = (w.run a).run b := by
  simp [Writer.run, List.foldl_append]

theorem Writer.run_cons (w : Writer) (s : Signal) (l : List Signal) :
    w.run (s :: l) = (w.step s).run l := rfl

theorem Writer.updateIndex_dropLast (w : Writer) (rec : Record) :
    (w.updateIndex rec).dropLast = w.ExportIndex.dropLast := by
  unfold Writer.updateIndex
  split
  · split
    · exact modifyLast_dropLast _ _
    · rfl
  · exact modifyLast_dropLast _ _

theorem Writer.step_priorCompleted (w : Writer) (sig : Signal) (h : w.priorCompleted) :
    (w.step sig).priorCompleted := by
  unfold Writer.step
  by_cases hr : w.returned = true
  · simp only [hr, if_true]; exact h
  · simp only [hr, Bool.false_eq_true, if_false]
    cases sig with
    | boundary =>
      simp only
      by_cases hpd : w.projectDone = true
      · simp only [hpd, if_true]; exact h
      · simp only [hpd, Bool.false_eq_true, if_false]
        by_cases hs : w.simpleWrite = true
        · simp only [hs, if_true]; exact h
        · simp only [hs, Bool.false_eq_true, if_false]
          intro e he
          simp only [Indexes.Add, List.dropLast_concat] at he
          by_cases hnil : w.ExportIndex = []
          · rw [hnil] at he; simp [modifyLast] at he
          · obtain ⟨init, a, hia⟩ := Indexes.eq_concat _ hnil
            rw [hia, modifyLast_concat] at he
            rcases List.mem_append.mp he with h1 | h1
            · apply h; rw [hia]; simpa using h1
            · simp only [List.mem_singleton] at h1
              subst h1; rfl
    | record rec writeErr size =>
      simp only
      by_cases hw : writeErr = true
      · simp only [hw, if_true]; exact h
      · simp only [hw, Bool.false_eq_true, if_false]
        by_cases hs : w.simpleWrite = true
        · simp only [hs, if_true]; exact h
        · simp only [hs, Bool.false_eq_true, if_false]
          by_cases hv : w.violation rec = true
          · simp only [hv, if_true]; exact h
          · simp only [hv, Bool.false_eq_true, if_false]
            by_cases hsz : size > w.Size
            · simp only [hsz, if_true]
              intro e he
              simp only [Writer.updateIndex_dropLast] at he
              exact h e he
            · simp only [hsz, if_false]
              intro e he
              simp only [Writer.updateIndex_dropLast] at he
              exact h e he

theorem Writer.run_priorCompleted (sigs : List Signal) :
    ∀ w : Writer, w.priorCompleted → (w.run sigs).priorCompleted := by
  induction sigs with
  | nil => intro w h; exact h
  | cons s l ih => intro w h; exact ih (w.step s) (Writer.step_priorCompleted w s h)

theorem dropLast_take_subset (l : Indexes) (k : Nat) :
    (l.take k).dropLast ⊆ l.dropLast := by
  rw [List.dropLast_eq_take, List.dropLast_eq_take, List.take_take]
  apply List.take_subset_take_left
  simp only [List.length_take]
  omega

theorem RemoveFromEnd_priorCompleted (l : Indexes) (n : Int) (hn : 0 ≤ n ∧ n ≤ l.length)
    (h : ∀ e ∈ l.dropLast, e.Completed = true) :
    ∃ idx', l.RemoveFromEnd n = some idx' ∧ ∀ e ∈ idx'.dropLast, e.Completed = true := by
  refine ⟨l.take (l.length - n.toNat), ?_, ?_⟩
  · simp only [Indexes.RemoveFromEnd, hn, and_self, if_true]
  · intro e he
    exact h e (dropLast_take_subset l _ he)

theorem Dir.get_put_same (d : Dir) (n : FName) (c : List Bytes) : (d.put n c).get n = some c := by
  induction d with
  | nil => simp [Dir.put, Dir.get]
  | cons x d ih =>
    obtain ⟨m, c'⟩ := x
    by_cases h : m = n
    · simp [Dir.put, Dir.get, h]
    · simp [Dir.put, Dir.get, h, ih]

theorem Dir.get_put_ne (d : Dir) (n m : FName) (c : List Bytes) (h : m ≠ n) :
    (d.put n c).get m = d.get m := by
  induction d with
  | nil => simp [Dir.put, Dir.get, h.symm]
  | cons x d ih =>
    obtain ⟨k, c'⟩ := x
    by_cases hk : k = n
    · subst hk
      simp [Dir.put, Dir.get, h.symm]
    · by_cases hkm : k = m
      · subst hkm
        simp [Dir.put, Dir.get, hk]
      · simp [Dir.put, Dir.get, hk, hkm, ih]

theorem Dir.get_flush_same (d : Dir) (n : FName) (chunks c : List Bytes)
    (h : d.get n = some c) : (d.flush n chunks).get n = some (c ++ chunks) := by
  unfold Dir.flush
  by_cases hc : chunks = []
  · rw [if_pos hc, hc, List.append_nil]; exact h
  · rw [if_neg hc, Dir.get_put_same, h]; rfl

theorem Dir.get_flush_ne (d : Dir) (n m : FName) (chunks : List Bytes) (h : m ≠ n) :
    (d.flush n chunks).get m = d.get m := by
  unfold Dir.flush
  by_cases hc : chunks = []
  · rw [if_pos hc]
  · rw [if_neg hc, Dir.get_put_ne d n m _ h]

theorem FileFromInt_inj (a b : Int) (h : FileFromInt a = FileFromInt b) : a = b := by
  simpa [FileFromInt] using h

theorem Writer.updateIndex_ne_nil (w : Writer) (rec : Record) (h : w.ExportIndex ≠ []) :
    w.updateIndex rec ≠ [] := by
  unfold Writer.updateIndex
  split
  · split
    · exact modifyLast_ne_nil _ _ h
    · exact h
  · exact modifyLast_ne_nil _ _ h

/-- What a record does to a live normal-mode writer when the write succeeds and
the record is accepted by the ledger update. -/
theorem Writer.step_record (w : Writer) (rec : Record) (size : Int)
    (hr : w.returned = false) (hs : w.simpleWrite = false) (hv : w.violation rec = false) :
    w.step (Signal.record rec false size) =
      if size > w.Size then
        { w with
            projectDone := false
            ExportIndex := w.updateIndex rec
            prev := { M := rec.M, F := w.fileCount, R := w.recCount }
            fileCount := w.fileCount + 1
            recCount := 1
            overwrote := w.overwrote ||
              ((w.dir.flush w.currFile (w.pending ++ [rec.R])).get
                (FileFromInt (w.fileCount + 1))).isSome
            dir := (w.dir.flush w.currFile (w.pending ++ [rec.R])).put
              (FileFromInt (w.fileCount + 1)) []
            pending := [] }
      else
        { w with
            projectDone := false
            pending := w.pending ++ [rec.R]
            ExportIndex := w.updateIndex rec
            prev := { M := rec.M, F := w.fileCount, R := w.recCount }
            recCount := w.recCount + 1 } := by
  simp [Writer.step, hr, hs, hv]

theorem Writer.step_ownFiles (w : Writer) (sig : Signal) (h : w.ownFiles)
    (hc : w.cleanRun [sig]) : (w.step sig).ownFiles := by
  by_cases hr : w.returned = true
  · simp only [Writer.step, hr, if_true]; exact h
  · have hr' : w.returned = false := by simpa using hr
    obtain ⟨hs, ho, hne, ⟨c, hc1, hc2⟩, hhi⟩ := h
    cases sig with
    | boundary =>
      simp only [Writer.step, hr, Bool.false_eq_true, if_false, hs]
      by_cases hpd : w.projectDone = true
      · simp only [hpd, if_true]
        refine ⟨rfl, ho, hne, ⟨c ++ w.pending, Dir.get_flush_same _ _ _ _ hc1, by simpa using hc2⟩,
          ?_⟩
        intro n hn
        simp only at hn
        rw [Writer.currFile, Dir.get_flush_ne _ _ _ _ (by
          intro e; have := FileFromInt_inj _ _ e; omega)]
        exact hhi n hn
      · simp only [hpd, Bool.false_eq_true, if_false]
        exact ⟨rfl, ho, by simp [Indexes.Add], ⟨c, hc1, hc2⟩, hhi⟩
    | record rec writeErr size =>
      obtain ⟨hwe, hv, _⟩ := hc
      subst hwe
      rw [Writer.step_record w rec size hr' hs hv]
      by_cases hsz : size > w.Size
      · simp only [hsz, if_true]
        have hnone : (w.dir.flush w.currFile (w.pending ++ [rec.R])).get
            (FileFromInt (w.fileCount + 1)) = none := by
          rw [Writer.currFile, Dir.get_flush_ne _ _ _ _ (by
            intro e; have := FileFromInt_inj _ _ e; omega)]
          exact hhi _ (by omega)
        refine ⟨hs, by simp [ho, hnone], Writer.updateIndex_ne_nil w rec hne,
          ⟨[], Dir.get_put_same _ _ _, by simp⟩, ?_⟩
        intro n hn
        simp only at hn
        rw [Dir.get_put_ne _ _ _ _ (by intro e; have := FileFromInt_inj _ _ e; omega),
          Writer.currFile, Dir.get_flush_ne _ _ _ _ (by
            intro e; have := FileFromInt_inj _ _ e; omega)]
        exact hhi n (by omega)
      · simp only [hsz, if_false]
        refine ⟨hs, ho, Writer.updateIndex_ne_nil w rec hne,
          ⟨c, hc1, by
            simp only [List.length_append, List.length_singleton, Nat.cast_add,
              Nat.cast_one] at hc2 ⊢
            omega⟩, hhi⟩

theorem Writer.cleanRun_cons (w : Writer) (s : Signal) (l : List Signal)
    (h : w.cleanRun (s :: l)) : w.cleanRun [s] ∧ (w.step s).cleanRun l := by
  cases s with
  | boundary => exact ⟨trivial, h⟩
  | record rec writeErr size => exact ⟨⟨h.1, h.2.1, trivial⟩, h.2.2⟩

theorem Writer.cleanRun_append (a b : List Signal) :
    ∀ w : Writer, w.cleanRun (a ++ b) → w.cleanRun a ∧ (w.run a).cleanRun b := by
  induction a with
  | nil => intro w h; exact ⟨trivial, h⟩
  | cons s a ih =>
    intro w h
    obtain ⟨h1, h2⟩ := Writer.cleanRun_cons w s (a ++ b) h
    obtain ⟨h3, h4⟩ := ih (w.step s) h2
    refine ⟨?_, h4⟩
    cases s with
    | boundary => exact h3
    | record rec writeErr size => exact ⟨h1.1, h1.2.1, h3⟩

theorem Writer.run_ownFiles (sigs : List Signal) :
    ∀ w : Writer, w.ownFiles → w.cleanRun sigs → (w.run sigs).ownFiles := by
  induction sigs with
  | nil => intro w h _; exact h
  | cons s l ih =>
    intro w h hc
    obtain ⟨h1, h2⟩ := Writer.cleanRun_cons w s l hc
    exact ih (w.step s) (Writer.step_ownFiles w s h h1) h2

theorem Index.Update_Project (i : Index) (mg : Bytes) : (i.Update mg).Project = i.Project := by
  unfold Index.Update
  split
  · rfl
  · dsimp only
    split <;> rfl

/-- After the ledger update of an accepted record the open entry carries the
record's project. -/
theorem Writer.updateIndex_last (w : Writer) (rec : Record) (hne : w.ExportIndex ≠ []) :
    ∃ init a, w.updateIndex rec = init ++ [a] ∧ a.Project = rec.P := by
  obtain ⟨init, a0, hia⟩ := Indexes.eq_concat _ hne
  have hcur : w.currIndex = a0 := by simp [Writer.currIndex, hia]
  unfold Writer.updateIndex
  rw [hcur, hia]
  by_cases hp : a0.Project = rec.P
  · simp only [hp, if_true]
    by_cases hm : rec.M ≠ w.prev.M
    · rw [if_pos hm, modifyLast_concat]
      exact ⟨init, _, rfl, by rw [Index.Update_Project, hp]⟩
    · rw [if_neg hm]
      exact ⟨init, a0, rfl, hp⟩
  · rw [if_neg hp, modifyLast_concat]
    exact ⟨init, _, rfl, rfl⟩

/-- A record accepted by a live writer with files of its own making, then a
boundary: the entry is finalized at the coordinates of that record.  The records
written to the file of that ordinal are those the file holds followed, while the
file is still the open one, by the pending ones; they end with the record and
are as many as the end record says. -/
theorem Writer.record_then_boundary (w : Writer) (rec : Record) (size : Int)
    (h : w.ownFiles) (hr : w.returned = false) (hv : w.violation rec = false) :
    ∃ init e chunks,
      ((w.step (Signal.record rec false size)).step Signal.boundary).ExportIndex
        = init ++ [e, Index.new] ∧
      ((w.step (Signal.record rec false size)).step Signal.boundary).snapshot
        = some (init ++ [e]) ∧
      ((w.step (Signal.record rec false size)).step Signal.boundary).overwrote = false ∧
      e.Completed = true ∧ e.Project = rec.P ∧
      ((w.step (Signal.record rec false size)).step Signal.boundary).dir.get
        (FileFromInt e.EndFile) = some chunks ∧
      ((chunks ++
        (if ((w.step (Signal.record rec false size)).step Signal.boundary).fileCount = e.EndFile
          then ((w.step (Signal.record rec false size)).step Signal.boundary).pending
          else [])).length : Int) = e.EndRecord ∧
      (chunks ++
        (if ((w.step (Signal.record rec false size)).step Signal.boundary).fileCount = e.EndFile
          then ((w.step (Signal.record rec false size)).step Signal.boundary).pending
          else [])).getLast? = some rec.R := by
  have hown1 := Writer.step_ownFiles w (Signal.record rec false size) h ⟨rfl, hv, trivial⟩
  obtain ⟨hs, ho, hne, ⟨c, hc1, hc2⟩, hhi⟩ := h
  obtain ⟨init, a, hia, hap⟩ := Writer.updateIndex_last w rec hne
  have ho1 := hown1.2.1
  simp only [List.length_append, Nat.cast_add] at hc2
  rw [Writer.step_record w rec size hr hs hv] at ho1 ⊢
  by_cases hsz : size > w.Size
  · simp only [hsz, if_true] at ho1 ⊢
    simp only [Writer.step, hr, hs, Bool.false_eq_true, if_false, hia, modifyLast_concat,
      Indexes.Add]
    have hcur : (w.dir.flush w.currFile (w.pending ++ [rec.R])).get (FileFromInt w.fileCount)
        = some (c ++ (w.pending ++ [rec.R])) := Dir.get_flush_same _ _ _ _ hc1
    have hfc : ¬ w.fileCount + 1 = w.fileCount := by omega
    refine ⟨init, a.Finalize rec.M w.fileCount w.recCount, c ++ (w.pending ++ [rec.R]),
      by simp, rfl, ho1, rfl, ?_, ?_, ?_, ?_⟩
    · simp only [Index.Finalize, Index.Update_Project, hap]
    · simp only [Index.Finalize]
      rw [Dir.get_put_ne _ _ _ _ (by intro e; have := FileFromInt_inj _ _ e; omega)]
      exact hcur
    · simp only [Index.Finalize, hfc, if_false, List.append_nil, List.length_append,
        List.length_singleton, Nat.cast_add, Nat.cast_one]
      omega
    · simp only [Index.Finalize, hfc, if_false, List.append_nil]
      rw [← List.append_assoc, List.getLast?_concat]
  · simp only [hsz, if_false] at ho1 ⊢
    simp only [Writer.step, hr, hs, Bool.false_eq_true, if_false, hia, modifyLast_concat,
      Indexes.Add]
    refine ⟨init, a.Finalize rec.M w.fileCount w.recCount, c,
      by simp, rfl, ho1, rfl, ?_, ?_, ?_, ?_⟩
    · simp only [Index.Finalize, Index.Update_Project, hap]
    · simp only [Index.Finalize]
      exact hc1
    · simp only [Index.Finalize, if_true, List.length_append,
        List.length_singleton, Nat.cast_add, Nat.cast_one]
      omega
    · simp only [Index.Finalize, if_true]
      rw [← List.append_assoc, List.getLast?_concat]

/-! ## Writer engine: properties C3, C9 and C10 -/

/-- C10: start the writer in normal mode on a ledger whose entries are all
completed, let it receive any finite sequence of signals, then call
`RemoveFromEnd(n)` with `0 ≤ n ≤ length`: the call succeeds and every entry of
the resulting ledger except possibly the last is completed. -/
theorem C10_only_last_entry_open (Size : Int) (idx : Indexes) (snapshot : Option Indexes)
    (dir : Dir) (startFile startRec : Int) (sigs : List Signal) (n : Int)
    (hidx : ∀ e ∈ idx, e.Completed = true)
    (hn : 0 ≤ n ∧
      n ≤ ((WriterHandle.start Size idx snapshot dir false startFile startRec).run
        sigs).ExportIndex.length) :
    ∃ idx', ((WriterHandle.start Size idx snapshot dir false startFile startRec).run
        sigs).ExportIndex.RemoveFromEnd n = some idx' ∧
      ∀ e ∈ idx'.dropLast, e.Completed = true := by
  have h0 : (WriterHandle.start Size idx snapshot dir false startFile startRec).priorCompleted := by
    intro e he
    simp only [WriterHandle.start, Bool.false_eq_true, if_false, Indexes.Add,
      List.dropLast_concat] at he
    exact hidx e he
  exact RemoveFromEnd_priorCompleted _ n hn (Writer.run_priorCompleted sigs _ h0)

/-- The end coordinates count the records written.  Run the writer in normal
mode from the empty ledger and the empty directory, with no failed write and no
record taking the third branch of the ledger update.  When a boundary signal
follows a record `rec` while the writer is live, the entry it finalizes is
completed, carries the project of `rec`, and the records written to the file
`EndFile`, those the file holds followed, while it is the open file, by the
pending ones, end with `rec` and are exactly `EndRecord`; the snapshot saved at
that moment ends with this entry. -/
theorem Writer.end_coordinates_count_written (Size : Int) (pre : List Signal) (rec : Record)
    (size : Int)
    (hclean : (WriterHandle.start Size [] none [] false 0 0).cleanRun
      (pre ++ [Signal.record rec false size]))
    (hlive : ((WriterHandle.start Size [] none [] false 0 0).run pre).returned = false) :
    ∃ init e chunks,
      ((WriterHandle.start Size [] none [] false 0 0).run
        (pre ++ [Signal.record rec false size, Signal.boundary])).ExportIndex
        = init ++ [e, Index.new] ∧
      ((WriterHandle.start Size [] none [] false 0 0).run
        (pre ++ [Signal.record rec false size, Signal.boundary])).snapshot
        = some (init ++ [e]) ∧
      ((WriterHandle.start Size [] none [] false 0 0).run
        (pre ++ [Signal.record rec false size, Signal.boundary])).overwrote = false ∧
      e.Completed = true ∧ e.Project = rec.P ∧
      ((WriterHandle.start Size [] none [] false 0 0).run
        (pre ++ [Signal.record rec false size, Signal.boundary])).dir.get
        (FileFromInt e.EndFile) = some chunks ∧
      ((chunks ++
        (if ((WriterHandle.start Size [] none [] false 0 0).run
            (pre ++ [Signal.record rec false size, Signal.boundary])).fileCount = e.EndFile
          then ((WriterHandle.start Size [] none [] false 0 0).run
            (pre ++ [Signal.record rec false size, Signal.boundary])).pending
          else [])).length : Int) = e.EndRecord ∧
      (chunks ++
        (if ((WriterHandle.start Size [] none [] false 0 0).run
            (pre ++ [Signal.record rec false size, Signal.boundary])).fileCount = e.EndFile
          then ((WriterHandle.start Size [] none [] false 0 0).run
            (pre ++ [Signal.record rec false size, Signal.boundary])).pending
          else [])).getLast? = some rec.R := by
  have h0 : (WriterHandle.start Size [] none [] false 0 0).ownFiles := by
    refine ⟨rfl, rfl, by simp [WriterHandle.start, Indexes.Add], ⟨[], rfl, rfl⟩, ?_⟩
    intro n hn
    have hn' : (1 : Int) < n := hn
    have hne : FileFromInt 1 ≠ FileFromInt n := by
      intro e; have := FileFromInt_inj _ _ e; omega
    simp [WriterHandle.start, Dir.openAppend, Dir.get, Dir.put, hne]
  obtain ⟨hc1, hc2⟩ := Writer.cleanRun_append pre [Signal.record rec false size] _ hclean
  have hown := Writer.run_ownFiles pre _ h0 hc1
  rw [Writer.run_append]
  exact Writer.record_then_boundary _ rec size hown hlive hc2.2.1

/-- C9, as stated, fails: with the threshold of `--size 1` in debug mode,
1048576 bytes, and a reported size of exactly 1048576 the writer does not
rotate; the file counter stays 1 and the record counter moves to 2. -/
theorem C9_no_rotation_at_threshold :
    RWBuffer.Init 1 true = 1048576 ∧
    (1048576 : Int) ≥ (WriterHandle.start (RWBuffer.Init 1 true) [] none [] false 0 0).Size ∧
    (WriterHandle.start (RWBuffer.Init 1 true) [] none [] false 0 0).violation
      ⟨[62, 120, 10, 65, 10], [112], [109]⟩ = false ∧
    ((WriterHandle.start (RWBuffer.Init 1 true) [] none [] false 0 0).step
      (Signal.record ⟨[62, 120, 10, 65, 10], [112], [109]⟩ false 1048576)).fileCount = 1 ∧
    ((WriterHandle.start (RWBuffer.Init 1 true) [] none [] false 0 0).step
      (Signal.record ⟨[62, 120, 10, 65, 10], [112], [109]⟩ false 1048576)).recCount = 2 := by
  decide

/-- C9, amended: after a successful write of a record that the ledger update
accepts, a live normal-mode writer rotates exactly when the reported size is
above the threshold: then the file counter grows by 1 and the record counter is
1; otherwise the file counter is unchanged and the record counter grows by 1. -/
theorem C9_rotation_above_threshold (w : Writer) (rec : Record) (size : Int)
    (hr : w.returned = false) (hs : w.simpleWrite = false) (hv : w.violation rec = false) :
    (size > w.Size →
      (w.step (Signal.record rec false size)).fileCount = w.fileCount + 1 ∧
      (w.step (Signal.record rec false size)).recCount = 1) ∧
    (¬ size > w.Size →
      (w.step (Signal.record rec false size)).fileCount = w.fileCount ∧
      (w.step (Signal.record rec false size)).recCount = w.recCount + 1) := by
  rw [Writer.step_record w rec size hr hs hv]
  constructor
  · intro h; simp [h]
  · intro h; simp [h]

/-- The amended C9 at threshold 1048576 and a reported size of 1048577. -/
theorem C9_rotation_above_threshold_witness :
    ((1048577 : Int) > (WriterHandle.start 1048576 [] none [] false 0 0).Size →
      ((WriterHandle.start 1048576 [] none [] false 0 0).step
        (Signal.record ⟨[62, 120, 10, 65, 10], [112], [109]⟩ false 1048577)).fileCount
        = (WriterHandle.start 1048576 [] none [] false 0 0).fileCount + 1 ∧
      ((WriterHandle.start 1048576 [] none [] false 0 0).step
        (Signal.record ⟨[62, 120, 10, 65, 10], [112], [109]⟩ false 1048577)).recCount = 1) ∧
    (¬ (1048577 : Int) > (WriterHandle.start 1048576 [] none [] false 0 0).Size →
      ((WriterHandle.start 1048576 [] none [] false 0 0).step
        (Signal.record ⟨[62, 120, 10, 65, 10], [112], [109]⟩ false 1048577)).fileCount
        = (WriterHandle.start 1048576 [] none [] false 0 0).fileCount ∧
      ((WriterHandle.start 1048576 [] none [] false 0 0).step
        (Signal.record ⟨[62, 120, 10, 65, 10], [112], [109]⟩ false 1048577)).recCount
        = (WriterHandle.start 1048576 [] none [] false 0 0).recCount + 1) :=
  C9_rotation_above_threshold (WriterHandle.start 1048576 [] none [] false 0 0)
    ⟨[62, 120, 10, 65, 10], [112], [109]⟩ 1048577 (by decide) (by decide) (by decide)

/-- C10 at a ledger of one completed entry, a run of one record and a boundary,
and `RemoveFromEnd(1)`. -/
theorem C10_only_last_entry_open_witness :
    ∃ idx', ((WriterHandle.start 1048576
        [{ Project := [112], Metagenomes := [[109]], StartFile := 1, StartRecord := 1,
           EndFile := 1, EndRecord := 1, Completed := true }] none [] false 0 0).run
        [Signal.record ⟨[62, 120, 10, 65, 10], [113], [109]⟩ false 0,
          Signal.boundary]).ExportIndex.RemoveFromEnd 1 = some idx' ∧
      ∀ e ∈ idx'.dropLast, e.Completed = true :=
  C10_only_last_entry_open 1048576
    [{ Project := [112], Metagenomes := [[109]], StartFile := 1, StartRecord := 1,
       EndFile := 1, EndRecord := 1, Completed := true }] none [] 0 0
    [Signal.record ⟨[62, 120, 10, 65, 10], [113], [109]⟩ false 0, Signal.boundary] 1
    (by decide) (by decide)

/-! ## Ledger: the file list, property C8 -/

theorem mem_fileRange (sf ef n : Int) : n ∈ fileRange sf ef ↔ sf ≤ n ∧ n ≤ ef := by
  simp only [fileRange, List.mem_map, List.mem_range]
  constructor
  · rintro ⟨k, hk, rfl⟩
    have hk' : (k : Int) < ef + 1 - sf := Int.lt_toNat.mp hk
    have hk0 : (0 : Int) ≤ (k : Int) := Int.ofNat_nonneg k
    constructor <;> linarith
  · intro h
    have h0 : (0 : Int) ≤ n - sf := by linarith
    refine ⟨(n - sf).toNat, ?_, ?_⟩
    · apply Int.lt_toNat.mpr
      rw [Int.toNat_of_nonneg h0]
      linarith
    · rw [Int.toNat_of_nonneg h0]
      ring

theorem mem_dedupFirst (l : List Int) (n : Int) : n ∈ dedupFirst l ↔ n ∈ l := by
  induction l with
  | nil => simp [dedupFirst]
  | cons a l ih =>
    simp only [dedupFirst, List.mem_cons, List.mem_filter, ih, bne_iff_ne, ne_eq]
    by_cases h : n = a
    · simp [h]
    · simp [h]

theorem nodup_dedupFirst (l : List Int) : (dedupFirst l).Nodup := by
  induction l with
  | nil => simp [dedupFirst]
  | cons a l ih =>
    simp only [dedupFirst, List.nodup_cons, List.mem_filter, bne_iff_ne, ne_eq, not_true_eq_false,
      and_false, not_false_eq_true, true_and]
    exact ih.filter _

/-- The inner loop of `FileList` appends, in order of first appearance, the
ordinals that are not in `files` yet. -/
theorem foldl_addFile (xs : List Int) :
    ∀ files : List Int,
      xs.foldl addFile files = files ++ (dedupFirst xs).filter (fun x => decide (x ∉ files)) := by
  induction xs with
  | nil => intro files; simp [dedupFirst]
  | cons a l ih =>
    intro files
    simp only [List.foldl_cons, dedupFirst]
    by_cases ha : a ∈ files
    · simp only [addFile, ha, if_true]
      rw [ih files, List.filter_cons_of_neg (by simpa using ha), List.filter_filter]
      congr 1
      apply List.filter_congr
      intro x _
      by_cases hx : x ∈ files
      · simp [hx]
      · have : x ≠ a := fun e => hx (e ▸ ha)
        simp [hx, this]
    · simp only [addFile, ha, if_false]
      rw [ih (files ++ [a]), List.filter_cons_of_pos (by simpa using ha), List.filter_filter]
      simp only [List.append_assoc, List.singleton_append]
      congr 2
      apply List.filter_congr
      intro x _
      by_cases hx : x ∈ files <;> by_cases hxa : x = a <;> simp [hx, hxa]

theorem foldl_ranges (es : List Index) :
    ∀ files : List Int,
      es.foldl (fun files e => (fileRange e.StartFile e.EndFile).foldl addFile files) files
        = (es.map (fun e => fileRange e.StartFile e.EndFile)).flatten.foldl addFile files := by
  induction es with
  | nil => intro files; rfl
  | cons e es ih =>
    intro files
    simp only [List.foldl_cons, List.map_cons, List.flatten_cons, List.foldl_append]
    exact ih _

/-- The outer loop of `FileList` skips the entries below `from` and runs the
inner loop on the others. -/
theorem foldl_enumFrom_skip (from_ : Int) (idx : Indexes) :
    ∀ (k : Nat) (files : List Int),
      (idx.enumFrom k).foldl
        (fun files ni =>
          if (ni.1 : Int) < from_ then files
          else (fileRange ni.2.StartFile ni.2.EndFile).foldl addFile files)
        files
        = (idx.drop (from_.toNat - k)).foldl
            (fun files e => (fileRange e.StartFile e.EndFile).foldl addFile files) files := by
  induction idx with
  | nil => intro k files; simp
  | cons e t ih =>
    intro k files
    simp only [List.enumFrom_cons, List.foldl_cons]
    by_cases hk : (k : Int) < from_
    · simp only [hk, if_true]
      rw [ih (k + 1) files]
      have h1 : from_.toNat - k = (from_.toNat - (k + 1)) + 1 := by omega
      rw [h1, List.drop_succ_cons]
    · simp only [hk, if_false]
      rw [ih (k + 1) _]
      have h1 : from_.toNat - k = 0 := by omega
      have h2 : from_.toNat - (k + 1) = 0 := by omega
      rw [h1, h2]
      simp

theorem FileList_eq_spec (idx : Indexes) (from_ : Int) :
    idx.FileList from_ = fileNumbersSpec idx from_ := by
  unfold Indexes.FileList fileNumbersSpec
  rw [List.enum, foldl_enumFrom_skip from_ idx 0 [], foldl_ranges, foldl_addFile]
  simp

theorem FileList_nodup (idx : Indexes) (from_ : Int) : (idx.FileList from_).Nodup := by
  rw [FileList_eq_spec]
  exact nodup_dedupFirst _

theorem mem_FileList (idx : Indexes) (from_ : Int) (n : Int) :
    n ∈ idx.FileList from_ ↔
      ∃ e ∈ idx.drop from_.toNat, e.StartFile ≤ n ∧ n ≤ e.EndFile := by
  rw [FileList_eq_spec, fileNumbersSpec, mem_dedupFirst]
  simp only [List.mem_flatten, List.mem_map]
  constructor
  · rintro ⟨l, ⟨e, he, rfl⟩, hn⟩
    exact ⟨e, he, (mem_fileRange _ _ _).mp hn⟩
  · rintro ⟨e, he, hn⟩
    exact ⟨_, ⟨e, he, rfl⟩, (mem_fileRange _ _ _).mpr hn⟩

/-- C8: for every ledger and every start position, `FileList(from)` is the
first-occurrence de-duplication of the concatenated ranges
`StartFile..EndFile` of the entries at positions `from` and above; it holds no
ordinal twice, and an ordinal is in it exactly when one of these entries
references it. -/
theorem C8_FileList_unique_ordered (idx : Indexes) (from_ : Int) :
    idx.FileList from_ = fileNumbersSpec idx from_ ∧
    (idx.FileList from_).Nodup ∧
    ∀ n, n ∈ idx.FileList from_ ↔
      ∃ e ∈ idx.drop from_.toNat, e.StartFile ≤ n ∧ n ≤ e.EndFile :=
  ⟨FileList_eq_spec idx from_, FileList_nodup idx from_, mem_FileList idx from_⟩

/-! ## Recovery: the files `Remove` deletes, property C7 -/

theorem SliceIndex_none (l : List Int) (a : Int) (h : a ∉ l) :
    SliceIndex l.length (fun i => l.get? i == some a) = -1 := by
  unfold SliceIndex
  have : (List.range l.length).find? (fun i => l.get? i == some a) = none := by
    rw [List.find?_eq_none]
    intro i _ hi
    simp only [beq_iff_eq] at hi
    exact h (List.get?_mem hi)
  rw [this]

theorem SliceIndex_some (l : List Int) (a : Int) (h : a ∈ l) :
    ∃ i : Nat, SliceIndex l.length (fun i => l.get? i == some a) = (i : Int) ∧
      l.get? i = some a := by
  unfold SliceIndex
  cases hf : (List.range l.length).find? (fun i => l.get? i == some a) with
  | none =>
    rw [List.find?_eq_none] at hf
    obtain ⟨i, hi⟩ := List.mem_iff_get?.mp h
    have hlt : i < l.length := by
      by_contra hge
      rw [List.get?_eq_none.mpr (by omega)] at hi
      exact absurd hi (by simp)
    exact absurd (by simpa using hi) (hf i (List.mem_range.mpr hlt))
  | some i =>
    have := List.find?_some hf
    exact ⟨i, rfl, by simpa using this⟩

theorem mem_take_drop_succ (l : List Int) (hnd : l.Nodup) (i : Nat) (a : Int)
    (h : l.get? i = some a) (n : Int) :
    n ∈ l.take i ++ l.drop (i + 1) ↔ n ∈ l ∧ n ≠ a := by
  have hlt : i < l.length := by
    by_contra hge
    rw [List.get?_eq_none.mpr (by omega)] at h
    exact absurd h (by simp)
  have hsplit : l = l.take i ++ a :: l.drop (i + 1) := by
    have h1 : l.drop i = a :: l.drop (i + 1) := by
      rw [List.drop_eq_getElem_cons hlt]
      congr 1
      rw [List.get?_eq_getElem?, List.getElem?_eq_getElem hlt] at h
      exact Option.some.inj h
    rw [← h1, List.take_append_drop]
  rw [hsplit] at hnd
  have hnd' := List.nodup_middle.mp hnd
  have ha : a ∉ l.take i ++ l.drop (i + 1) := (List.nodup_cons.mp hnd').1
  constructor
  · intro hn
    refine ⟨?_, fun e => ha (e ▸ hn)⟩
    rw [hsplit]
    rcases List.mem_append.mp hn with h1 | h1
    · exact List.mem_append_left _ h1
    · exact List.mem_append_right _ (List.mem_cons_of_mem _ h1)
  · rintro ⟨hn, hne⟩
    rw [hsplit] at hn
    rcases List.mem_append.mp hn with h1 | h1
    · exact List.mem_append_left _ h1
    · rcases List.mem_cons.mp h1 with h2 | h2
      · exact absurd h2 hne
      · exact List.mem_append_right _ h2

theorem pairwise_of_chain (l : Indexes) (hr : ∀ e ∈ l, e.StartFile ≤ e.EndFile)
    (hc : l.Chain' (fun a b => a.EndFile ≤ b.StartFile)) :
    l.Pairwise (fun a b => a.EndFile ≤ b.StartFile) := by
  induction l with
  | nil => exact List.Pairwise.nil
  | cons a t ih =>
    have hrt : ∀ e ∈ t, e.StartFile ≤ e.EndFile := fun e he => hr e (List.mem_cons_of_mem _ he)
    have hct := hc.tail
    have hpt := ih hrt hct
    refine List.Pairwise.cons ?_ hpt
    intro b hb
    cases t with
    | nil => exact absurd hb (by simp)
    | cons h t' =>
      have hah : a.EndFile ≤ h.StartFile := (List.chain'_cons.mp hc).1
      rcases List.mem_cons.mp hb with h1 | h1
      · rw [h1]; exact hah
      · have h2 : h.EndFile ≤ b.StartFile := (List.pairwise_cons.mp hpt).1 b h1
        have h3 := hrt h (by simp)
        omega

theorem filesRemove_eq (idx : Indexes) (count : Int) (k : Nat) (newLast : Index)
    (hk : idx.Len - count - 1 = (k : Int)) (hget : idx.get? k = some newLast)
    (hguard : ¬ (newLast.EndFile = 0 ∨ newLast.EndRecord = 0 ∨ newLast.Completed = false)) :
    Remove.filesRemove idx count =
      if SliceIndex (idx.FileList ((k : Int) + 1)).length
          (fun i => (idx.FileList ((k : Int) + 1)).get? i == some newLast.EndFile) ≠ -1 then
        Outcome.ok (newLast,
          (idx.FileList ((k : Int) + 1)).take
            (SliceIndex (idx.FileList ((k : Int) + 1)).length
              (fun i => (idx.FileList ((k : Int) + 1)).get? i == some newLast.EndFile)).toNat ++
          (idx.FileList ((k : Int) + 1)).drop
            ((SliceIndex (idx.FileList ((k : Int) + 1)).length
              (fun i => (idx.FileList ((k : Int) + 1)).get? i == some newLast.EndFile)).toNat + 1))
      else Outcome.ok (newLast, idx.FileList ((k : Int) + 1)) := by
  unfold Remove.filesRemove
  dsimp only
  rw [hk, if_neg (not_lt.mpr (Int.ofNat_nonneg k)), Int.toNat_ofNat, hget]
  dsimp only
  rw [if_neg hguard]

/-- The list the deletion loop of `Remove` ranges over.  For a ledger whose
entries are all completed, with `StartFile ≤ EndFile` in every entry and every
`StartFile` at or above the previous entry's `EndFile`, a count with
`0 < count < length`, and a new last entry whose `EndFile` and `EndRecord` are
not zero, the list holds exactly the ordinals referenced by a removed entry and
by no surviving entry; the new last entry's end file is not among them. -/
theorem Remove.filesRemove_unshared (idx : Indexes) (count : Int) (newLast : Index)
    (hcomp : ∀ e ∈ idx, e.Completed = true)
    (hrange : ∀ e ∈ idx, e.StartFile ≤ e.EndFile)
    (hchain : idx.Chain' (fun a b => a.EndFile ≤ b.StartFile))
    (hcount : 0 < count ∧ count < idx.length)
    (hnew : idx.get? ((idx.length : Int) - count - 1).toNat = some newLast)
    (hend : newLast.EndFile ≠ 0 ∧ newLast.EndRecord ≠ 0) :
    ∃ files survivors,
      Remove.filesRemove idx count = Outcome.ok (newLast, files) ∧
      idx.RemoveFromEnd count = some survivors ∧
      survivors.getLast? = some newLast ∧
      (∀ n, n ∈ files ↔
        (∃ e ∈ idx.drop survivors.length, e.StartFile ≤ n ∧ n ≤ e.EndFile) ∧
        ¬ ∃ e ∈ survivors, e.StartFile ≤ n ∧ n ≤ e.EndFile) ∧
      newLast.EndFile ∉ files := by
  obtain ⟨hc0, hcL⟩ := hcount
  -- positions
  obtain ⟨c, rfl⟩ : ∃ c : Nat, count = (c : Int) := ⟨count.toNat, by omega⟩
  have hc0' : 0 < c := by omega
  have hcL' : c < idx.length := by omega
  have hpos : ((idx.length : Int) - (c : Int) - 1) = ((idx.length - c - 1 : Nat) : Int) := by omega
  have hk : ((idx.length : Int) - (c : Int) - 1).toNat = idx.length - c - 1 := by
    rw [hpos]; rfl
  have hklt : idx.length - c - 1 < idx.length := by omega
  rw [hk] at hnew
  have hget := hnew
  obtain ⟨hef, her⟩ := hend
  have hmemNew : newLast ∈ idx := List.get?_mem hget
  have hcompl : newLast.Completed = true := hcomp _ hmemNew
  have hnat : (c : Int).toNat = c := rfl
  have hsurvlen : idx.length - (c : Int).toNat = idx.length - c - 1 + 1 := by
    rw [hnat]; omega
  have htake : idx.take (idx.length - c - 1 + 1) = idx.take (idx.length - c - 1) ++ [newLast] := by
    rw [List.take_succ, ← List.get?_eq_getElem?, hget]
    rfl
  have hlen : (idx.take (idx.length - c - 1 + 1)).length = idx.length - c - 1 + 1 := by
    rw [List.length_take]; omega
  -- order of the end files
  have hpw := pairwise_of_chain idx hrange hchain
  rw [← List.take_append_drop (idx.length - c - 1 + 1) idx] at hpw
  obtain ⟨hpwS, _, hcross⟩ := List.pairwise_append.mp hpw
  have hnewS : newLast ∈ idx.take (idx.length - c - 1 + 1) := by rw [htake]; simp
  have hle : ∀ e ∈ idx.take (idx.length - c - 1 + 1), e.EndFile ≤ newLast.EndFile := by
    intro e he
    rw [htake] at he hpwS
    rcases List.mem_append.mp he with h1 | h1
    · have h2 := (List.pairwise_append.mp hpwS).2.2 e h1 newLast (by simp)
      have h3 := hrange newLast hmemNew
      omega
    · simp only [List.mem_singleton] at h1
      rw [h1]
  -- the list before the new last file is taken out
  have hmemFL := mem_FileList idx (((idx.length - c - 1 : Nat) : Int) + 1)
  have htn : (((idx.length - c - 1 : Nat) : Int) + 1).toNat = idx.length - c - 1 + 1 := rfl
  rw [htn] at hmemFL
  have hnd := FileList_nodup idx (((idx.length - c - 1 : Nat) : Int) + 1)
  have hchar : ∀ (files : List Int),
      (∀ n, n ∈ files ↔ n ∈ idx.FileList (((idx.length - c - 1 : Nat) : Int) + 1) ∧
        n ≠ newLast.EndFile) →
      (∀ n, n ∈ files ↔
        (∃ e ∈ idx.drop (idx.take (idx.length - c - 1 + 1)).length,
          e.StartFile ≤ n ∧ n ≤ e.EndFile) ∧
        ¬ ∃ e ∈ idx.take (idx.length - c - 1 + 1), e.StartFile ≤ n ∧ n ≤ e.EndFile) ∧
      newLast.EndFile ∉ files := by
    intro files hfiles
    rw [hlen]
    refine ⟨?_, fun h => ((hfiles _).mp h).2 rfl⟩
    intro n
    rw [hfiles n, hmemFL n]
    constructor
    · rintro ⟨⟨e, he, h1, h2⟩, hne⟩
      refine ⟨⟨e, he, h1, h2⟩, ?_⟩
      rintro ⟨e', he', h3, h4⟩
      have h5 := hle e' he'
      have h6 := hcross newLast hnewS e he
      omega
    · rintro ⟨hex, hno⟩
      refine ⟨hex, ?_⟩
      intro e
      apply hno
      exact ⟨newLast, hnewS, by rw [e]; exact hrange newLast hmemNew, by rw [e]⟩
  -- the code
  have hguard : ¬ (newLast.EndFile = 0 ∨ newLast.EndRecord = 0 ∨ newLast.Completed = false) := by
    simp [hef, her, hcompl]
  have hnotneg : ¬ ((idx.length : Int) - (c : Int) - 1 < 0) := by omega
  by_cases hin : newLast.EndFile ∈ idx.FileList (((idx.length - c - 1 : Nat) : Int) + 1)
  · obtain ⟨i, hi, hgi⟩ := SliceIndex_some _ _ hin
    have hres := hchar _ (mem_take_drop_succ _ hnd i _ hgi)
    refine ⟨_, idx.take (idx.length - c - 1 + 1), ?_, ?_, ?_, hres.1, hres.2⟩
    · rw [filesRemove_eq idx c (idx.length - c - 1) newLast hpos hget hguard, hi,
        if_pos (by omega)]
      rfl
    · simp only [Indexes.RemoveFromEnd, hsurvlen]
      rw [if_pos (by omega)]
    · rw [htake]; simp
  · have hi := SliceIndex_none _ _ hin
    have hres := hchar (idx.FileList (((idx.length - c - 1 : Nat) : Int) + 1))
      (fun n => ⟨fun h => ⟨h, fun e => hin (e ▸ h)⟩, fun h => h.1⟩)
    refine ⟨_, idx.take (idx.length - c - 1 + 1), ?_, ?_, ?_, hres.1, hres.2⟩
    · rw [filesRemove_eq idx c (idx.length - c - 1) newLast hpos hget hguard, hi,
        if_neg (by simp)]
    · simp only [Indexes.RemoveFromEnd, hsurvlen]
      rw [if_pos (by omega)]
    · rw [htake]; simp

theorem Dir.get_remove_same (d : Dir) (n : FName) : (d.remove n).get n = none := by
  induction d with
  | nil => rfl
  | cons x d ih =>
    obtain ⟨m, c⟩ := x
    by_cases h : m = n
    · simp [Dir.remove, h, ih]
    · simp [Dir.remove, Dir.get, h, ih]

theorem Dir.get_remove_ne (d : Dir) (n m : FName) (h : m ≠ n) :
    (d.remove n).get m = d.get m := by
  induction d with
  | nil => rfl
  | cons x d ih =>
    obtain ⟨k, c⟩ := x
    by_cases hk : k = n
    · subst hk
      simp [Dir.remove, Dir.get, h.symm, ih]
    · by_cases hkm : k = m
      · subst hkm
        simp [Dir.remove, Dir.get, hk]
      · simp [Dir.remove, Dir.get, hk, hkm, ih]

theorem Dir.get_openAppend_ne (d : Dir) (n m : FName) (h : m ≠ n) :
    (d.openAppend n).get m = d.get m := by
  unfold Dir.openAppend
  cases d.get n with
  | none => exact Dir.get_put_ne d n m _ h
  | some c => rfl

theorem Dir.get_openAppend_same (d : Dir) (n : FName) : ((d.openAppend n).get n).isSome := by
  unfold Dir.openAppend
  cases h : d.get n with
  | none => simp [Dir.get_put_same]
  | some c => simp [h]

/-- The files the deletion loop leaves: those not in its list. -/
theorem Dir.get_foldl_remove (files : List Int) :
    ∀ (d : Dir) (f : FName),
      (files.foldl (fun d n => d.remove (FileFromInt n)) d).get f
        = if f ∈ files.map FileFromInt then none else d.get f := by
  induction files with
  | nil => intro d f; simp
  | cons a t ih =>
    intro d f
    rw [List.foldl_cons, ih]
    by_cases hf : f = FileFromInt a
    · subst hf
      simp [Dir.get_remove_same]
    · by_cases ht : f ∈ t.map FileFromInt
      · simp [ht]
      · have hn : f ∉ (a :: t).map FileFromInt := by
          simp only [List.map_cons, List.mem_cons, not_or]
          exact ⟨hf, ht⟩
        rw [if_neg ht, if_neg hn, Dir.get_remove_ne _ _ _ hf]

/-- The copy loop leaves the directory and the file counter of a writer in
replay-only mode as they are: the records it submits stay pending. -/
theorem copyRecords_replay : ∀ (n : Nat) (rd : Reader) (w w1 : Writer),
    w.simpleWrite = true → w.returned = false → copyRecords n rd w = Outcome.ok w1 →
      w1.simpleWrite = true ∧ w1.returned = false ∧ w1.dir = w.dir ∧ w1.fileCount = w.fileCount
  | 0, _, w, w1, hs, hr, h => by
    simp only [copyRecords, Outcome.ok.injEq] at h
    subst h
    exact ⟨hs, hr, rfl, rfl⟩
  | n + 1, rd, w, w1, hs, hr, h => by
    unfold copyRecords at h
    cases hrd : rd.Read with
    | none => rw [hrd] at h; exact absurd h (by simp)
    | some x =>
      obtain ⟨⟨seq, er⟩, rd'⟩ := x
      rw [hrd] at h
      dsimp only at h
      by_cases he : er ≠ Err.nil
      · rw [if_pos he] at h
        split at h <;> exact absurd h (by simp)
      · rw [if_neg he] at h
        cases seq with
        | none => exact absurd h (by simp)
        | some sq =>
          dsimp only at h
          have hst : w.step (Signal.record { R := sq.Record, P := [], M := [] } false 0)
              = { w with projectDone := false, pending := w.pending ++ [sq.Record] } := by
            simp [Writer.step, hr, hs]
          rw [hst] at h
          exact copyRecords_replay n rd'
            { w with projectDone := false, pending := w.pending ++ [sq.Record] } w1 hs hr h

/-- The writer of `truncateExportFile` starts at the file to truncate, opened
anew. -/
theorem WriterHandle.start_replay (Size : Int) (idx : Indexes) (dir : Dir) (fint : Int)
    (hf : fint ≠ 0) :
    (WriterHandle.start Size idx none dir true fint 1).dir = dir.openAppend (FileFromInt fint) ∧
      (WriterHandle.start Size idx none dir true fint 1).fileCount = fint := by
  simp [WriterHandle.start, hf]

/-- `truncateExportFile` touches the file it truncates and its renamed copy
only. -/
theorem truncateExportFile.run_frame (Size : Int) (idx : Indexes) (dir : Dir)
    (fint newRec : Int) (hf : fint ≠ 0) (f : FName) (h1 : f ≠ FileFromInt fint)
    (h2 : f ≠ FName.temp fint) :
    (truncateExportFile.run Size idx dir fint newRec).1.get f = dir.get f := by
  unfold truncateExportFile.run
  dsimp only
  cases hget : dir.get (FileFromInt fint) with
  | none => rfl
  | some chunks =>
    dsimp only
    have hstart : (WriterHandle.start Size idx none
        ((dir.remove (FileFromInt fint)).put (FName.temp fint) chunks) true fint 1).dir.get f
        = dir.get f := by
      rw [(WriterHandle.start_replay Size idx _ fint hf).1, Dir.get_openAppend_ne _ _ _ h1,
        Dir.get_put_ne _ _ _ _ h2, Dir.get_remove_ne _ _ _ h1]
    have hfc : (WriterHandle.start Size idx none
        ((dir.remove (FileFromInt fint)).put (FName.temp fint) chunks) true fint 1).fileCount
        = fint := (WriterHandle.start_replay Size idx _ fint hf).2
    cases hc : copyRecords newRec.toNat (NewReader chunks.flatten true)
        (WriterHandle.start Size idx none
          ((dir.remove (FileFromInt fint)).put (FName.temp fint) chunks) true fint 1) with
    | ok w1 =>
      obtain ⟨hs1, hr1, hd1, hfc1⟩ := copyRecords_replay _ _ _ w1 rfl rfl hc
      dsimp only
      rw [Dir.get_remove_ne _ _ _ h2]
      by_cases hp : w1.projectDone = true
      · have : ((w1.step Signal.boundary).step Signal.boundary).dir
            = w1.dir.flush w1.currFile w1.pending := by
          simp [Writer.step, hr1, hp]
        rw [this, Writer.currFile, hfc1, hfc, Dir.get_flush_ne _ _ _ _ h1, hd1]
        exact hstart
      · have : ((w1.step Signal.boundary).step Signal.boundary).dir
            = w1.dir.flush w1.currFile w1.pending := by
          simp [Writer.step, hr1, hp, hs1, Writer.currFile]
        rw [this, Writer.currFile, hfc1, hfc, Dir.get_flush_ne _ _ _ _ h1, hd1]
        exact hstart
    | error e => exact hstart
    | panic => exact hstart
    | hang => exact hstart

/-- `truncateExportFile` does not lose the file it truncates: after the call the
file or its renamed copy is there. -/
theorem truncateExportFile.run_keeps (Size : Int) (idx : Indexes) (dir : Dir)
    (fint newRec : Int) (hf : fint ≠ 0) (h : (dir.get (FileFromInt fint)).isSome) :
    ((truncateExportFile.run Size idx dir fint newRec).1.get (FileFromInt fint)).isSome ∨
      ((truncateExportFile.run Size idx dir fint newRec).1.get (FName.temp fint)).isSome := by
  left
  unfold truncateExportFile.run
  dsimp only
  cases hget : dir.get (FileFromInt fint) with
  | none => rw [hget] at h; exact absurd h (by simp)
  | some chunks =>
    dsimp only
    have hstart : ((WriterHandle.start Size idx none
        ((dir.remove (FileFromInt fint)).put (FName.temp fint) chunks) true fint 1).dir.get
          (FileFromInt fint)).isSome := by
      rw [(WriterHandle.start_replay Size idx _ fint hf).1]
      exact Dir.get_openAppend_same _ _
    have hfc : (WriterHandle.start Size idx none
        ((dir.remove (FileFromInt fint)).put (FName.temp fint) chunks) true fint 1).fileCount
        = fint := (WriterHandle.start_replay Size idx _ fint hf).2
    have hne : FileFromInt fint ≠ FName.temp fint := by simp [FileFromInt]
    cases hc : copyRecords newRec.toNat (NewReader chunks.flatten true)
        (WriterHandle.start Size idx none
          ((dir.remove (FileFromInt fint)).put (FName.temp fint) chunks) true fint 1) with
    | ok w1 =>
      obtain ⟨hs1, hr1, hd1, hfc1⟩ := copyRecords_replay _ _ _ w1 rfl rfl hc
      dsimp only
      rw [Dir.get_remove_ne _ _ _ hne]
      have hd : ((w1.step Signal.boundary).step Signal.boundary).dir
          = w1.dir.flush w1.currFile w1.pending := by
        by_cases hp : w1.projectDone = true
        · simp [Writer.step, hr1, hp]
        · simp [Writer.step, hr1, hp, hs1, Writer.currFile]
      rw [hd, Writer.currFile, hfc1, hfc, hd1]
      cases hg : (WriterHandle.start Size idx none
          ((dir.remove (FileFromInt fint)).put (FName.temp fint) chunks) true fint 1).dir.get
            (FileFromInt fint) with
      | none => rw [hg] at hstart; exact absurd hstart (by simp)
      | some c => rw [Dir.get_flush_same _ _ _ c hg]; rfl
    | error e => exact hstart
    | panic => exact hstart
    | hang => exact hstart

/-- C7, amended: for a store whose ledger has all entries completed, with
`StartFile ≤ EndFile` in every entry and every `StartFile` at or above the
previous entry's `EndFile`, a count with `0 < count < length`, and a new last
entry whose `EndFile` and `EndRecord` are not zero, `Remove(count)`, however it
returns, leaves the ledger without its last `count` entries and a directory in
which: every file whose ordinal is referenced by a removed entry and by no
surviving entry is gone; every other file, the end file of the new last entry
apart, is as it was; and the end file of the new last entry, which a surviving
entry references, is not lost: the file, or the renamed copy that
`truncateExportFile` makes of it, is there when the file was. -/
theorem C7_remove_deletes_unshared_files (Size : Int) (st : Store) (idx : Indexes)
    (count : Int) (newLast : Index)
    (hsnap : st.snapshot = some idx)
    (hcomp : ∀ e ∈ idx, e.Completed = true)
    (hrange : ∀ e ∈ idx, e.StartFile ≤ e.EndFile)
    (hchain : idx.Chain' (fun a b => a.EndFile ≤ b.StartFile))
    (hcount : 0 < count ∧ count < idx.length)
    (hnew : idx.get? ((idx.length : Int) - count - 1).toNat = some newLast)
    (hend : newLast.EndFile ≠ 0 ∧ newLast.EndRecord ≠ 0) :
    (Remove.run Size st count).1.snapshot = some (idx.take (idx.length - count.toNat)) ∧
    (idx.take (idx.length - count.toNat)).getLast? = some newLast ∧
    (∀ n,
      ((∃ e ∈ idx.drop (idx.length - count.toNat), e.StartFile ≤ n ∧ n ≤ e.EndFile) ∧
        ¬ ∃ e ∈ idx.take (idx.length - count.toNat), e.StartFile ≤ n ∧ n ≤ e.EndFile) →
      (Remove.run Size st count).1.dir.get (FileFromInt n) = none) ∧
    (∀ n,
      ¬ ((∃ e ∈ idx.drop (idx.length - count.toNat), e.StartFile ≤ n ∧ n ≤ e.EndFile) ∧
        ¬ ∃ e ∈ idx.take (idx.length - count.toNat), e.StartFile ≤ n ∧ n ≤ e.EndFile) →
      n ≠ newLast.EndFile →
      (Remove.run Size st count).1.dir.get (FileFromInt n) = st.dir.get (FileFromInt n)) ∧
    ((st.dir.get (FileFromInt newLast.EndFile)).isSome →
      ((Remove.run Size st count).1.dir.get (FileFromInt newLast.EndFile)).isSome ∨
        ((Remove.run Size st count).1.dir.get (FName.temp newLast.EndFile)).isSome) := by
  obtain ⟨files, survivors, hfr, hrfe, hlast, hchar, hLnot⟩ :=
    Remove.filesRemove_unshared idx count newLast hcomp hrange hchain hcount hnew hend
  have hs : survivors = idx.take (idx.length - count.toNat) := by
    unfold Indexes.RemoveFromEnd at hrfe
    split at hrfe
    · exact (Option.some.inj hrfe).symm
    · exact absurd hrfe (by simp)
  have hsl : survivors.length = idx.length - count.toNat := by
    rw [hs, List.length_take]
    omega
  rw [hsl, hs] at hchar
  rw [hs] at hlast
  have hlen0 : ¬ Indexes.Len idx = 0 := by
    simp only [Indexes.Len]
    omega
  have hlen1 : ¬ Indexes.Len idx ≤ count := by
    simp only [Indexes.Len]
    omega
  have hrun : Remove.run Size st count =
      ({ snapshot := some survivors,
         dir := (truncateExportFile.run Size survivors
            (files.foldl (fun d n => d.remove (FileFromInt n)) st.dir)
            newLast.EndFile newLast.EndRecord).1 },
        (truncateExportFile.run Size survivors
            (files.foldl (fun d n => d.remove (FileFromInt n)) st.dir)
            newLast.EndFile newLast.EndRecord).2) := by
    unfold Remove.run
    simp only [Indexes.Init, hsnap, Option.getD_some, hlen0, hlen1, if_false, hfr, hrfe]
  have hmem : ∀ n, FileFromInt n ∈ files.map FileFromInt ↔ n ∈ files := by
    intro n
    simp only [List.mem_map]
    constructor
    · rintro ⟨m, hm, he⟩
      rw [← FileFromInt_inj _ _ he]; exact hm
    · intro h; exact ⟨n, h, rfl⟩
  have htemp : ∀ n m, FileFromInt n ≠ FName.temp m := by
    intro n m; simp [FileFromInt]
  rw [hrun]
  refine ⟨by rw [hs], hlast, ?_, ?_, ?_⟩
  · intro n hD
    have hn : n ∈ files := (hchar n).mpr hD
    have hne : n ≠ newLast.EndFile := fun e => hLnot (e ▸ hn)
    dsimp only
    rw [truncateExportFile.run_frame _ _ _ _ _ hend.1 _
        (fun e => hne (FileFromInt_inj _ _ e)) (htemp _ _),
      Dir.get_foldl_remove, if_pos ((hmem n).mpr hn)]
  · intro n hD hne
    have hn : n ∉ files := fun h => hD ((hchar n).mp h)
    dsimp only
    rw [truncateExportFile.run_frame _ _ _ _ _ hend.1 _
        (fun e => hne (FileFromInt_inj _ _ e)) (htemp _ _),
      Dir.get_foldl_remove, if_neg (fun h => hn ((hmem n).mp h))]
  · intro hL
    dsimp only
    apply truncateExportFile.run_keeps _ _ _ _ _ hend.1
    rw [Dir.get_foldl_remove, if_neg (fun h => hLnot ((hmem _).mp h))]
    exact hL

/-- The amended C7 at a ledger of two entries sharing file 2, `count = 1`, and a
directory with the files 1, 2 and 3: `Remove(1)` returns no error, the ledger
keeps the first entry, file 3 is gone, file 1 is as it was, and file 2 is
there. -/
theorem C7_remove_deletes_unshared_files_witness :
    (Remove.run 1048576
      ⟨some [⟨[112], [[109]], 1, 1, 2, 3, true⟩, ⟨[113], [[110]], 2, 4, 3, 1, true⟩],
        [(FName.export 1, [[62, 97, 10, 65, 10]]),
          (FName.export 2, [[62, 98, 10, 65, 10], [62, 99, 10, 65, 10], [62, 100, 10, 65, 10],
            [62, 101, 10, 65, 10]]),
          (FName.export 3, [[62, 102, 10, 65, 10]])]⟩ 1).2 = Outcome.ok () ∧
    (Remove.run 1048576
      ⟨some [⟨[112], [[109]], 1, 1, 2, 3, true⟩, ⟨[113], [[110]], 2, 4, 3, 1, true⟩],
        [(FName.export 1, [[62, 97, 10, 65, 10]]),
          (FName.export 2, [[62, 98, 10, 65, 10], [62, 99, 10, 65, 10], [62, 100, 10, 65, 10],
            [62, 101, 10, 65, 10]]),
          (FName.export 3, [[62, 102, 10, 65, 10]])]⟩ 1).1.snapshot
      = some [⟨[112], [[109]], 1, 1, 2, 3, true⟩] ∧
    (Remove.run 1048576
      ⟨some [⟨[112], [[109]], 1, 1, 2, 3, true⟩, ⟨[113], [[110]], 2, 4, 3, 1, true⟩],
        [(FName.export 1, [[62, 97, 10, 65, 10]]),
          (FName.export 2, [[62, 98, 10, 65, 10], [62, 99, 10, 65, 10], [62, 100, 10, 65, 10],
            [62, 101, 10, 65, 10]]),
          (FName.export 3, [[62, 102, 10, 65, 10]])]⟩ 1).1.dir.get (FileFromInt 3) = none ∧
    (Remove.run 1048576
      ⟨some [⟨[112], [[109]], 1, 1, 2, 3, true⟩, ⟨[113], [[110]], 2, 4, 3, 1, true⟩],
        [(FName.export 1, [[62, 97, 10, 65, 10]]),
          (FName.export 2, [[62, 98, 10, 65, 10], [62, 99, 10, 65, 10], [62, 100, 10, 65, 10],
            [62, 101, 10, 65, 10]]),
          (FName.export 3, [[62, 102, 10, 65, 10]])]⟩ 1).1.dir.get (FileFromInt 1)
      = some [[62, 97, 10, 65, 10]] ∧
    (((Remove.run 1048576
      ⟨some [⟨[112], [[109]], 1, 1, 2, 3, true⟩, ⟨[113], [[110]], 2, 4, 3, 1, true⟩],
        [(FName.export 1, [[62, 97, 10, 65, 10]]),
          (FName.export 2, [[62, 98, 10, 65, 10], [62, 99, 10, 65, 10], [62, 100, 10, 65, 10],
            [62, 101, 10, 65, 10]]),
          (FName.export 3, [[62, 102, 10, 65, 10]])]⟩ 1).1.dir.get (FileFromInt 2)).isSome ∨
      ((Remove.run 1048576
        ⟨some [⟨[112], [[109]], 1, 1, 2, 3, true⟩, ⟨[113], [[110]], 2, 4, 3, 1, true⟩],
          [(FName.export 1, [[62, 97, 10, 65, 10]]),
            (FName.export 2, [[62, 98, 10, 65, 10], [62, 99, 10, 65, 10], [62, 100, 10, 65, 10],
              [62, 101, 10, 65, 10]]),
            (FName.export 3, [[62, 102, 10, 65, 10]])]⟩ 1).1.dir.get (FName.temp 2)).isSome) :=
  have h := C7_remove_deletes_unshared_files 1048576
    ⟨some [⟨[112], [[109]], 1, 1, 2, 3, true⟩, ⟨[113], [[110]], 2, 4, 3, 1, true⟩],
      [(FName.export 1, [[62, 97, 10, 65, 10]]),
        (FName.export 2, [[62, 98, 10, 65, 10], [62, 99, 10, 65, 10], [62, 100, 10, 65, 10],
          [62, 101, 10, 65, 10]]),
        (FName.export 3, [[62, 102, 10, 65, 10]])]⟩
    [⟨[112], [[109]], 1, 1, 2, 3, true⟩, ⟨[113], [[110]], 2, 4, 3, 1, true⟩] 1
    ⟨[112], [[109]], 1, 1, 2, 3, true⟩ rfl (by decide) (by decide) (by simp) (by decide)
    (by decide) (by decide)
  ⟨by decide, h.1, h.2.2.1 3 (by decide), (h.2.2.2.1 1 (by decide) (by decide)).trans (by decide),
    h.2.2.2.2 (by decide)⟩

/-- C7, as stated, fails: both entries are completed, ordered and with
`StartFile ≤ EndFile`, and ordinal 2 is referenced by the removed entry only, yet
`Remove(1)` deletes nothing and returns the bad-state error, because the new
last entry has `EndRecord = 0`. -/
theorem C7_zero_end_record_blocks_remove :
    (∀ e ∈ ([{ Index.new with StartFile := 1, EndFile := 1, Completed := true },
        { Index.new with StartFile := 2, EndFile := 2, EndRecord := 5, Completed := true }]
        : Indexes), e.Completed = true ∧ e.StartFile ≤ e.EndFile) ∧
    List.Chain' (fun a b : Index => a.EndFile ≤ b.StartFile)
      [{ Index.new with StartFile := 1, EndFile := 1, Completed := true },
       { Index.new with StartFile := 2, EndFile := 2, EndRecord := 5, Completed := true }] ∧
    Remove.filesRemove
      [{ Index.new with StartFile := 1, EndFile := 1, Completed := true },
       { Index.new with StartFile := 2, EndFile := 2, EndRecord := 5, Completed := true }] 1
      = Outcome.error Failure.incomplete ∧
    Remove 1048576
      { snapshot := some
          [{ Index.new with StartFile := 1, EndFile := 1, Completed := true },
           { Index.new with StartFile := 2, EndFile := 2, EndRecord := 5, Completed := true }]
        dir := [(FName.export 1, []), (FName.export 2, [[62, 120, 10, 65, 10]])] } 1
      = Outcome.error Failure.incomplete := by
  refine ⟨by decide, by simp, by decide, by decide⟩

/-! ## Recovery: truncation, clean and rebuild, properties C4, C5 and C6 -/

/-- The copy loop asked for as many records as the file holds fails at the last
one, whatever the writer. -/
theorem copyRecords_all_fails (rs : List LineRecord) :
    ∀ (r : LineRecord) (rd : Reader) (lead : Bool) (w : Writer),
      rd.f = leadGT lead ++ r.chunk ++ (rs.map LineRecord.encode).flatten →
      (∀ x ∈ r :: rs, GoodRecord x) →
      copyRecords (rs.length + 1) rd w = Outcome.error Failure.eofBeforeLast := by
  induction rs with
  | nil =>
    intro r rd lead w hf hg
    have h := Read_record rd lead r none (hg r (by simp)) (by simpa [tailOf] using hf)
    simp [copyRecords, h, errOf]
  | cons r2 rs ih =>
    intro r rd lead w hf hg
    have hf' : rd.f = leadGT lead ++ r.chunk
        ++ tailOf (some (r2.chunk ++ (rs.map LineRecord.encode).flatten)) := by
      rw [hf]; simp [LineRecord.encode, tailOf]
    have h := Read_record rd lead r _ (hg r (by simp)) hf'
    rw [List.length_cons, copyRecords, h]
    simp only [errOf, ne_eq, not_true_eq_false, if_false, Option.getD_some]
    exact ih r2 _ false _ (by simp [leadGT]) (fun x hx => hg x (by simp [List.mem_cons.mp hx]))

/-- Truncating a file of well-formed records to the number of records it holds
returns the error "reached EOF before last record read". -/
theorem truncateExportFile_all_records_fails (Size : Int) (idx : Indexes) (dir : Dir)
    (fint : Int) (chunks : List Bytes) (recs : List LineRecord)
    (hget : dir.get (FileFromInt fint) = some chunks)
    (hflat : chunks.flatten = (recs.map LineRecord.encode).flatten)
    (hne : recs ≠ []) (hgood : ∀ x ∈ recs, GoodRecord x) :
    truncateExportFile Size idx dir fint recs.length = Outcome.error Failure.eofBeforeLast := by
  cases recs with
  | nil => exact absurd rfl hne
  | cons r rs =>
    unfold truncateExportFile truncateExportFile.run
    simp only [hget]
    have hn : (((r :: rs).length : Nat) : Int).toNat = rs.length + 1 := by simp
    rw [hn, copyRecords_all_fails rs r _ true _ (by simp [NewReader, hflat, leadGT, LineRecord.encode]) hgood]

theorem indexLoop_ok_next (fnum : Int) (fuel : Nat) (rnum : Int) (fr : Reader) (idx : Indexes)
    (prev : Option PrevInfo) (currIndex nextIndex : Option Nat)
    (res : Indexes × Option PrevInfo × Option Nat)
    (h : indexLoop fnum fuel rnum fr idx prev currIndex none nextIndex = Outcome.ok res) :
    res.2.1 = none := by
  cases fuel with
  | zero => simp [indexLoop] at h
  | succ fuel =>
    unfold indexLoop at h
    dsimp only at h
    split at h
    · exact absurd h (by simp)
    · split at h
      · exact absurd h (by simp)
      · split at h
        · simp only [Outcome.ok.injEq] at h
          rw [← h]
        · split at h
          · exact absurd h (by simp)
          · split at h
            · exact absurd h (by simp)
            · split at h <;> exact absurd h (by simp)

theorem indexFile_ok_prev (idx : Indexes) (dir : Dir) (f : FName) (prev : Option PrevInfo)
    (currIndex : Option Nat) (res : Indexes × Option PrevInfo × Option Nat)
    (h : indexFile idx dir f prev currIndex = Outcome.ok res) : res.2.1 = none := by
  unfold indexFile at h
  split at h
  · exact absurd h (by simp)
  · exact indexLoop_ok_next _ _ _ _ _ _ _ _ _ h

theorem indexFiles_ok_prev (dir : Dir) (files : List FName) :
    ∀ (idx : Indexes) (prev : Option PrevInfo) (currIndex : Option Nat)
      (res : Indexes × Option PrevInfo × Option Nat),
      files ≠ [] ∨ prev = none →
      indexFiles dir files idx prev currIndex = Outcome.ok res → res.2.1 = none := by
  induction files with
  | nil =>
    intro idx prev currIndex res hp h
    rcases hp with hp | hp
    · exact absurd rfl hp
    · simp only [indexFiles, Outcome.ok.injEq] at h
      rw [← h]; exact hp
  | cons f files ih =>
    intro idx prev currIndex res _ h
    unfold indexFiles at h
    cases hf : indexFile idx dir f prev currIndex with
    | ok r =>
      obtain ⟨idx', prev', cur'⟩ := r
      rw [hf] at h
      have hp' : prev' = none := indexFile_ok_prev idx dir f prev currIndex _ hf
      exact ih idx' prev' cur' res (Or.inr hp') h
    | error e => rw [hf] at h; exact absurd h (by simp)
    | panic => rw [hf] at h; exact absurd h (by simp)
    | hang => rw [hf] at h; exact absurd h (by simp)

/-- `IndexAllFiles` never returns a ledger when it is given a file. -/
theorem IndexAllFiles_never_ok (idx : Indexes) (dir : Dir) (files : List FName)
    (hne : files ≠ []) (res : Indexes) : idx.IndexAllFiles dir files ≠ Outcome.ok res := by
  intro h
  unfold Indexes.IndexAllFiles at h
  cases hf : indexFiles dir files (idx.Add Index.new) (some PrevInfo.new) (some idx.length) with
  | ok r =>
    obtain ⟨idx', prev', cur'⟩ := r
    have hp : prev' = none := indexFiles_ok_prev dir files _ _ _ _ (Or.inl hne) hf
    subst hp
    rw [hf] at h
    simp at h
  | error e => rw [hf] at h; exact absurd h (by simp)
  | panic => rw [hf] at h; exact absurd h (by simp)
  | hang => rw [hf] at h; exact absurd h (by simp)

/-- C4, the code at a failing input: the writer, started on the empty ledger and
the empty directory, writes one record and ends; file 1 then decodes to exactly
one record.  `truncateExportFile(1, 1)` on that directory returns the error
"reached EOF before last record read": `Read` reports `io.EOF` together with the
last record of a file, and the copy loop takes every error for a failure.  On a
file of two records the same call succeeds and keeps the first record. -/
theorem C4_truncate_to_all_records_fails :
    ((WriterHandle.start 1048576 [] none [] false 0 0).run
      [Signal.record ⟨[62, 120, 10, 65, 10], [112], [109]⟩ false 0, Signal.boundary,
        Signal.boundary]).dir = [(FName.export 1, [[62, 120, 10, 65, 10]])] ∧
    readN 1 (NewReader ([[62, 120, 10, 65, 10]] : List Bytes).flatten true)
      = some [(some ⟨[120], [65]⟩, Err.EOF)] ∧
    truncateExportFile 1048576 [] [(FName.export 1, [[62, 120, 10, 65, 10]])] 1 1
      = Outcome.error Failure.eofBeforeLast ∧
    truncateExportFile 1048576 []
      [(FName.export 1, [[62, 120, 10, 65, 10], [62, 121, 10, 67, 10]])] 1 1
      = Outcome.ok [(FName.export 1, [[62, 120, 10, 65, 10]])] := by
  decide

/-- C5, the code at a failing input: the ledger has one completed entry ending
at record 1 of file 1, and file 1 holds two records.  The first `Clean` succeeds
and cuts the file to one record; the second `Clean`, run on the result, returns
the error "reached EOF before last record read". -/
theorem C5_second_clean_fails :
    Clean 1048576
      ⟨some [⟨[112], [[109]], 1, 1, 1, 1, true⟩],
        [(FName.export 1, [[62, 120, 10, 65, 10], [62, 121, 10, 67, 10]])]⟩
      = Outcome.ok
          ⟨some [⟨[112], [[109]], 1, 1, 1, 1, true⟩],
            [(FName.export 1, [[62, 120, 10, 65, 10]])]⟩ ∧
    Clean 1048576
      ⟨some [⟨[112], [[109]], 1, 1, 1, 1, true⟩], [(FName.export 1, [[62, 120, 10, 65, 10]])]⟩
      = Outcome.error Failure.eofBeforeLast := by
  decide

/-- C6, the code at a failing input: the writer, started on the empty ledger and
the empty directory, writes the record `>mgp1|mgm1|r1\nACGT\n` of project `mgp1`
and sample `mgm1` and finalizes one entry.  `IndexAllFiles` on the file it wrote
panics: `indexFile` stores through its named result `next`, which is nil. -/
theorem C6_IndexAllFiles_panics :
    ParseHeader [109, 103, 112, 49, 124, 109, 103, 109, 49, 124, 114, 49]
      = Except.ok ([109, 103, 112, 49], [109, 103, 109, 49]) ∧
    ((WriterHandle.start 1048576 [] none [] false 0 0).run
      [Signal.record
        ⟨Seq.Record ⟨[109, 103, 112, 49, 124, 109, 103, 109, 49, 124, 114, 49], [65, 67, 71, 84]⟩,
          [109, 103, 112, 49], [109, 103, 109, 49]⟩ false 0,
        Signal.boundary, Signal.boundary]).snapshot
      = some [⟨[109, 103, 112, 49], [[109, 103, 109, 49]], 1, 1, 1, 1, true⟩] ∧
    Indexes.IndexAllFiles []
      ((WriterHandle.start 1048576 [] none [] false 0 0).run
        [Signal.record
          ⟨Seq.Record ⟨[109, 103, 112, 49, 124, 109, 103, 109, 49, 124, 114, 49], [65, 67, 71, 84]⟩,
            [109, 103, 112, 49], [109, 103, 109, 49]⟩ false 0,
          Signal.boundary, Signal.boundary]).dir
      [FName.export 1] = Outcome.panic := by
  refine ⟨rfl, by decide, by decide⟩

/-! ## Tagged identifiers: property C14 -/

theorem Split_length_pos (sep : Nat) (x : Bytes) : 0 < (Split sep x).length :=
  List.length_pos.mpr (Split_ne_nil sep x)

/-- C14, as stated, fails: for project `p`, sample `s` and identifier `x` the
tagged identifier is `p|s|x` and `ParseHeader` returns the error "Invalid
project ID in header", because the project does not start with `mgp`. -/
theorem C14_header_without_mgp_rejected :
    newHead [112] [115] [120] = [112, 124, 115, 124, 120] ∧
    ParseHeader (newHead [112] [115] [120]) = Except.error Failure.projectID := by
  constructor <;> rfl

/-- C14, amended: for every project ID that starts with `mgp` and holds no `'|'`,
every sample ID that starts with `mgm` and holds no `'|'`, and every original
identifier, `ParseHeader` applied to `project|sample|originalIdentifier` returns
exactly that project and that sample, with no error. -/
theorem C14_ParseHeader_recovers_tags (p m o : Bytes)
    (hp : MGP.isPrefixOf p = true) (hm : MGM.isPrefixOf m = true)
    (hpb : BAR ∉ p) (hmb : BAR ∉ m) :
    ParseHeader (newHead p m o) = Except.ok (p, m) := by
  have hsplit : Split BAR (newHead p m o) = p :: m :: Split BAR o := by
    have h1 : newHead p m o = p ++ BAR :: (m ++ BAR :: o) := by simp [newHead]
    rw [h1, Split_append_sep BAR p _ hpb, Split_append_sep BAR m _ hmb]
  have hlen := Split_length_pos BAR o
  unfold ParseHeader
  simp only [hsplit, List.length_cons, List.headD_cons, List.drop_succ_cons, List.drop_zero, hp,
    hm, not_true_eq_false, if_false]
  rw [if_neg (by omega)]

/-- The amended C14 at project `mgp1`, sample `mgm2` and identifier `a|b`. -/
theorem C14_ParseHeader_recovers_tags_witness :
    ParseHeader (newHead [109, 103, 112, 49] [109, 103, 109, 50] [97, 124, 98])
      = Except.ok ([109, 103, 112, 49], [109, 103, 109, 50]) :=
  C14_ParseHeader_recovers_tags [109, 103, 112, 49] [109, 103, 109, 50] [97, 124, 98]
    (by decide) (by decide) (by decide) (by decide)

/-! ## The end of the stream: property C15 -/

/-- An iteration on bytes without delimiter consumes them all; when it ends the
loop the error is `io.EOF`. -/
theorem readStep_eof (prev rest : Bytes) (hgt : GT ∉ rest) :
    (∀ p r, readStep prev rest = Sum.inl (p, r) → r = []) ∧
    (∀ res r, readStep prev rest = Sum.inr (res, r) → res.2 = Err.EOF ∧ r = []) := by
  have hrb := ReadBytes_eof GT rest hgt
  unfold readStep
  simp only [hrb, if_true]
  by_cases h1 : (if prev.length > 0 then prev ++ rest else rest).length = 1
  · rw [if_pos h1]
    constructor
    · intro p r h; exact absurd h (by simp)
    · intro res r h
      simp only [Sum.inr.injEq, Prod.mk.injEq] at h
      rw [← h.1, ← h.2]
      simp [readFinish]
  · rw [if_neg h1]
    by_cases h2 : ¬ NL ∈ (if prev.length > 0 then prev ++ rest else rest)
    · rw [if_pos h2]
      constructor
      · intro p r h
        simp only [Sum.inl.injEq, Prod.mk.injEq] at h
        exact h.2.symm
      · intro res r h; exact absurd h (by simp)
    · rw [if_neg h2]
      constructor
      · intro p r h; exact absurd h (by simp)
      · intro res r h
        simp only [Sum.inr.injEq, Prod.mk.injEq] at h
        rw [← h.1, ← h.2]
        simp [readFinish]

/-- Once the stream holds no further delimiter, `Read` returns `io.EOF` if it
returns at all: the decode error is never reported at the end of the stream. -/
theorem readLoop_eof_error : ∀ (n : Nat) (prev rest : Bytes) (res : Option Seq × Err)
    (rest' : Bytes), GT ∉ rest → readLoop n prev rest = some (res, rest') →
    res.2 = Err.EOF ∧ rest' = []
  | 0, _, _, _, _, _, h => by simp [readLoop] at h
  | n + 1, prev, rest, res, rest', hgt, h => by
    rw [readLoop_succ] at h
    have hstep := readStep_eof prev rest hgt
    cases hs : readStep prev rest with
    | inl pr =>
      obtain ⟨p, r⟩ := pr
      rw [hs] at h
      have hr : r = [] := hstep.1 p r hs
      subst hr
      exact readLoop_eof_error n p [] res rest' (by simp) h
    | inr x =>
      obtain ⟨res1, r1⟩ := x
      rw [hs] at h
      simp only [Option.some.injEq, Prod.mk.injEq] at h
      rw [← h.1, ← h.2]
      exact hstep.2 res1 r1 hs

theorem Read_eof_error (rd rd' : Reader) (res : Option Seq × Err) (hgt : GT ∉ rd.f)
    (h : rd.Read = some (res, rd')) : res.2 = Err.EOF := by
  unfold Reader.Read at h
  split at h
  · simp only [Option.some.injEq, Prod.mk.injEq] at h
    rw [← h.1]
  · cases hl : readLoop (rd.f.length + 2) [] rd.f with
    | none => rw [hl] at h; exact absurd h (by simp)
    | some x =>
      obtain ⟨res1, rest1⟩ := x
      rw [hl] at h
      simp only [Option.some.injEq, Prod.mk.injEq] at h
      rw [← h.1]
      exact (readLoop_eof_error _ _ _ _ _ hgt hl).1

theorem dropWhile_all (p : Nat → Bool) (s : Bytes) (h : ∀ b ∈ s, p b = true) :
    s.dropWhile p = [] := by
  induction s with
  | nil => rfl
  | cons a t ih =>
    have ha : p a = true := h a (by simp)
    simp only [List.dropWhile, ha]
    exact ih (fun b hb => h b (by simp [hb]))

theorem TrimRight_no_GT (s : Bytes) (h : GT ∉ s) : TrimRight s = s := by
  induction s using List.reverseRecOn with
  | nil => rfl
  | append_singleton t a _ =>
    have ha : a ≠ GT := fun e => h (by simp [e])
    unfold TrimRight
    exact trimRightWhile_keep _ t a (by simpa using ha)

/-- C15, as stated, fails: on the stream that is a single newline `Read` returns
no record and `io.EOF`, not the decode error. -/
theorem C15_newline_stream_plain_eof :
    Reader.Read (NewReader [NL] false)
      = some ((none, Err.EOF), { f := [], opened := true, c := false }) ∧
    Err.EOF ≠ Err.invalid := by
  decide

/-- C15, amended: when no delimiter is left in the stream and the bytes left hold
a newline and nothing but white space, so that the final split has an empty
identifier, `Read` returns no record and reports `io.EOF`, and leaves nothing
unread. -/
theorem C15_empty_identifier_at_eof (rd : Reader) (hnl : NL ∈ rd.f)
    (hsp : ∀ b ∈ rd.f, isSpace b = true) :
    rd.Read = some ((none, Err.EOF), { rd with f := [], opened := true }) := by
  have hne : rd.f ≠ [] := by
    intro e; rw [e] at hnl; exact absurd hnl (by simp)
  have hgt : GT ∉ rd.f := by
    intro h
    have := hsp GT h
    simp [isSpace, GT] at this
  have hrb := ReadBytes_eof GT rd.f hgt
  have htrim : TrimSpace (TrimRight rd.f) = [] := by
    rw [TrimRight_no_GT rd.f hgt]
    have := TrimSpace_core rd.f [] [] hsp (by simp) ⟨startsWithSpace_nil, endsWithSpace_nil⟩
    simpa using this
  have hstep : readStep [] rd.f = Sum.inr ((none, Err.EOF), []) := by
    unfold readStep
    simp only [hrb, List.length_nil, gt_iff_lt, lt_self_iff_false, if_false, if_true, htrim]
    by_cases h1 : rd.f.length = 1
    · rw [if_pos h1]
      simp [readFinish]
    · rw [if_neg h1, if_neg (by simpa using hnl)]
      simp [readFinish, Split]
  have hloop : readLoop (rd.f.length + 2) [] rd.f = some ((none, Err.EOF), []) := by
    rw [readLoop_succ, hstep]
  unfold Reader.Read
  rw [if_neg (by simp [hne]), hloop]

/-- The amended C15 at the stream of a single newline. -/
theorem C15_empty_identifier_at_eof_witness :
    Reader.Read (NewReader [NL] false)
      = some ((none, Err.EOF), { NewReader [NL] false with f := [], opened := true }) :=
  C15_empty_identifier_at_eof (NewReader [NL] false) (by decide) (by decide)

/-! ## Skipped splits, divergence and delimiters in the identifier: properties C16 to C19 -/

/-- Leading delimiters cost one iteration each and are skipped. -/
theorem readLoop_skip_many (k n : Nat) (s : Bytes) :
    readLoop (n + k) [] (List.replicate k GT ++ s) = readLoop n [] s := by
  induction k with
  | zero => rfl
  | succ k ih =>
    rw [List.replicate_succ, List.cons_append, ← Nat.add_assoc, readLoop_skip]
    exact ih

/-- C16, as stated, fails: on the stream `\n>x\nA\n`, a newline before the
delimiter of the well-formed record `x`/`A`, the first `Read` returns no record
and the decode error. -/
theorem C16_whitespace_split_is_error :
    GoodRecord ⟨[120], [[65]]⟩ ∧
    Reader.Read (NewReader ([NL] ++ [GT] ++ (⟨[120], [[65]]⟩ : LineRecord).chunk) false)
      = some ((none, Err.invalid), { f := [120, 10, 65, 10], opened := true, c := false }) := by
  decide

/-- C16, amended: a split that is the delimiter alone is skipped, not reported as
an error: for every well-formed record `r`, `Read` on a stream made of any
number of delimiters, then the encoding of `r` without its leading delimiter,
then either nothing or a further delimiter and more bytes, returns `r`; the
error is `io.EOF` when nothing follows and nil otherwise, never the decode
error.  A record is well formed (`GoodRecord`) when its identifier is non-empty,
does not start with `'>'`, holds no newline and neither starts nor ends with a
white space character, and its body lines hold no `'>'` and no white space
character; white space is that of `bytes.TrimSpace`, the characters Unicode
defines as such in their UTF-8 encoding, and the bytes are arbitrary otherwise. -/
theorem C16_empty_splits_skipped (k : Nat) (r : LineRecord) (more : Option Bytes) (c : Bool)
    (hr : GoodRecord r) :
    Reader.Read (NewReader (List.replicate k GT ++ r.chunk ++ tailOf more) c)
      = some ((some r.toSeq, errOf more), { f := more.getD [], opened := true, c := c }) ∧
    errOf more ≠ Err.invalid := by
  constructor
  · have hne : List.replicate k GT ++ r.chunk ++ tailOf more ≠ [] := by
      simp [LineRecord.chunk]
    have hid : GoodId ([] ++ r.id) := by simpa using hr.1
    have hlen : (List.replicate k GT ++ r.chunk ++ tailOf more).length + 2
        = (r.chunk.length + (tailOf more).length + 2) + k := by
      simp only [List.length_append, List.length_replicate]
      omega
    have hfuel : r.id.length < r.chunk.length + (tailOf more).length + 2 := by
      simp only [LineRecord.chunk, List.length_append, List.length_cons]
      omega
    have hmain := readLoop_label r.lines more hr.2 r.id.length r.id []
      (r.chunk.length + (tailOf more).length + 2) (le_refl _) hfuel hid
    have hcond : ¬ (¬ (NewReader (List.replicate k GT ++ r.chunk ++ tailOf more) c).opened ∧
        (NewReader (List.replicate k GT ++ r.chunk ++ tailOf more) c).c ∧
        (NewReader (List.replicate k GT ++ r.chunk ++ tailOf more) c).f = []) :=
      fun h => hne h.2.2
    unfold Reader.Read
    rw [if_neg hcond]
    simp only [NewReader]
    rw [hlen, List.append_assoc, readLoop_skip_many]
    simp only [LineRecord.chunk, List.nil_append] at hmain ⊢
    rw [hmain]
    simp [LineRecord.toSeq]
  · cases more <;> simp [errOf]

/-- The amended C16 at the stream `>>>x\nA\n`. -/
theorem C16_empty_splits_skipped_witness :
    Reader.Read (NewReader (List.replicate 3 GT ++ (⟨[120], [[65]]⟩ : LineRecord).chunk
        ++ tailOf none) false)
      = some ((some (⟨[120], [[65]]⟩ : LineRecord).toSeq, errOf none),
          { f := (none : Option Bytes).getD [], opened := true, c := false }) ∧
    errOf none ≠ Err.invalid :=
  C16_empty_splits_skipped 3 ⟨[120], [[65]]⟩ none false (by decide)

/-- A stream that holds neither a delimiter nor a newline and is not a single
byte keeps `Read` in its loop forever. -/
theorem readLoop_no_newline_diverges (s : Bytes) (hgt : GT ∉ s) (hnl : NL ∉ s)
    (hlen : s.length ≠ 1) : ∀ fuel, readLoop fuel [] s = none := by
  have hrb := ReadBytes_eof GT s hgt
  have h1 : readStep [] s = Sum.inl (s, []) := by
    unfold readStep
    simp only [hrb, List.length_nil, gt_iff_lt, lt_self_iff_false, if_false]
    rw [if_neg hlen, if_pos hnl]
  have hs : (if s.length > 0 then s else ([] : Bytes)) = s := by cases s <;> simp
  have h2 : readStep s [] = Sum.inl (s, []) := by
    unfold readStep
    simp only [ReadBytes, List.append_nil, hs]
    rw [if_neg hlen, if_pos hnl]
  intro fuel
  cases fuel with
  | zero => rfl
  | succ n =>
    rw [readLoop_succ, h1]
    exact readLoop_stuck_nil s h2 n

/-- C17, the code at the failing input: on the stream that is the single byte
`'>'` the loop of `Read` never ends, whatever the number of iterations; `Read`
does not return. -/
theorem C17_single_delimiter_never_returns :
    (∀ fuel, readLoop fuel [] [GT] = none) ∧
    Reader.Read (NewReader [GT] false) = none ∧
    Reader.Read (NewReader [GT] true) = none := by
  refine ⟨?_, by decide, by decide⟩
  intro fuel
  cases fuel with
  | zero => rfl
  | succ n =>
    rw [readLoop_skip]
    exact readLoop_no_newline_diverges [] (by simp) (by simp) (by simp) n

/-- C18, the code at failing inputs: on the empty stream and on the stream `abc`,
whose bytes hold no newline, the loop of `Read` never ends, whatever the number
of iterations; `Read` does not return. -/
theorem C18_read_does_not_terminate :
    (∀ fuel, readLoop fuel [] [] = none) ∧
    Reader.Read (NewReader [] false) = none ∧
    (∀ fuel, readLoop fuel [] [97, 98, 99] = none) ∧
    Reader.Read (NewReader [97, 98, 99] false) = none := by
  refine ⟨readLoop_no_newline_diverges [] (by simp) (by simp) (by simp), by decide,
    readLoop_no_newline_diverges [97, 98, 99] (by decide) (by decide) (by decide), by decide⟩

/-- C19: for every identifier that holds a `'>'` but does not start with one,
holds no newline and has no leading or trailing white space, and every non-empty
body free of `'>'` and white space, `Read` on
`'>' + identifier + '\n' + body + '\n'` returns one record, with the whole
identifier and the body, together with `io.EOF`.  White space is the white space
of `bytes.TrimSpace`: the characters Unicode defines as such, in their UTF-8
encoding; the bytes are arbitrary otherwise. -/
theorem C19_delimiter_in_identifier_kept (id body : Bytes) (c : Bool) (hid : GoodId id)
    (_hgt : GT ∈ id) (_hne : body ≠ []) (hbody : GoodLine body) :
    Reader.Read (NewReader ([GT] ++ id ++ [NL] ++ body ++ [NL]) c)
      = some ((some ⟨id, body⟩, Err.EOF), { f := [], opened := true, c := c }) := by
  have hr : GoodRecord ⟨id, [body]⟩ := by
    refine ⟨hid, ?_⟩
    intro l hl
    simp only [List.mem_singleton] at hl
    subst hl
    exact hbody
  have h := Read_record (NewReader ([GT] ++ id ++ [NL] ++ body ++ [NL]) c) true ⟨id, [body]⟩ none
    hr (by simp [NewReader, leadGT, LineRecord.chunk, bodyLines, tailOf])
  simp only [errOf, Option.getD_none] at h
  rw [h]
  simp [LineRecord.toSeq, NewReader]

/-- C19 at the identifier `a>b>c` and the body `ACGT`. -/
theorem C19_delimiter_in_identifier_kept_witness :
    Reader.Read (NewReader ([GT] ++ [97, 62, 98, 62, 99] ++ [NL] ++ [65, 67, 71, 84] ++ [NL]) false)
      = some ((some ⟨[97, 62, 98, 62, 99], [65, 67, 71, 84]⟩, Err.EOF),
          { f := [], opened := true, c := false }) :=
  C19_delimiter_in_identifier_kept [97, 62, 98, 62, 99] [65, 67, 71, 84] false (by decide)
    (by decide) (by decide) (by decide)

/-! ## Writer engine: properties C11 and C20 -/

/-- What a record of another project does to a live normal-mode writer whose
open entry carries a project: the record is given to `currWrite`, and nothing
else changes but the `projectDone` flag. -/
theorem Writer.step_violation (w : Writer) (rec : Record) (size : Int)
    (hr : w.returned = false) (hs : w.simpleWrite = false) (hv : w.violation rec = true) :
    w.step (Signal.record rec false size) =
      { w with projectDone := false, pending := w.pending ++ [rec.R] } := by
  simp [Writer.step, hr, hs, hv]

/-- C11, the code at a failing input: the writer is started on the empty ledger
and the empty directory and receives the two boundary signals `Export` sends
when it has exported nothing.  The first one finalizes the fresh entry with the
coordinates of a record that was never written: the snapshot holds a completed
entry with `EndFile = 0` and `EndRecord = 0`, and the check `DirHasFiles` of the
next `Export` misses file 0. -/
theorem C11_boundary_without_record_finalizes_zero :
    ((WriterHandle.start 1048576 [] none [] false 0 0).run
      [Signal.boundary, Signal.boundary]).snapshot
      = some [⟨[], [], 0, 0, 0, 0, true⟩] ∧
    ((WriterHandle.start 1048576 [] none [] false 0 0).run
      [Signal.boundary, Signal.boundary]).returned = true ∧
    ((WriterHandle.start 1048576 [] none [] false 0 0).run
      [Signal.boundary, Signal.boundary]).dir = [(FName.export 1, [])] ∧
    DirHasFiles (Indexes.FileList [⟨[], [], 0, 0, 0, 0, true⟩] 0) [(FName.export 1, [])]
      = (false, [FName.export 0]) := by
  decide

/-! ## Writer engine: the sample lists, property C13 -/

theorem Update_add_flag (mg : Bytes) (ms : List Bytes) :
    ∀ b : Bool, ms.foldl (fun add m => if m = mg then false else add) b = true →
      b = true ∧ mg ∉ ms := by
  induction ms with
  | nil => intro b h; exact ⟨h, by simp⟩
  | cons m ms ih =>
    intro b h
    simp only [List.foldl_cons] at h
    by_cases hm : m = mg
    · rw [if_pos hm] at h
      exact absurd (ih false h).1 (by simp)
    · rw [if_neg hm] at h
      obtain ⟨hb, hni⟩ := ih b h
      refine ⟨hb, ?_⟩
      intro hmem
      rcases List.mem_cons.mp hmem with h1 | h1
      · exact hm h1.symm
      · exact hni h1

theorem Index.Update_nodup (i : Index) (mg : Bytes) (h : i.Metagenomes.Nodup) :
    (i.Update mg).Metagenomes.Nodup := by
  unfold Index.Update
  split
  · exact h
  · dsimp only
    split
    · rename_i hadd
      have hni := (Update_add_flag mg i.Metagenomes true hadd).2
      simp only
      exact List.Nodup.append h (by simp) (by simpa using hni)
    · exact h

theorem Index.Finalize_nodup (i : Index) (mg : Bytes) (f r : Int) (h : i.Metagenomes.Nodup) :
    (i.Finalize mg f r).Metagenomes.Nodup := by
  simp only [Index.Finalize]
  exact Index.Update_nodup i mg h

theorem Writer.currIndex_concat (w : Writer) (init : Indexes) (a : Index)
    (h : w.ExportIndex = init ++ [a]) : w.currIndex = a := by
  simp [Writer.currIndex, h]

/-- One signal keeps the sample lists free of repetitions, as long as a record
carries a project. -/
theorem Writer.step_samplesUnique (w : Writer) (sig : Signal) (hs : w.simpleWrite = false)
    (hne : w.ExportIndex ≠ []) (h : w.samplesUnique) (hp : sig.hasProject = true) :
    (w.step sig).samplesUnique ∧ (w.step sig).ExportIndex ≠ [] := by
  obtain ⟨init, a, hia⟩ := Indexes.eq_concat _ hne
  have hcur := Writer.currIndex_concat w init a hia
  obtain ⟨hnd, hfresh⟩ := h
  rw [hcur] at hfresh
  have hnda : a.Metagenomes.Nodup := hnd a (by rw [hia]; simp)
  have hndi : ∀ e ∈ init, e.Metagenomes.Nodup := fun e he => hnd e (by rw [hia]; simp [he])
  by_cases hr : w.returned = true
  · simp only [Writer.step, hr, if_true]
    exact ⟨⟨hnd, by rw [hcur]; exact hfresh⟩, hne⟩
  · have hr' : w.returned = false := by simpa using hr
    cases sig with
    | boundary =>
      simp only [Writer.step, hr, Bool.false_eq_true, if_false, hs]
      by_cases hpd : w.projectDone = true
      · simp only [hpd, if_true]
        exact ⟨⟨hnd, by simp only [Writer.currIndex, hia] at hfresh ⊢; simpa using hfresh⟩, hne⟩
      · simp only [hpd, Bool.false_eq_true, if_false, hia, modifyLast_concat, Indexes.Add]
        refine ⟨⟨?_, by simp [Writer.currIndex, Index.new]⟩, by simp⟩
        intro e he
        simp only [List.mem_append, List.mem_singleton] at he
        rcases he with (h1 | h1) | h1
        · exact hndi e h1
        · rw [h1]; exact Index.Finalize_nodup a _ _ _ hnda
        · rw [h1]; simp [Index.new]
    | record rec writeErr size =>
      have hP : rec.P ≠ [] := by simpa [Signal.hasProject] using hp
      by_cases hw : writeErr = true
      · simp only [Writer.step, hr, Bool.false_eq_true, if_false, hw, if_true]
        exact ⟨⟨hnd, by simp only [Writer.currIndex, hia] at hfresh ⊢; simpa using hfresh⟩, hne⟩
      · have hw' : writeErr = false := by simpa using hw
        subst hw'
        by_cases hv : w.violation rec = true
        · rw [Writer.step_violation w rec size hr' hs hv]
          exact ⟨⟨hnd, by simp only [Writer.currIndex, hia] at hfresh ⊢; simpa using hfresh⟩, hne⟩
        · have hv' : w.violation rec = false := by simpa using hv
          have hidx : (w.updateIndex rec ≠ []) ∧ (∀ e ∈ w.updateIndex rec, e.Metagenomes.Nodup) ∧
              ((w.updateIndex rec).getLast?.getD Index.new).Project ≠ [] := by
            unfold Writer.updateIndex
            rw [hcur, hia]
            by_cases hpe : a.Project = rec.P
            · rw [if_pos hpe]
              by_cases hm : rec.M ≠ w.prev.M
              · rw [if_pos hm, modifyLast_concat]
                refine ⟨by simp, ?_, by simp [Index.Update_Project, hpe, hP]⟩
                intro e he
                simp only [List.mem_append, List.mem_singleton] at he
                rcases he with h1 | h1
                · exact hndi e h1
                · rw [h1]; exact Index.Update_nodup a _ hnda
              · rw [if_neg hm]
                refine ⟨by simp, ?_, by simp [hpe, hP]⟩
                rw [← hia]; exact hnd
            · rw [if_neg hpe, modifyLast_concat]
              have hempty : a.Project = [] := by
                simp only [Writer.violation, hcur, Bool.and_eq_false_iff, bne_eq_false_iff_eq] at hv'
                rcases hv' with h1 | h1
                · exact absurd h1 hpe
                · exact h1
              refine ⟨by simp, ?_, by simp [Index.Init, hP]⟩
              intro e he
              simp only [List.mem_append, List.mem_singleton] at he
              rcases he with h1 | h1
              · exact hndi e h1
              · rw [h1]
                simp [Index.Init, hfresh hempty]
          rw [Writer.step_record w rec size hr' hs hv']
          by_cases hsz : size > w.Size
          · simp only [hsz, if_true]
            exact ⟨⟨hidx.2.1, fun h => absurd h hidx.2.2⟩, hidx.1⟩
          · simp only [hsz, if_false]
            exact ⟨⟨hidx.2.1, fun h => absurd h hidx.2.2⟩, hidx.1⟩

theorem Writer.step_simpleWrite (w : Writer) (sig : Signal) :
    (w.step sig).simpleWrite = w.simpleWrite := by
  unfold Writer.step
  split
  · rfl
  · split
    · split
      · rfl
      · split <;> rfl
    · split
      · rfl
      · dsimp only
        split
        · rfl
        · split
          · rfl
          · split <;> rfl

theorem Writer.run_samplesUnique (sigs : List Signal) :
    ∀ w : Writer, w.simpleWrite = false → w.ExportIndex ≠ [] → w.samplesUnique →
      (∀ s ∈ sigs, s.hasProject = true) → (w.run sigs).samplesUnique := by
  induction sigs with
  | nil => intro w _ _ h _; exact h
  | cons s l ih =>
    intro w hs hne h hp
    have hstep := Writer.step_samplesUnique w s hs hne h (hp s (by simp))
    exact ih (w.step s) (by rw [Writer.step_simpleWrite]; exact hs) hstep.2 hstep.1
      (fun x hx => hp x (by simp [hx]))

/-- C13: start the writer in normal mode on a ledger in which no entry lists a
sample twice and let it receive any finite sequence of boundary signals and
tagged records (project and sample ID present): no entry of the ledger lists a
sample twice. -/
theorem C13_samples_listed_once (Size : Int) (idx : Indexes) (snapshot : Option Indexes)
    (dir : Dir) (startFile startRec : Int) (sigs : List Signal)
    (hidx : ∀ e ∈ idx, e.Metagenomes.Nodup) (htag : ∀ s ∈ sigs, s.tagged = true) :
    ∀ e ∈ ((WriterHandle.start Size idx snapshot dir false startFile startRec).run
      sigs).ExportIndex, e.Metagenomes.Nodup := by
  have h0 : (WriterHandle.start Size idx snapshot dir false startFile startRec).samplesUnique := by
    constructor
    · intro e he
      simp only [WriterHandle.start, Bool.false_eq_true, if_false, Indexes.Add, List.mem_append,
        List.mem_singleton] at he
      rcases he with h1 | h1
      · exact hidx e h1
      · rw [h1]; simp [Index.new]
    · intro _
      simp [Writer.currIndex, WriterHandle.start, Indexes.Add, Index.new]
  have hp : ∀ s ∈ sigs, s.hasProject = true := by
    intro s hs
    have := htag s hs
    cases s with
    | boundary => rfl
    | record rec writeErr size =>
      simp only [Signal.tagged, Bool.and_eq_true] at this
      exact this.1
  exact (Writer.run_samplesUnique sigs _ rfl
    (by simp [WriterHandle.start, Indexes.Add]) h0 hp).1

/-- C13 at a run of three records of project `p` with samples `m`, `n`, `m`,
followed by a boundary: the finalized entry lists `m` and `n` once each. -/
theorem C13_samples_listed_once_witness :
    (⟨[112], [[109], [110]], 1, 1, 1, 3, true⟩ : Index) ∈
      ((WriterHandle.start 1048576 [] none [] false 0 0).run
        [Signal.record ⟨[62, 120, 10, 65, 10], [112], [109]⟩ false 0,
          Signal.record ⟨[62, 121, 10, 67, 10], [112], [110]⟩ false 0,
          Signal.record ⟨[62, 122, 10, 71, 10], [112], [109]⟩ false 0,
          Signal.boundary]).ExportIndex ∧
    (⟨[112], [[109], [110]], 1, 1, 1, 3, true⟩ : Index).Metagenomes.Nodup :=
  ⟨by decide,
    C13_samples_listed_once 1048576 [] none [] 0 0
      [Signal.record ⟨[62, 120, 10, 65, 10], [112], [109]⟩ false 0,
        Signal.record ⟨[62, 121, 10, 67, 10], [112], [110]⟩ false 0,
        Signal.record ⟨[62, 122, 10, 71, 10], [112], [109]⟩ false 0,
        Signal.boundary] (by decide) (by decide) ⟨[112], [[109], [110]], 1, 1, 1, 3, true⟩
      (by decide)⟩

/-- Why C13 is about tagged records: a record without project followed by a
record with a project, both of sample `m`, leaves the open entry with the sample
listed twice. -/
theorem untagged_record_repeats_sample :
    ((WriterHandle.start 1048576 [] none [] false 0 0).run
      [Signal.record ⟨[62, 120, 10, 65, 10], [], [109]⟩ false 0,
        Signal.record ⟨[62, 121, 10, 67, 10], [112], [109]⟩ false 0]).ExportIndex
      = [⟨[112], [[109], [109]], 1, 2, 0, 0, false⟩] := by
  decide

/-! ## Writer engine: the order of the file numbers, property C12 -/

theorem Index.Update_fields (i : Index) (mg : Bytes) :
    (i.Update mg).StartFile = i.StartFile ∧ (i.Update mg).EndFile = i.EndFile ∧
    (i.Update mg).Completed = i.Completed := by
  unfold Index.Update
  split
  · exact ⟨rfl, rfl, rfl⟩
  · dsimp only
    split <;> exact ⟨rfl, rfl, rfl⟩

theorem chain_concat (fin : Indexes) (x : Index)
    (hc : fin.Chain' (fun a b => a.EndFile ≤ b.StartFile))
    (hx : ∀ e ∈ fin, e.EndFile ≤ x.StartFile) :
    (fin ++ [x]).Chain' (fun a b => a.EndFile ≤ b.StartFile) := by
  rw [List.chain'_append]
  refine ⟨hc, by simp, ?_⟩
  intro a ha b hb
  simp only [List.head?_cons, Option.mem_def, Option.some.injEq] at hb
  subst hb
  exact hx a (List.mem_of_mem_getLast? ha)

/-- One signal keeps the ledger ordered, when the write does not fail, the record
carries a project, and a boundary only comes while the open entry carries one. -/
theorem Writer.step_ordered (w : Writer) (sig : Signal) (h : w.ordered)
    (hw : sig.writeOk = true) (hp : sig.hasProject = true)
    (hb : sig = Signal.boundary → w.projectDone = false ∧ w.currIndex.Project ≠ []) :
    (w.step sig).ordered ∧
      (sig ≠ Signal.boundary →
        (w.step sig).projectDone = false ∧ (w.step sig).currIndex.Project ≠ []) := by
  obtain ⟨hs, hr, fin, cur, hia, hcc, hfin, hchain, hcur⟩ := h
  have hci : w.currIndex = cur := Writer.currIndex_concat w fin cur hia
  cases sig with
  | boundary =>
    obtain ⟨hpd, hproj⟩ := hb rfl
    rw [hci] at hproj
    obtain ⟨h1, h2, h3⟩ := hcur hproj
    refine ⟨?_, fun h => absurd rfl h⟩
    simp only [Writer.step, hr, hpd, hs, Bool.false_eq_true, if_false, hia, modifyLast_concat,
      Indexes.Add]
    refine ⟨rfl, rfl, fin ++ [cur.Finalize w.prev.M w.prev.F w.prev.R], Index.new, rfl, rfl, ?_,
      ?_, fun h => absurd rfl h⟩
    · intro e he
      simp only [List.mem_append, List.mem_singleton] at he
      rcases he with h4 | h4
      · exact hfin e h4
      · rw [h4]
        simp only [Index.Finalize, (Index.Update_fields cur w.prev.M).1, true_and]
        exact ⟨h1, h2⟩
    · apply chain_concat fin _ hchain
      intro e he
      simp only [Index.Finalize, (Index.Update_fields cur w.prev.M).1]
      exact h3 e he
  | record rec writeErr size =>
    have hwe : writeErr = false := by simpa [Signal.writeOk] using hw
    subst hwe
    have hP : rec.P ≠ [] := by simpa [Signal.hasProject] using hp
    by_cases hv : w.violation rec = true
    · rw [Writer.step_violation w rec size hr hs hv]
      have hne : cur.Project ≠ [] := by
        simp only [Writer.violation, hci, Bool.and_eq_true, bne_iff_ne, ne_eq] at hv
        exact hv.2
      refine ⟨⟨hs, hr, fin, cur, hia, hcc, hfin, hchain, hcur⟩, fun _ => ⟨rfl, ?_⟩⟩
      simp only [Writer.currIndex, hia]
      simpa using hne
    · have hv' : w.violation rec = false := by simpa using hv
      -- the open entry after the ledger update
      have hupd : ∃ cur', w.updateIndex rec = fin ++ [cur'] ∧ cur'.Completed = false ∧
          cur'.Project ≠ [] ∧ cur'.StartFile ≤ w.fileCount ∧
          ∀ e ∈ fin, e.EndFile ≤ cur'.StartFile := by
        unfold Writer.updateIndex
        rw [hci, hia]
        by_cases hpe : cur.Project = rec.P
        · have hne : cur.Project ≠ [] := by rw [hpe]; exact hP
          obtain ⟨h1, h2, h3⟩ := hcur hne
          rw [if_pos hpe]
          by_cases hm : rec.M ≠ w.prev.M
          · rw [if_pos hm, modifyLast_concat]
            refine ⟨cur.Update rec.M, rfl, ?_, ?_, ?_, ?_⟩
            · rw [(Index.Update_fields cur rec.M).2.2]; exact hcc
            · rw [Index.Update_Project]; exact hne
            · rw [(Index.Update_fields cur rec.M).1]; omega
            · rw [(Index.Update_fields cur rec.M).1]; exact h3
          · rw [if_neg hm]
            exact ⟨cur, rfl, hcc, hne, by omega, h3⟩
        · rw [if_neg hpe, modifyLast_concat]
          refine ⟨cur.Init rec.P rec.M w.fileCount w.recCount, rfl, hcc, hP, le_refl _, ?_⟩
          intro e he
          exact (hfin e he).2.2
      obtain ⟨cur', hu, hcc', hproj', hsf', hfin'⟩ := hupd
      rw [Writer.step_record w rec size hr hs hv']
      by_cases hsz : size > w.Size
      · simp only [hsz, if_true]
        refine ⟨⟨hs, hr, fin, cur', hu, hcc', ?_, hchain, fun _ => ⟨hsf', by simp, hfin'⟩⟩,
          fun _ => ⟨by trivial, ?_⟩⟩
        · intro e he
          obtain ⟨h1, h2, h3⟩ := hfin e he
          exact ⟨h1, h2, by simp only; omega⟩
        · simp only [Writer.currIndex, hu]
          simpa using hproj'
      · simp only [hsz, if_false]
        refine ⟨⟨hs, hr, fin, cur', hu, hcc', hfin, hchain, fun _ => ⟨hsf', le_refl _, hfin'⟩⟩,
          fun _ => ⟨by trivial, ?_⟩⟩
        simp only [Writer.currIndex, hu]
        simpa using hproj'

theorem Writer.run_ordered (sigs : List Signal) :
    ∀ (w : Writer) (b : Bool), w.ordered →
      (b = true → w.projectDone = false ∧ w.currIndex.Project ≠ []) →
      (∀ s ∈ sigs, s.writeOk = true) → (∀ s ∈ sigs, s.hasProject = true) →
      recordBeforeBoundary b sigs = true → (w.run sigs).ordered := by
  induction sigs with
  | nil => intro w b h _ _ _ _; exact h
  | cons s l ih =>
    intro w b h hb hw hp hrb
    cases s with
    | boundary =>
      simp only [recordBeforeBoundary, Bool.and_eq_true] at hrb
      have hstep := Writer.step_ordered w Signal.boundary h rfl rfl (fun _ => hb hrb.1)
      exact ih (w.step Signal.boundary) false hstep.1 (fun e => absurd e (by simp))
        (fun x hx => hw x (by simp [hx])) (fun x hx => hp x (by simp [hx])) hrb.2
    | record rec writeErr size =>
      simp only [recordBeforeBoundary] at hrb
      have hstep := Writer.step_ordered w (Signal.record rec writeErr size) h (hw _ (by simp))
        (hp _ (by simp)) (fun e => absurd e (by simp))
      exact ih (w.step (Signal.record rec writeErr size)) true hstep.1
        (fun _ => hstep.2 (by simp))
        (fun x hx => hw x (by simp [hx])) (fun x hx => hp x (by simp [hx])) hrb

/-- The writer `Export` starts on an ordered ledger of completed entries has an
ordered ledger. -/
theorem WriterHandle.start_ordered (Size : Int) (idx : Indexes) (snapshot : Option Indexes)
    (dir : Dir) (hcomp : ∀ e ∈ idx, e.Completed = true)
    (hrange : ∀ e ∈ idx, e.StartFile ≤ e.EndFile)
    (hchain : idx.Chain' (fun a b => a.EndFile ≤ b.StartFile)) :
    (WriterHandle.start Size idx snapshot dir false 0 0).ordered := by
  refine ⟨rfl, rfl, idx, Index.new, by simp [WriterHandle.start, Indexes.Add], rfl, ?_, hchain,
    fun h => absurd rfl h⟩
  intro e he
  refine ⟨hcomp e he, hrange e he, ?_⟩
  by_cases hnil : idx = []
  · rw [hnil] at he; exact absurd he (by simp)
  · obtain ⟨init, l, hil⟩ := Indexes.eq_concat idx hnil
    have hfc : (WriterHandle.start Size idx snapshot dir false 0 0).fileCount = l.EndFile := by
      simp [WriterHandle.start, hil]
    rw [hfc]
    have hpw := pairwise_of_chain idx hrange hchain
    rw [hil] at hpw he
    rcases List.mem_append.mp he with h1 | h1
    · have h2 := (List.pairwise_append.mp hpw).2.2 e h1 l (by simp)
      have h3 := hrange l (by rw [hil]; simp)
      omega
    · simp only [List.mem_singleton] at h1
      rw [h1]

/-- C12: start the writer in normal mode, as `Export` does, on a ledger whose
entries are all completed, with `StartFile ≤ EndFile` in each and every
`StartFile` at or above the previous `EndFile`, and let it receive signals in
which no write fails, every record carries a project and every boundary comes
right after a record.  Then the ledger is the finalized entries followed by one
open entry; every finalized entry is completed and has `StartFile ≤ EndFile`,
each finalized entry starts at or above the `EndFile` of the one before it, and
the open entry, once it carries a project, starts at or above every finalized
`EndFile`. -/
theorem C12_file_numbers_monotone (Size : Int) (idx : Indexes) (snapshot : Option Indexes)
    (dir : Dir) (sigs : List Signal)
    (hcomp : ∀ e ∈ idx, e.Completed = true)
    (hrange : ∀ e ∈ idx, e.StartFile ≤ e.EndFile)
    (hchain : idx.Chain' (fun a b => a.EndFile ≤ b.StartFile))
    (hw : ∀ s ∈ sigs, s.writeOk = true) (hp : ∀ s ∈ sigs, s.hasProject = true)
    (hb : recordBeforeBoundary false sigs = true) :
    ∃ fin cur,
      ((WriterHandle.start Size idx snapshot dir false 0 0).run sigs).ExportIndex
        = fin ++ [cur] ∧
      cur.Completed = false ∧
      (∀ e ∈ fin, e.Completed = true ∧ e.StartFile ≤ e.EndFile) ∧
      fin.Chain' (fun a b => a.EndFile ≤ b.StartFile) ∧
      (cur.Project ≠ [] → ∀ e ∈ fin, e.EndFile ≤ cur.StartFile) := by
  have h0 := WriterHandle.start_ordered Size idx snapshot dir hcomp hrange hchain
  obtain ⟨_, _, fin, cur, hia, hcc, hfin, hch, hcur⟩ :=
    Writer.run_ordered sigs _ false h0 (fun e => absurd e (by simp)) hw hp hb
  exact ⟨fin, cur, hia, hcc, fun e he => ⟨(hfin e he).1, (hfin e he).2.1⟩, hch,
    fun h => (hcur h).2.2⟩

/-- C12 at a ledger of one entry ending in file 1 and a run of two projects, with
a rotation after the first record. -/
theorem C12_file_numbers_monotone_witness :
    ∃ fin cur,
      ((WriterHandle.start 1048576 [⟨[111], [[109]], 1, 1, 1, 4, true⟩] none [] false 0 0).run
        [Signal.record ⟨[62, 120, 10, 65, 10], [112], [109]⟩ false 1048577,
          Signal.record ⟨[62, 121, 10, 67, 10], [112], [109]⟩ false 0,
          Signal.boundary,
          Signal.record ⟨[62, 122, 10, 71, 10], [113], [110]⟩ false 0,
          Signal.boundary]).ExportIndex = fin ++ [cur] ∧
      cur.Completed = false ∧
      (∀ e ∈ fin, e.Completed = true ∧ e.StartFile ≤ e.EndFile) ∧
      fin.Chain' (fun a b => a.EndFile ≤ b.StartFile) ∧
      (cur.Project ≠ [] → ∀ e ∈ fin, e.EndFile ≤ cur.StartFile) :=
  C12_file_numbers_monotone 1048576 [⟨[111], [[109]], 1, 1, 1, 4, true⟩] none []
    [Signal.record ⟨[62, 120, 10, 65, 10], [112], [109]⟩ false 1048577,
      Signal.record ⟨[62, 121, 10, 67, 10], [112], [109]⟩ false 0,
      Signal.boundary,
      Signal.record ⟨[62, 122, 10, 71, 10], [113], [110]⟩ false 0,
      Signal.boundary]
    (by decide) (by decide) (by simp) (by decide) (by decide) (by decide)

/-! ## Ledger queries: properties C21 and C24 -/

theorem IsComplete.loop_all (idx : List Index) :
    ∀ n : Nat, (IsComplete.loop n idx).1 = true ↔ ∀ e ∈ idx, e.Completed = true := by
  induction idx with
  | nil => intro n; simp [IsComplete.loop]
  | cons i rest ih =>
    intro n
    unfold IsComplete.loop
    cases hc : i.Completed with
    | false => simp [hc]
    | true => simpa [hc] using ih (n + 1)

theorem IsComplete.loop_first (pre : List Index) (e : Index) (post : List Index)
    (hpre : ∀ x ∈ pre, x.Completed = true) (he : e.Completed = false) :
    ∀ n : Nat, IsComplete.loop n (pre ++ e :: post)
      = (false, e.Project, ((n + pre.length : Nat) : Int) + 1) := by
  induction pre with
  | nil => intro n; simp [IsComplete.loop, he]
  | cons i pre ih =>
    intro n
    have hi : i.Completed = true := hpre i (by simp)
    have h := ih (fun x hx => hpre x (by simp [hx])) (n + 1)
    have e1 : IsComplete.loop n (i :: pre ++ e :: post)
        = IsComplete.loop (n + 1) (pre ++ e :: post) := by
      simp [IsComplete.loop, hi]
    have e2 : n + 1 + pre.length = n + (i :: pre).length := by
      simp only [List.length_cons]; omega
    rw [e1, h, e2]

/-- C21: `IsComplete` returns `ok == true` exactly when every entry of the ledger
is completed; when some entry is not, it returns `ok == false`, the project of
the first entry that is not completed (every entry before it is completed) and
the position of that entry counted from 1. -/
theorem C21_IsComplete_first_incomplete (idx : Indexes) :
    ((idx.IsComplete).1 = true ↔ ∀ e ∈ idx, e.Completed = true) ∧
    ∀ (pre : List Index) (e : Index) (post : List Index),
      idx = pre ++ e :: post → (∀ x ∈ pre, x.Completed = true) → e.Completed = false →
        idx.IsComplete = (false, e.Project, (pre.length : Int) + 1) := by
  refine ⟨IsComplete.loop_all idx 0, ?_⟩
  intro pre e post hidx hpre he
  subst hidx
  have h := IsComplete.loop_first pre e post hpre he 0
  simpa [Indexes.IsComplete] using h

/-- C21 at a ledger of three entries, the second and the third not completed:
`IsComplete` names the project of the second entry and position 2. -/
theorem C21_IsComplete_first_incomplete_witness :
    Indexes.IsComplete
        [⟨[112], [[109]], 1, 1, 1, 4, true⟩, ⟨[113], [[110]], 1, 5, 0, 0, false⟩,
          ⟨[114], [], 0, 0, 0, 0, false⟩]
      = (false, [113], 2) :=
  (C21_IsComplete_first_incomplete
      [⟨[112], [[109]], 1, 1, 1, 4, true⟩, ⟨[113], [[110]], 1, 5, 0, 0, false⟩,
        ⟨[114], [], 0, 0, 0, 0, false⟩]).2
    [⟨[112], [[109]], 1, 1, 1, 4, true⟩] ⟨[113], [[110]], 1, 5, 0, 0, false⟩
    [⟨[114], [], 0, 0, 0, 0, false⟩] rfl (by decide) rfl

/-- C24 fails on the empty ledger: without a snapshot file, or with a snapshot
that holds no entry, `Clean` calls `Indexes.Get` on the empty ledger, which
indexes position `-1`; the call panics, whatever the directory holds. -/
theorem C24_Clean_panics_on_empty_ledger (Size : Int) (dir : Dir) :
    Indexes.Get (Indexes.Init none) = none ∧
    Clean Size ⟨none, dir⟩ = Outcome.panic ∧
    Clean Size ⟨some [], dir⟩ = Outcome.panic := by
  refine ⟨rfl, ?_, ?_⟩ <;> simp [Clean, Indexes.Init, Indexes.Get]

/-- On a ledger with an entry `Clean` does reach the repair of the last file:
it does not panic at the lookup. -/
theorem Clean_nonempty_ledger_lookup (idx : Indexes) (h : idx ≠ []) :
    ∃ last, Indexes.Get (Indexes.Init (some idx)) = some last := by
  obtain ⟨fin, cur, rfl⟩ := Indexes.eq_concat idx h
  exact ⟨cur, by simp [Indexes.Init, Indexes.Get]⟩

/-! ## Re-encoding of exported records: property C23 -/

/-- The line processing of `Read` (file.go:105-110) on an identifier line and one
body line that may hold blanks: the identifier starts with no white space
character, and the record ends with none. -/
theorem decode_single_line (id B : Bytes) (hne : id ≠ []) (hnl : NL ∉ id)
    (hhead : startsWithSpace id = false) (hB : NL ∉ B)
    (hlast : endsWithSpace B = false ∧ (B = [] → endsWithSpace id = false)) :
    let ls := Split NL (TrimSpace (id ++ NL :: (B ++ [NL])))
    ls.headD [] = id ∧ (if ls.length > 1 then (ls.drop 1).flatten else []) = B := by
  by_cases hb : B = []
  · subst hb
    have hts : TrimSpace (id ++ NL :: ([] ++ [NL])) = id := by
      have := TrimSpace_core [] id [NL, NL] (by simp) (by decide) ⟨hhead, hlast.2 rfl⟩
      simpa using this
    intro ls
    have hls : ls = [id] := by
      simp only [ls, hts]
      exact Split_no_sep NL id hnl
    simp [hls]
  · have hcore : startsWithSpace (id ++ NL :: B) = false ∧
        endsWithSpace (id ++ NL :: B) = false := by
      constructor
      · rw [startsWithSpace_eq_false]
        intro r hr hp
        exact (startsWithSpace_eq_false id).mp hhead r hr
          (prefix_of_ascii_next r id (NL :: B) hr hne
            (by intro c hc; simp only [List.head?_cons, Option.some.injEq] at hc; subst hc; decide)
            hp)
      · rw [endsWithSpace_eq_false]
        intro r hr hs
        by_cases hrn : NL ∈ r
        · have := spaceRunes_NL r hr hrn
          subst this
          have hl1 := suffix_singleton_getLast NL _ hs
          obtain ⟨B1, b, hx, _⟩ := eq_dropLast_append_getLast B hb
          have hl2 : (id ++ NL :: (B1 ++ [b])).getLast? = some b := by
            have e : id ++ NL :: (B1 ++ [b]) = (id ++ NL :: B1) ++ [b] := by simp
            rw [e]
            exact List.getLast?_concat _
          rw [hx, hl2] at hl1
          simp only [Option.some.injEq] at hl1
          exact hB (by rw [hx, hl1]; simp)
        · exact (endsWithSpace_eq_false B).mp hlast.1 r hr (suffix_after_sep r id B NL hrn hs)
    have hts : TrimSpace (id ++ NL :: (B ++ [NL])) = id ++ NL :: B := by
      have := TrimSpace_core [] (id ++ NL :: B) [NL] (by simp) (by decide) hcore
      simpa using this
    intro ls
    have hls : ls = [id, B] := by
      simp only [ls, hts]
      rw [Split_append_sep NL id B hnl, Split_no_sep NL B hB]
    simp [hls]

/-- The last iteration of the loop on a record with one body line: the bytes up
to the end of the body hold no further `'>'`. -/
theorem readStep_single_line (prev x B : Bytes) (more : Option Bytes)
    (hx : GT ∉ x) (hBg : GT ∉ B) (hne : prev ++ x ≠ []) (hnl : NL ∉ prev ++ x)
    (hhead : startsWithSpace (prev ++ x) = false) (hB : NL ∉ B)
    (hlast : endsWithSpace B = false ∧ (B = [] → endsWithSpace (prev ++ x) = false)) :
    readStep prev (x ++ NL :: (B ++ [NL]) ++ tailOf more)
      = Sum.inr ((some { ID := prev ++ x, Seq := B }, errOf more), more.getD []) := by
  have hnoGT : GT ∉ x ++ NL :: (B ++ [NL]) := by
    intro h
    rcases List.mem_append.mp h with h1 | h1
    · exact hx h1
    · rcases List.mem_cons.mp h1 with h2 | h2
      · simp [GT, NL] at h2
      · rcases List.mem_append.mp h2 with h3 | h3
        · exact hBg h3
        · simp [GT, NL] at h3
  have hc : (prev ++ x) ++ NL :: (B ++ [NL]) = ((prev ++ x) ++ NL :: B) ++ [NL] := by simp
  have hdec := decode_single_line (prev ++ x) B hne hnl hhead hB hlast
  have hidlen : 0 < (prev ++ x).length := List.length_pos.mpr hne
  have hnlm : NL ∈ (prev ++ x) ++ NL :: (B ++ [NL]) := by simp
  have hlen1 : ¬ ((prev ++ x) ++ NL :: (B ++ [NL])).length = 1 := by
    simp only [List.length_append, List.length_cons] at hidlen ⊢
    omega
  cases more with
  | none =>
    have hrb := ReadBytes_eof GT (x ++ NL :: (B ++ [NL])) hnoGT
    have htr : TrimRight ((prev ++ x) ++ NL :: (B ++ [NL]))
        = (prev ++ x) ++ NL :: (B ++ [NL]) := by
      unfold TrimRight
      rw [hc, trimRightWhile_keep _ _ NL (by simp [GT, NL])]
    have hread : prev ++ (x ++ NL :: (B ++ [NL])) = (prev ++ x) ++ NL :: (B ++ [NL]) := by
      simp
    unfold readStep
    simp only [tailOf, List.append_nil, hrb]
    simp only [prev_append]
    simp only [hread, htr]
    rw [if_neg hlen1, if_neg (by simp)]
    simp only [hdec.1, hdec.2, readFinish, hidlen, if_true, errOf, Option.getD_none,
      gt_iff_lt]
  | some rest =>
    have hrb := ReadBytes_found GT (x ++ NL :: (B ++ [NL])) rest hnoGT
    have htr : TrimRight (((prev ++ x) ++ NL :: (B ++ [NL])) ++ [GT])
        = (prev ++ x) ++ NL :: (B ++ [NL]) := by
      unfold TrimRight
      rw [trimRightWhile_drop _ _ GT (by simp), hc,
        trimRightWhile_keep _ _ NL (by simp [GT, NL])]
    have hread : prev ++ ((x ++ NL :: (B ++ [NL])) ++ [GT])
        = ((prev ++ x) ++ NL :: (B ++ [NL])) ++ [GT] := by
      simp
    have hlen2 : ¬ (((prev ++ x) ++ NL :: (B ++ [NL])) ++ [GT]).length = 1 := by
      simp only [List.length_append, List.length_cons, List.length_nil] at hidlen ⊢
      omega
    have hstream : x ++ NL :: (B ++ [NL]) ++ tailOf (some rest)
        = (x ++ NL :: (B ++ [NL])) ++ GT :: rest := by
      simp [tailOf]
    unfold readStep
    simp only [hstream, hrb]
    simp only [prev_append]
    simp only [hread, htr]
    rw [if_neg hlen2, if_neg (by simp)]
    simp only [hdec.1, hdec.2, readFinish, hidlen, if_true, errOf, Option.getD_some,
      gt_iff_lt]
    simp

/-- The loop on a record with one body line whose identifier line may hold
`'>'`: every `'>'` met before the newline of the identifier line extends `prev`. -/
theorem readLoop_single_line (B : Bytes) (more : Option Bytes) (hBg : GT ∉ B) (hB : NL ∉ B) :
    ∀ (k : Nat) (x prev : Bytes) (n : Nat), x.length ≤ k → k < n →
      prev ++ x ≠ [] → (prev ++ x).head? ≠ some GT → NL ∉ prev ++ x →
      startsWithSpace (prev ++ x) = false →
      (endsWithSpace B = false ∧ (B = [] → endsWithSpace (prev ++ x) = false)) →
      readLoop n prev (x ++ NL :: (B ++ [NL]) ++ tailOf more)
        = some ((some { ID := prev ++ x, Seq := B }, errOf more), more.getD []) := by
  intro k
  induction k with
  | zero =>
    intro x prev n hk hn hne _ hnl hhead hlast
    have hx : x = [] := List.length_eq_zero.mp (by omega)
    obtain ⟨n', rfl⟩ : ∃ n', n = n' + 1 := ⟨n - 1, by omega⟩
    rw [readLoop_succ,
      readStep_single_line prev x B more (by simp [hx]) hBg hne hnl hhead hB hlast]
  | succ k ih =>
    intro x prev n hk hn hne hgt hnl hhead hlast
    obtain ⟨n', rfl⟩ : ∃ n', n = n' + 1 := ⟨n - 1, by omega⟩
    by_cases hg : GT ∈ x
    · obtain ⟨y, z, hyz, hy⟩ := split_first_GT x hg
      subst hyz
      have hne' : prev ++ y ≠ [] := by
        intro he
        have hp : prev = [] := (List.append_eq_nil.mp he).1
        have hy0 : y = [] := (List.append_eq_nil.mp he).2
        subst hp hy0
        exact hgt (by simp)
      have hnl' : NL ∉ prev ++ y := by
        intro hm
        apply hnl
        rcases List.mem_append.mp hm with h1 | h1
        · exact List.mem_append_left _ h1
        · exact List.mem_append_right _ (List.mem_append_left _ h1)
      have hstream : (y ++ GT :: z) ++ NL :: (B ++ [NL]) ++ tailOf more
          = y ++ GT :: (z ++ NL :: (B ++ [NL]) ++ tailOf more) := by simp
      have hlen : z.length ≤ k := by
        simp only [List.length_append, List.length_cons] at hk
        omega
      have heq : (prev ++ y ++ [GT]) ++ z = prev ++ (y ++ GT :: z) := by simp
      rw [readLoop_succ, hstream, readStep_accumulate prev y _ hy hne' hnl']
      have := ih z (prev ++ y ++ [GT]) n' hlen (by omega) (by rw [heq]; exact hne)
        (by rw [heq]; exact hgt) (by rw [heq]; exact hnl) (by rw [heq]; exact hhead)
        (by rw [heq]; exact hlast)
      simp only [List.append_assoc, List.singleton_append] at this ⊢
      exact this
    · rw [readLoop_succ,
        readStep_single_line prev x B more hg hBg hne hnl hhead hB hlast]

/-- `Read` on the encoding `'>' id '\n' body '\n'` of a record with one body
line, followed by nothing or by the delimiter of a next record. -/
theorem Read_single_line (id B : Bytes) (c : Bool) (more : Option Bytes)
    (hne : id ≠ []) (hgt : id.head? ≠ some GT) (hnl : NL ∉ id)
    (hhead : startsWithSpace id = false) (hBg : GT ∉ B) (hB : NL ∉ B)
    (hlast : endsWithSpace B = false ∧ (B = [] → endsWithSpace id = false)) :
    Reader.Read (NewReader (GT :: id ++ NL :: (B ++ [NL]) ++ tailOf more) c)
      = some ((some { ID := id, Seq := B }, errOf more),
          { f := more.getD [], opened := true, c := c }) := by
  unfold Reader.Read
  have hcond : ¬ (¬ (NewReader (GT :: id ++ NL :: (B ++ [NL]) ++ tailOf more) c).opened = true ∧
      (NewReader (GT :: id ++ NL :: (B ++ [NL]) ++ tailOf more) c).c = true ∧
      (NewReader (GT :: id ++ NL :: (B ++ [NL]) ++ tailOf more) c).f = []) := by
    intro h
    exact absurd h.2.2 (by simp [NewReader])
  rw [if_neg hcond]
  have hmain := readLoop_single_line B more hBg hB id.length id []
    ((id ++ NL :: (B ++ [NL]) ++ tailOf more).length + 1) (le_refl _)
    (by simp only [List.length_append, List.length_cons]; omega)
    (by simpa using hne) (by simpa using hgt) (by simpa using hnl) (by simpa using hhead)
    (by simpa using hlast)
  have hloop : readLoop ((NewReader (GT :: id ++ NL :: (B ++ [NL]) ++ tailOf more) c).f.length + 2)
      [] (NewReader (GT :: id ++ NL :: (B ++ [NL]) ++ tailOf more) c).f
      = some ((some { ID := id, Seq := B }, errOf more), more.getD []) := by
    simp only [NewReader, List.cons_append, List.length_cons]
    rw [readLoop_skip]
    have hmain2 := readLoop_mono _ _ _ _ hmain
    simpa using hmain2
  rw [hloop]
  simp [NewReader]

theorem Split_mem_no_sep (sep : Nat) (x : Bytes) : ∀ l ∈ Split sep x, sep ∉ l := by
  induction x with
  | nil => simp [Split]
  | cons b x ih =>
    intro l hl
    unfold Split at hl
    by_cases hb : b = sep
    · rw [if_pos hb] at hl
      rcases List.mem_cons.mp hl with h1 | h1
      · simp [h1]
      · exact ih l h1
    · rw [if_neg hb] at hl
      cases hs : Split sep x with
      | nil => exact absurd hs (Split_ne_nil sep x)
      | cons l0 ls =>
        rw [hs] at hl ih
        simp only [List.mem_cons] at hl
        rcases hl with h1 | h1
        · subst h1
          intro hm
          rcases List.mem_cons.mp hm with h2 | h2
          · exact hb h2.symm
          · exact ih l0 (by simp) h2
        · exact ih l (by simp [h1])

/-- The bytes behind the first field of a split: the first field, the separator
and the bytes the other fields are split from. -/
theorem Split_cons_cons (sep : Nat) :
    ∀ (x l0 l1 : Bytes) (ls : List Bytes), Split sep x = l0 :: l1 :: ls →
      ∃ t, x = l0 ++ sep :: t ∧ Split sep t = l1 :: ls := by
  intro x
  induction x with
  | nil => intro l0 l1 ls h; simp [Split] at h
  | cons b x ih =>
    intro l0 l1 ls h
    unfold Split at h
    by_cases hb : b = sep
    · rw [if_pos hb] at h
      simp only [List.cons.injEq] at h
      obtain ⟨h0, h1⟩ := h
      subst h0
      exact ⟨x, by simp [hb], h1⟩
    · rw [if_neg hb] at h
      cases hs : Split sep x with
      | nil => exact absurd hs (Split_ne_nil sep x)
      | cons m ms =>
        rw [hs] at h
        simp only [List.cons.injEq] at h
        obtain ⟨h0, h1⟩ := h
        subst h0 h1
        obtain ⟨t, ht, hst⟩ := ih m l1 ls hs
        exact ⟨t, by simp [ht], hst⟩

/-- What `ReadBytes` returns holds the delimiter at its end only. -/
theorem ReadBytes_fst (rest : Bytes) :
    ∃ x, GT ∉ x ∧ ((ReadBytes GT rest).1 = x ∨ (ReadBytes GT rest).1 = x ++ [GT]) := by
  by_cases hg : GT ∈ rest
  · obtain ⟨y, z, hyz, hy⟩ := split_first_GT rest hg
    exact ⟨y, hy, Or.inr (by rw [hyz, ReadBytes_found GT y z hy])⟩
  · exact ⟨rest, hg, Or.inl (by rw [ReadBytes_eof GT rest hg])⟩

/-- The fields of a split, joined, end as the bytes split do when these do not
end in the separator. -/
theorem filter_getLast (sep : Nat) (t : Bytes) (p : Nat → Bool)
    (hsep : p sep = true) (h : t.getLast?.any p = false) :
    (t.filter (fun b => b != sep)).getLast?.any p = false := by
  induction t using List.reverseRecOn with
  | nil => simp
  | append_singleton u a _ =>
    have ha : p a = false := by simpa using h
    have hne : a ≠ sep := fun e => by rw [e, hsep] at ha; exact absurd ha (by simp)
    have : (u ++ [a]).filter (fun b => b != sep) = u.filter (fun b => b != sep) ++ [a] := by
      simp [List.filter_append, hne]
    rw [this]
    simp [ha]

/-- Bytes that split into one field are that field. -/
theorem Split_singleton (sep : Nat) : ∀ (x l0 : Bytes), Split sep x = [l0] → x = l0 := by
  intro x
  induction x with
  | nil => intro l0 h; simpa [Split] using h
  | cons b x ih =>
    intro l0 h
    unfold Split at h
    by_cases hb : b = sep
    · rw [if_pos hb] at h
      simp only [List.cons.injEq] at h
      exact absurd h.2 (Split_ne_nil sep x)
    · rw [if_neg hb] at h
      cases hs : Split sep x with
      | nil => exact absurd hs (Split_ne_nil sep x)
      | cons m ms =>
        rw [hs] at h
        simp only [List.cons.injEq] at h
        obtain ⟨h0, h1⟩ := h
        subst h0 h1
        rw [ih m hs]

/-- The line processing of `Read` (file.go:105-110) on the bytes of one
iteration: `prev`, which holds no newline, followed by what `ReadBytes` returned. -/
theorem decode_shape (prev r1 : Bytes) (hprev : NL ∉ prev)
    (hr1 : ∃ x, GT ∉ x ∧ (r1 = x ∨ r1 = x ++ [GT])) (hnl : NL ∈ prev ++ r1) :
    let ls := Split NL (TrimSpace (TrimRight (prev ++ r1)))
    NL ∉ ls.headD [] ∧
      NL ∉ (if ls.length > 1 then (ls.drop 1).flatten else []) ∧
      GT ∉ (if ls.length > 1 then (ls.drop 1).flatten else []) ∧
      (ls.headD [] ++ (if ls.length > 1 then (ls.drop 1).flatten else [])).getLast?.any isSpace
        = false ∧
      ((if ls.length > 1 then (ls.drop 1).flatten else []) = [] →
        endsWithSpace (ls.headD []) = false) := by
  obtain ⟨x, hx, hr⟩ := hr1
  -- the newline lies in `x`
  have hnlx : NL ∈ x := by
    rcases List.mem_append.mp hnl with h1 | h1
    · exact absurd h1 hprev
    · rcases hr with h2 | h2
      · rw [h2] at h1; exact h1
      · rw [h2] at h1
        rcases List.mem_append.mp h1 with h3 | h3
        · exact h3
        · simp [GT, NL] at h3
  have hxne : x ≠ [] := fun e => by rw [e] at hnlx; simp at hnlx
  obtain ⟨x', b, hxb, _⟩ := eq_dropLast_append_getLast x hxne
  have hbne : b ≠ GT := fun e => hx (by rw [hxb, e]; simp)
  have hkeep : TrimRight (prev ++ x) = prev ++ x := by
    unfold TrimRight
    rw [hxb, ← List.append_assoc]
    exact trimRightWhile_keep _ _ b (by simpa using hbne)
  have htr : TrimRight (prev ++ r1) = prev ++ x := by
    rcases hr with h2 | h2
    · rw [h2]; exact hkeep
    · rw [h2, ← List.append_assoc]
      unfold TrimRight
      rw [trimRightWhile_drop _ _ GT (by simp)]
      exact hkeep
  intro ls
  have hls : ls = Split NL (TrimSpace (prev ++ x)) := by simp only [ls, htr]
  obtain ⟨a, w, haw⟩ := TrimSpace_infix (prev ++ x)
  have hendT : endsWithSpace (TrimSpace (prev ++ x)) = false := TrimSpace_ends (prev ++ x)
  have hlastT : (TrimSpace (prev ++ x)).getLast?.any isSpace = false :=
    endsWithSpace_getLast _ hendT
  have hflat : ls.flatten = (TrimSpace (prev ++ x)).filter (fun c => c != NL) := by
    rw [hls, Split_flatten]
  have hmem : ∀ l ∈ ls, NL ∉ l := by
    rw [hls]; exact Split_mem_no_sep NL _
  cases hl : ls with
  | nil => exact absurd (hls ▸ hl) (Split_ne_nil NL _)
  | cons l0 rest =>
    rw [hl] at hflat hmem
    have hbody : (if (l0 :: rest).length > 1 then ((l0 :: rest).drop 1).flatten else [])
        = rest.flatten := by
      cases rest with
      | nil => simp
      | cons l1 r2 => simp
    rw [hbody]
    simp only [List.headD_cons]
    refine ⟨hmem l0 (by simp), ?_, ?_, ?_, ?_⟩
    · intro hm
      obtain ⟨l, hl1, hl2⟩ := List.mem_flatten.mp hm
      exact hmem l (by simp [hl1]) hl2
    · cases rest with
      | nil => simp
      | cons l1 r2 =>
        obtain ⟨t, ht, hst⟩ := Split_cons_cons NL _ l0 l1 r2 (hls ▸ hl)
        have hsub : ∀ c ∈ (l1 :: r2).flatten, c ∈ t := by
          intro c hc
          rw [← hst, Split_flatten] at hc
          exact (List.mem_filter.mp hc).1
        have hl0 : NL ∉ l0 := hmem l0 (by simp)
        -- `prev ++ x = (a ++ l0) ++ NL :: (t ++ w)`, and the newline lies in `x`
        have hdec : prev ++ x = (a ++ l0) ++ NL :: (t ++ w) := by
          rw [haw, ht]; simp
        have htx : ∀ c ∈ t, c ∈ x := by
          intro c hc
          rcases List.append_eq_append_iff.mp hdec with ⟨a', h1, h2⟩ | ⟨c', h1, h2⟩
          · rw [h2]
            exact List.mem_append_right _ (List.mem_cons_of_mem _ (List.mem_append_left _ hc))
          · cases c' with
            | nil =>
              simp only [List.nil_append] at h2
              rw [← h2]
              exact List.mem_cons_of_mem _ (List.mem_append_left _ hc)
            | cons d c'' =>
              simp only [List.cons_append, List.cons.injEq] at h2
              exact absurd (by rw [h1, ← h2.1]; simp) hprev
        intro hg
        exact hx (htx GT (hsub GT hg))
    · have h1 : l0 ++ rest.flatten = (l0 :: rest).flatten := by simp
      rw [h1, hflat]
      exact filter_getLast NL _ isSpace (by decide) hlastT
    · intro hempty
      cases rest with
      | nil =>
        have := Split_singleton NL _ l0 (hls ▸ hl)
        rw [← this]
        exact hendT
      | cons l1 r2 =>
        exfalso
        obtain ⟨t, ht, hst⟩ := Split_cons_cons NL _ l0 l1 r2 (hls ▸ hl)
        have htf : t.filter (fun c => c != NL) = [] := by
          rw [← Split_flatten, hst]; exact hempty
        obtain ⟨t1, c, htc, _⟩ := eq_dropLast_append_getLast (NL :: t) (by simp)
        have hc : c = NL := by
          have hcm : c ∈ NL :: t := by rw [htc]; simp
          rcases List.mem_cons.mp hcm with h2 | h2
          · exact h2
          · by_contra hne
            have : c ∈ t.filter (fun c => c != NL) := List.mem_filter.mpr ⟨h2, by simpa using hne⟩
            rw [htf] at this
            exact absurd this (by simp)
        have hT : TrimSpace (prev ++ x) = (l0 ++ t1) ++ [NL] := by
          rw [ht, htc, hc]; simp
        rw [hT] at hlastT
        simp at hlastT
        exact absurd hlastT (by decide)

/-- A record returned by an iteration of the loop has the shape `ReadShape`. -/
theorem readStep_shape (prev rest : Bytes) (s : Seq) (er : Err) (rest' : Bytes)
    (hprev : NL ∉ prev) (h : readStep prev rest = Sum.inr ((some s, er), rest')) :
    ReadShape s := by
  unfold readStep at h
  dsimp only at h
  rw [prev_append] at h
  by_cases h1 : (prev ++ (ReadBytes GT rest).1).length = 1
  · rw [if_pos h1] at h
    by_cases h2 : (ReadBytes GT rest).2.1 = true
    · rw [if_pos h2] at h
      simp [readFinish] at h
    · rw [if_neg h2] at h
      exact absurd h (by simp)
  · rw [if_neg h1] at h
    by_cases h3 : ¬ NL ∈ prev ++ (ReadBytes GT rest).1
    · rw [if_pos h3] at h
      exact absurd h (by simp)
    · rw [if_neg h3] at h
      have hnl : NL ∈ prev ++ (ReadBytes GT rest).1 := not_not.mp h3
      have hd := decode_shape prev (ReadBytes GT rest).1 hprev (ReadBytes_fst rest) hnl
      simp only [Sum.inr.injEq, Prod.mk.injEq, readFinish] at h
      obtain ⟨⟨hs, _⟩, _⟩ := h
      by_cases hlab : ((Split NL (TrimSpace (TrimRight (prev ++ (ReadBytes GT rest).1)))).headD
          []).length > 0
      · rw [if_pos hlab] at hs
        simp only [Option.some.injEq] at hs
        subst hs
        exact ⟨List.length_pos.mp hlab, hd.1, hd.2.2.1, hd.2.1, hd.2.2.2.1, hd.2.2.2.2⟩
      · rw [if_neg hlab] at hs
        exact absurd hs (by simp)

theorem readStep_prev (prev rest p r : Bytes) (hprev : NL ∉ prev)
    (h : readStep prev rest = Sum.inl (p, r)) : NL ∉ p := by
  unfold readStep at h
  dsimp only at h
  rw [prev_append] at h
  by_cases h1 : (prev ++ (ReadBytes GT rest).1).length = 1
  · rw [if_pos h1] at h
    by_cases h2 : (ReadBytes GT rest).2.1 = true
    · rw [if_pos h2] at h
      exact absurd h (by simp)
    · rw [if_neg h2] at h
      simp only [Sum.inl.injEq, Prod.mk.injEq] at h
      rw [← h.1]; exact hprev
  · rw [if_neg h1] at h
    by_cases h3 : ¬ NL ∈ prev ++ (ReadBytes GT rest).1
    · rw [if_pos h3] at h
      simp only [Sum.inl.injEq, Prod.mk.injEq] at h
      rw [← h.1]; exact h3
    · rw [if_neg h3] at h
      exact absurd h (by simp)

theorem readLoop_shape : ∀ (n : Nat) (prev rest : Bytes) (s : Seq) (er : Err) (rest' : Bytes),
    NL ∉ prev → readLoop n prev rest = some ((some s, er), rest') → ReadShape s
  | 0, _, _, _, _, _, _, h => by simp [readLoop] at h
  | n + 1, prev, rest, s, er, rest', hprev, h => by
    rw [readLoop_succ] at h
    cases hs : readStep prev rest with
    | inl pr =>
      obtain ⟨p, r⟩ := pr
      rw [hs] at h
      exact readLoop_shape n p r s er rest' (readStep_prev prev rest p r hprev hs) h
    | inr res =>
      rw [hs] at h
      simp only [Option.some.injEq] at h
      rw [h] at hs
      exact readStep_shape prev rest s er rest' hprev hs

/-- Every record `Read` returns, on any stream, has the shape `ReadShape`. -/
theorem Read_shape (rd : Reader) (s : Seq) (er : Err) (rd' : Reader)
    (h : rd.Read = some ((some s, er), rd')) : ReadShape s := by
  unfold Reader.Read at h
  by_cases hc : ¬ rd.opened = true ∧ rd.c = true ∧ rd.f = []
  · rw [if_pos hc] at h
    simp at h
  · rw [if_neg hc] at h
    cases hl : readLoop (rd.f.length + 2) [] rd.f with
    | none => rw [hl] at h; simp at h
    | some x =>
      obtain ⟨⟨sq, e⟩, rest⟩ := x
      rw [hl] at h
      simp only [Option.some.injEq, Prod.mk.injEq] at h
      obtain ⟨⟨h1, h2⟩, _⟩ := h
      subst h1 h2
      exact readLoop_shape _ [] rd.f s _ rest (by simp) hl

theorem upperByte_NL (b : Nat) (h : b ≠ NL) : upperByte b ≠ NL := by
  unfold upperByte
  split
  · simp only [NL] at h ⊢; omega
  · exact h

theorem ToUpper_not_mem (d : Nat) (hd : ∀ b, b ≠ d → upperByte b ≠ d) (l : Bytes) (h : d ∉ l) :
    d ∉ ToUpper l := by
  intro hm
  simp only [ToUpper, List.mem_map] at hm
  obtain ⟨b, hb, hbe⟩ := hm
  exact hd b (fun e => h (e ▸ hb)) hbe

/-- The uppercased bytes of ASCII bytes are ASCII bytes. -/
theorem ToUpper_ascii (l : Bytes) (h : Ascii l) : Ascii (ToUpper l) := by
  intro c hc
  simp only [ToUpper, List.mem_map] at hc
  obtain ⟨b, hb, rfl⟩ := hc
  have := h b hb
  unfold upperByte
  split <;> omega

theorem upperByte_idem (b : Nat) : upperByte (upperByte b) = upperByte b := by
  unfold upperByte
  by_cases h : 97 ≤ b ∧ b ≤ 122
  · rw [if_pos h]
    have : ¬ (97 ≤ b - 32 ∧ b - 32 ≤ 122) := by omega
    rw [if_neg this]
  · rw [if_neg h, if_neg h]

/-- Uppercasing twice is uppercasing once. -/
theorem ToUpper_idem (l : Bytes) : ToUpper (ToUpper l) = ToUpper l := by
  simp only [ToUpper, List.map_map]
  apply List.map_congr_left
  intro b _
  exact upperByte_idem b

theorem spaceRunes_no_BAR : ∀ r ∈ spaceRunes, BAR ∉ r := by decide

/-- The tagged identifier and the uppercased body of a record of the shape
`ReadShape` with an ASCII body meet the conditions of `Read_single_line`. -/
theorem tagged_conditions (s : Seq) (projID mgID : Bytes) (hs : ReadShape s)
    (hproj : projID ≠ [] ∧ GT ∉ projID ∧ holdsSpace projID = false)
    (hmg : mgID ≠ [] ∧ GT ∉ mgID ∧ holdsSpace mgID = false) (hbody : Ascii s.Seq) :
    newHead projID mgID s.ID ≠ [] ∧ (newHead projID mgID s.ID).head? ≠ some GT ∧
      NL ∉ newHead projID mgID s.ID ∧
      startsWithSpace (newHead projID mgID s.ID) = false ∧
      GT ∉ ToUpper s.Seq ∧ NL ∉ ToUpper s.Seq ∧
      (endsWithSpace (ToUpper s.Seq) = false ∧
        (ToUpper s.Seq = [] → endsWithSpace (newHead projID mgID s.ID) = false)) := by
  obtain ⟨hid, hidnl, hsg, hsnl, hlast, hidend⟩ := hs
  obtain ⟨hpne, hpgt, hph⟩ := hproj
  obtain ⟨_, _, hmh⟩ := hmg
  have hpsp := holdsSpace_bytes projID hph
  have hmsp := holdsSpace_bytes mgID hmh
  have hnlsp : isSpace NL = true := by decide
  have hpnl : NL ∉ projID := fun h => by
    have := hpsp NL h; rw [hnlsp] at this; exact absurd this (by simp)
  have hmnl : NL ∉ mgID := fun h => by
    have := hmsp NL h; rw [hnlsp] at this; exact absurd this (by simp)
  obtain ⟨a, t, hat⟩ : ∃ a t, projID = a :: t := by
    cases projID with
    | nil => exact absurd rfl hpne
    | cons a t => exact ⟨a, t, rfl⟩
  have ha : a ≠ GT := fun e => hpgt (by rw [hat, e]; simp)
  refine ⟨by simp [newHead, hat], by simp [newHead, hat, ha], ?_, ?_,
    ToUpper_not_mem GT upperByte_GT s.Seq hsg, ToUpper_not_mem NL upperByte_NL s.Seq hsnl, ?_, ?_⟩
  · intro h
    simp only [newHead, List.mem_append, List.mem_singleton] at h
    rcases h with (((h1 | h1) | h1) | h1) | h1
    · exact hpnl h1
    · simp [NL, BAR] at h1
    · exact hmnl h1
    · simp [NL, BAR] at h1
    · exact hidnl h1
  · rw [startsWithSpace_eq_false]
    intro r hr hp
    have e : newHead projID mgID s.ID = projID ++ (BAR :: (mgID ++ BAR :: s.ID)) := by
      simp [newHead]
    rw [e] at hp
    have h1 := prefix_of_ascii_next r projID _ hr hpne
      (by intro c hc; simp only [List.head?_cons, Option.some.injEq] at hc; subst hc; decide) hp
    exact (holdsSpace_eq_false projID).mp hph r hr h1.isInfix
  · apply endsWithSpace_ascii _ (ToUpper_ascii s.Seq hbody)
    by_cases hb : s.Seq = []
    · rw [hb]; rfl
    · obtain ⟨x', b, hx, _⟩ := eq_dropLast_append_getLast s.Seq hb
      rw [hx, ← List.append_assoc, List.getLast?_concat] at hlast
      have hbs : isSpace b = false := by simpa using hlast
      have hup : ToUpper (x' ++ [b]) = ToUpper x' ++ [upperByte b] := by simp [ToUpper]
      rw [hx, hup, List.getLast?_concat]
      simp [upperByte_space b hbs]
  · intro hu
    have hb : s.Seq = [] := by
      simpa [ToUpper] using hu
    have hie := hidend hb
    rw [endsWithSpace_eq_false]
    intro r hr hp
    have e : newHead projID mgID s.ID = (projID ++ [BAR] ++ mgID) ++ BAR :: s.ID := by
      simp [newHead]
    rw [e] at hp
    exact (endsWithSpace_eq_false s.ID).mp hie r hr
      (suffix_after_sep r _ s.ID BAR (spaceRunes_no_BAR r hr) hp)

/-- C23, as stated, fails.  On the stream `>id\n\xC2\n\xA0\n` `Read` returns the
record with identifier `id` whose body, the two body lines joined, is the UTF-8
encoding of U+00A0 (no-break space), a white space character that uppercasing
leaves as it is.  In the encoding of the tagged record the body is then one
line made of this white space character, `Read` on it trims the character away
with the newline, and returns the tagged identifier with an empty body. -/
theorem C23_space_character_body_lost :
    Reader.Read (NewReader [62, 105, 100, 10, 194, 10, 160, 10] false)
        = some ((some ⟨[105, 100], [194, 160]⟩, Err.EOF),
            { f := [], opened := true, c := false }) ∧
      Reader.Read (NewReader (Seq.Record ⟨newHead [112] [109] [105, 100], [194, 160]⟩) false)
        = some ((some ⟨newHead [112] [109] [105, 100], []⟩, Err.EOF),
            { f := [], opened := true, c := false }) ∧
      ([] : Bytes) ≠ ToUpper [194, 160] := by
  decide

/-- C23, amended: re-encoding is stable for exported records with an ASCII body.
For every record `s` that `Read` returns on any stream and whose body holds only
ASCII bytes, and every project and sample ID that are non-empty and free of
`'>'` and of white space characters (newline included), `Read` on the encoding
(`Seq.Record`) of the record tagged `project|sample|s.ID` returns the tagged
identifier and the uppercased body of `s`, with end-of-stream; followed in a file
by the encoding of a next record it returns the same record, without
end-of-stream, and leaves the next record unread.  The record returned encodes
to the same bytes again, so a replay that decodes and encodes record by record
writes the same records. -/
theorem C23_reencoding_stable (rd : Reader) (s : Seq) (er : Err) (rd' : Reader)
    (projID mgID : Bytes) (c : Bool)
    (hread : rd.Read = some ((some s, er), rd'))
    (hproj : projID ≠ [] ∧ GT ∉ projID ∧ holdsSpace projID = false)
    (hmg : mgID ≠ [] ∧ GT ∉ mgID ∧ holdsSpace mgID = false)
    (hbody : Ascii s.Seq) :
    Reader.Read (NewReader (Seq.Record ⟨newHead projID mgID s.ID, s.Seq⟩) c)
        = some ((some ⟨newHead projID mgID s.ID, ToUpper s.Seq⟩, Err.EOF),
            { f := [], opened := true, c := c }) ∧
      (∀ next : Bytes,
        Reader.Read (NewReader (Seq.Record ⟨newHead projID mgID s.ID, s.Seq⟩ ++ GT :: next) c)
          = some ((some ⟨newHead projID mgID s.ID, ToUpper s.Seq⟩, Err.nil),
              { f := next, opened := true, c := c })) ∧
      Seq.Record ⟨newHead projID mgID s.ID, ToUpper s.Seq⟩
        = Seq.Record ⟨newHead projID mgID s.ID, s.Seq⟩ := by
  obtain ⟨h1, h2, h3, h4, h5, h6, h7⟩ :=
    tagged_conditions s projID mgID (Read_shape rd s er rd' hread) hproj hmg hbody
  have hrec : ∀ more : Option Bytes,
      Seq.Record ⟨newHead projID mgID s.ID, s.Seq⟩ ++ tailOf more
        = GT :: newHead projID mgID s.ID ++ NL :: (ToUpper s.Seq ++ [NL]) ++ tailOf more := by
    intro more
    simp [Seq.Record]
  refine ⟨?_, ?_, ?_⟩
  · have h := Read_single_line (newHead projID mgID s.ID) (ToUpper s.Seq) c none h1 h2 h3 h4 h5
      h6 h7
    rw [← hrec none] at h
    simpa [tailOf, errOf] using h
  · intro next
    have h := Read_single_line (newHead projID mgID s.ID) (ToUpper s.Seq) c (some next) h1 h2 h3
      h4 h5 h6 h7
    rw [← hrec (some next)] at h
    simpa [tailOf, errOf] using h
  · simp only [Seq.Record, ToUpper_idem]

/-- The amended C23 at the stream `>a>b\xC2\xA0\nac gt\n`, whose record has the
identifier `a>b` followed by U+00A0 (a `'>'` inside, a white space character at
the end) and the ASCII body `ac gt`, tagged with project `mgp1` and sample
`mgm2`. -/
theorem C23_reencoding_stable_witness :
    Reader.Read (NewReader [62, 97, 62, 98, 194, 160, 10, 97, 99, 32, 103, 116, 10] false)
        = some ((some ⟨[97, 62, 98, 194, 160], [97, 99, 32, 103, 116]⟩, Err.EOF),
            { f := [], opened := true, c := false }) ∧
      Reader.Read (NewReader (Seq.Record
          ⟨newHead [109, 103, 112, 49] [109, 103, 109, 50] [97, 62, 98, 194, 160],
            [97, 99, 32, 103, 116]⟩) true)
        = some ((some ⟨newHead [109, 103, 112, 49] [109, 103, 109, 50] [97, 62, 98, 194, 160],
              ToUpper [97, 99, 32, 103, 116]⟩, Err.EOF),
            { f := [], opened := true, c := true }) :=
  ⟨by decide,
    (C23_reencoding_stable
      (NewReader [62, 97, 62, 98, 194, 160, 10, 97, 99, 32, 103, 116, 10] false)
      ⟨[97, 62, 98, 194, 160], [97, 99, 32, 103, 116]⟩ Err.EOF
      { f := [], opened := true, c := false }
      [109, 103, 112, 49] [109, 103, 109, 50] true (by decide) (by decide) (by decide)
      (by decide)).1⟩

/-! ## Orchestrator: the signals of an export, property C22 -/

theorem Writer.step_returned (w : Writer) (sig : Signal) (h : w.returned = true) :
    w.step sig = w := by
  unfold Writer.step
  rw [if_pos h]

theorem scanStep_none (l : List Signal) : l.foldl scanStep none = none := by
  induction l with
  | nil => rfl
  | cons a l ih => simpa [List.foldl, scanStep] using ih

/-- A scan that ends well has gone well all along. -/
theorem scan_prefix (st : Option (Option Bytes)) (a b : List Signal)
    (h : (a ++ b).foldl scanStep st ≠ none) : a.foldl scanStep st ≠ none := by
  intro ha
  rw [List.foldl_append, ha, scanStep_none] at h
  exact h rfl

/-- Records met without a boundary in between keep the project of the scan. -/
theorem scan_segment (p : Bytes) :
    ∀ b : List Signal, Signal.boundary ∉ b → b.foldl scanStep (some (some p)) ≠ none →
      b.foldl scanStep (some (some p)) = some (some p) := by
  intro b
  induction b with
  | nil => intro _ _; rfl
  | cons x b ih =>
    intro hb h
    cases x with
    | boundary => exact absurd (by simp) hb
    | record r e z =>
      have hb' : Signal.boundary ∉ b := fun hm => hb (by simp [hm])
      simp only [List.foldl_cons] at h ⊢
      by_cases hp : r.P = p ∧ r.P ≠ []
      · have hst : scanStep (some (some p)) (Signal.record r e z) = some (some p) := by
          simp only [scanStep, if_pos hp]
        rw [hst] at h ⊢
        exact ih hb' h
      · have hst : scanStep (some (some p)) (Signal.record r e z) = none := by
          simp only [scanStep, if_neg hp]
        rw [hst, scanStep_none] at h
        exact absurd rfl h

/-- A record that the scan accepts has a project, and the scan carries it on. -/
theorem scanStep_record (st : Option (Option Bytes)) (r : Record) (e : Bool) (z : Int)
    (h : scanStep st (Signal.record r e z) ≠ none) :
    scanStep st (Signal.record r e z) = some (some r.P) ∧ r.P ≠ [] := by
  cases st with
  | none => simp [scanStep] at h
  | some x =>
    cases x with
    | none =>
      by_cases hp : r.P ≠ []
      · exact ⟨by simp only [scanStep, if_pos hp], hp⟩
      · simp [scanStep, hp] at h
    | some p =>
      by_cases hp : r.P = p ∧ r.P ≠ []
      · refine ⟨?_, hp.2⟩
        simp only [scanStep, if_pos hp]
        rw [hp.1]
      · simp [scanStep, hp] at h

/-- What a scan that ends well says of the signals: two records with no boundary
between them carry the same project, and every record carries a project. -/
theorem scan_spec (sigs : List Signal) (h : sigs.foldl scanStep (some none) ≠ none) :
    (∀ (a b c : List Signal) (r1 r2 : Record) (e1 e2 : Bool) (z1 z2 : Int),
      sigs = a ++ Signal.record r1 e1 z1 :: (b ++ Signal.record r2 e2 z2 :: c) →
      Signal.boundary ∉ b → r1.P = r2.P) ∧
    ∀ (a c : List Signal) (r : Record) (e : Bool) (z : Int),
      sigs = a ++ Signal.record r e z :: c → r.P ≠ [] := by
  constructor
  · intro a b c r1 r2 e1 e2 z1 z2 hs hb
    subst hs
    -- up to the first record
    have h1 : (a ++ [Signal.record r1 e1 z1]).foldl scanStep (some none) ≠ none := by
      apply scan_prefix _ _ (b ++ Signal.record r2 e2 z2 :: c)
      simpa using h
    rw [List.foldl_append] at h1
    simp only [List.foldl_cons, List.foldl_nil] at h1
    have hr1 := (scanStep_record _ r1 e1 z1 h1).1
    -- up to the second record
    have h2 : (a ++ Signal.record r1 e1 z1 :: (b ++ [Signal.record r2 e2 z2])).foldl scanStep
        (some none) ≠ none := by
      apply scan_prefix _ _ c
      simpa using h
    rw [List.foldl_append] at h2
    simp only [List.foldl_cons] at h2
    rw [hr1, List.foldl_append] at h2
    have h3 : b.foldl scanStep (some (some r1.P)) ≠ none := by
      intro hn
      rw [hn] at h2
      simp [scanStep] at h2
    rw [scan_segment r1.P b hb h3] at h2
    simp only [List.foldl_cons, List.foldl_nil] at h2
    by_cases hp : r2.P = r1.P ∧ r2.P ≠ []
    · exact hp.1.symm
    · simp [scanStep, hp] at h2
  · intro a c r e z hs
    subst hs
    have h1 : (a ++ [Signal.record r e z]).foldl scanStep (some none) ≠ none := by
      apply scan_prefix _ _ c
      simpa using h
    rw [List.foldl_append] at h1
    simp only [List.foldl_cons, List.foldl_nil] at h1
    exact (scanStep_record _ r e z h1).2

/-- The open entry after a record of project `rec.P`, when it carried no project
or that project before. -/
theorem Writer.step_record_project (w : Writer) (rec : Record) (e : Bool) (z : Int)
    (hs : w.simpleWrite = false) (hr : w.returned = false)
    (hK : w.currIndex.Project = [] ∨ w.currIndex.Project = rec.P) :
    (w.step (Signal.record rec e z)).currIndex.Project = [] ∨
      ((w.step (Signal.record rec e z)).currIndex.Project = rec.P ∧
        (w.step (Signal.record rec e z)).projectDone = false ∧
        (w.step (Signal.record rec e z)).returned = false) := by
  cases e with
  | true =>
    have hst : w.step (Signal.record rec true z) = { w with projectDone := false } := by
      simp [Writer.step, hr]
    rw [hst]
    rcases hK with h | h
    · exact Or.inl h
    · exact Or.inr ⟨h, rfl, hr⟩
  | false =>
    have hv : w.violation rec = false := by
      unfold Writer.violation
      rcases hK with h | h
      · simp [h]
      · simp [h]
    have hst := Writer.step_record w rec z hr hs hv
    by_cases hne : w.ExportIndex = []
    · left
      have hu : w.updateIndex rec = [] := by
        unfold Writer.updateIndex
        rw [hne]
        simp [modifyLast]
      rw [hst]
      split <;> simp [Writer.currIndex, hu, Index.new]
    · right
      obtain ⟨init, a, hu, ha⟩ := Writer.updateIndex_last w rec hne
      rw [hst]
      split
      · exact ⟨by rw [Writer.currIndex_concat _ init a hu]; exact ha, rfl, hr⟩
      · exact ⟨by rw [Writer.currIndex_concat _ init a hu]; exact ha, rfl, hr⟩

/-- The open entry after a boundary carries no project, when it carried none
whenever `projectDone` was set. -/
theorem Writer.step_boundary_project (w : Writer) (hs : w.simpleWrite = false)
    (hK : w.projectDone = true → w.currIndex.Project = []) (hr : w.returned = false) :
    (w.step Signal.boundary).currIndex.Project = [] := by
  by_cases hp : w.projectDone = true
  · have hst : (w.step Signal.boundary).ExportIndex = w.ExportIndex := by
      simp [Writer.step, hr, hp]
    simp only [Writer.currIndex, hst]
    exact hK hp
  · have hst : (w.step Signal.boundary).ExportIndex
        = modifyLast (fun i => i.Finalize w.prev.M w.prev.F w.prev.R) w.ExportIndex
          ++ [Index.new] := by
      simp [Writer.step, hr, hp, hs, Indexes.Add]
    rw [Writer.currIndex_concat _ _ _ hst]
    rfl

/-- A signal appended to the list: where a record of the longer list lies. -/
theorem append_singleton_eq (sent a c : List Signal) (sig x : Signal)
    (h : sent ++ [sig] = a ++ x :: c) :
    (c = [] ∧ a = sent ∧ x = sig) ∨ ∃ c', c = c' ++ [sig] ∧ sent = a ++ x :: c' := by
  induction c using List.reverseRecOn with
  | nil =>
    left
    have h1 : sent ++ [sig] = a ++ [x] := h
    have := List.append_inj' h1 rfl
    exact ⟨rfl, this.1.symm, by simpa using this.2.symm⟩
  | append_singleton c' y _ =>
    right
    have h1 : sent ++ [sig] = (a ++ x :: c') ++ [y] := by simpa using h
    have := List.append_inj' h1 rfl
    have hy : y = sig := by simpa using this.2.symm
    exact ⟨c', by rw [hy], this.1⟩

theorem ExportState.inv_send_record (w0 : Writer) (s s' : ExportState) (rec : Record)
    (e : Bool) (z : Int) (hinv : s.inv w0) (hP : rec.P = s.prevProject)
    (hne : s.prevProject ≠ [])
    (hsend : s.send (Signal.record rec e z) = some s') :
    s'.inv w0 ∧ s'.prevProject = s.prevProject := by
  obtain ⟨hw, hsw, hK, hscan, hnv⟩ := hinv
  have hKrec : s.w.currIndex.Project = [] ∨ s.w.currIndex.Project = rec.P := by
    rcases hK with h | h
    · exact Or.inl h
    · exact Or.inr (by rw [hP]; exact h.1)
  have hviol : s.w.violation rec = false := by
    unfold Writer.violation
    rcases hKrec with h | h
    · simp [h]
    · simp [h]
  have hscan' : (s.sent ++ [Signal.record rec e z]).foldl scanStep (some none)
      = some (some s.prevProject) := by
    rw [List.foldl_append]
    simp only [List.foldl_cons, List.foldl_nil]
    rcases hscan with h | h
    · rw [h]
      simp only [scanStep]
      rw [if_pos (by rw [hP]; exact hne), hP]
    · rw [h.1]
      simp only [scanStep]
      rw [if_pos ⟨hP, by rw [hP]; exact hne⟩]
  have hnv' : ∀ (a c : List Signal) (r : Record) (e1 : Bool) (z1 : Int),
      s.sent ++ [Signal.record rec e z] = a ++ Signal.record r e1 z1 :: c →
        (w0.run a).violation r = false := by
    intro a c r e1 z1 h
    rcases append_singleton_eq _ _ _ _ _ h with ⟨_, ha, hx⟩ | ⟨c', _, hs⟩
    · simp only [Signal.record.injEq] at hx
      rw [ha, ← hw, hx.1]
      exact hviol
    · exact hnv a c' r e1 z1 hs
  unfold ExportState.send at hsend
  by_cases hr : s.w.returned = true
  · rw [if_pos hr] at hsend
    by_cases hq : s.queued < RecBufferCap
    · rw [if_pos hq] at hsend
      simp only [Option.some.injEq] at hsend
      subst hsend
      refine ⟨⟨?_, hsw, hK, Or.inr ⟨hscan', hne⟩, hnv'⟩, rfl⟩
      show s.w = w0.run (s.sent ++ [Signal.record rec e z])
      rw [Writer.run_append, ← hw]
      simp only [Writer.run, List.foldl_cons, List.foldl_nil]
      exact (Writer.step_returned _ _ hr).symm
    · rw [if_neg hq] at hsend
      exact absurd hsend (by simp)
  · rw [if_neg hr] at hsend
    simp only [Option.some.injEq] at hsend
    subst hsend
    have hr' : s.w.returned = false := by simpa using hr
    refine ⟨⟨?_, ?_, ?_, Or.inr ⟨hscan', hne⟩, hnv'⟩, rfl⟩
    · show s.w.step (Signal.record rec e z) = w0.run (s.sent ++ [Signal.record rec e z])
      rw [Writer.run_append, ← hw]
      rfl
    · show (s.w.step (Signal.record rec e z)).simpleWrite = false
      rw [Writer.step_simpleWrite]; exact hsw
    · have := Writer.step_record_project s.w rec e z hsw hr' hKrec
      rw [hP] at this
      exact this

theorem ExportState.boundary_prevProject (s : ExportState) :
    s.boundary.1.prevProject = s.prevProject := by
  unfold ExportState.boundary ExportState.send
  by_cases hr : s.w.returned = true
  · rw [if_pos hr]
    by_cases hq : s.queued < RecBufferCap
    · rw [if_pos hq]
    · rw [if_neg hq]
  · rw [if_neg hr]

/-- After a boundary that went on the channel the open entry carries no project
and the scan starts a new segment: the invariant holds for any `prevProject`. -/
theorem ExportState.inv_boundary (w0 : Writer) (s : ExportState) (hinv : s.inv w0) :
    s.boundary.1 = s ∨ ∀ p, ({ s.boundary.1 with prevProject := p } : ExportState).inv w0 := by
  obtain ⟨hw, hsw, hK, hscan, hnv⟩ := hinv
  have hscan0 : s.sent.foldl scanStep (some none) ≠ none := by
    rcases hscan with h | h
    · rw [h]; simp
    · rw [h.1]; simp
  have hscan' : (s.sent ++ [Signal.boundary]).foldl scanStep (some none) = some none := by
    rw [List.foldl_append]
    simp only [List.foldl_cons, List.foldl_nil]
    cases hst : s.sent.foldl scanStep (some none) with
    | none => exact absurd hst hscan0
    | some x => cases x <;> rfl
  have hnv' : ∀ (a c : List Signal) (r : Record) (e1 : Bool) (z1 : Int),
      s.sent ++ [Signal.boundary] = a ++ Signal.record r e1 z1 :: c →
        (w0.run a).violation r = false := by
    intro a c r e1 z1 h
    rcases append_singleton_eq _ _ _ _ _ h with ⟨_, _, hx⟩ | ⟨c', _, hs⟩
    · exact absurd hx (by simp)
    · exact hnv a c' r e1 z1 hs
  have hKd : s.w.projectDone = true → s.w.currIndex.Project = [] := by
    intro hp
    rcases hK with h | h
    · exact h
    · rw [h.2.1] at hp
      exact absurd hp (by simp)
  unfold ExportState.boundary ExportState.send
  by_cases hr : s.w.returned = true
  · have hKr : s.w.currIndex.Project = [] := by
      rcases hK with h | h
      · exact h
      · rw [h.2.2] at hr
        exact absurd hr (by simp)
    rw [if_pos hr]
    by_cases hq : s.queued < RecBufferCap
    · rw [if_pos hq]
      right
      intro p
      refine ⟨?_, hsw, Or.inl hKr, Or.inl hscan', hnv'⟩
      show s.w = w0.run (s.sent ++ [Signal.boundary])
      rw [Writer.run_append, ← hw]
      simp only [Writer.run, List.foldl_cons, List.foldl_nil]
      exact (Writer.step_returned _ _ hr).symm
    · rw [if_neg hq]
      exact Or.inl rfl
  · rw [if_neg hr]
    have hr' : s.w.returned = false := by simpa using hr
    right
    intro p
    refine ⟨?_, ?_, Or.inl ?_, Or.inl hscan', hnv'⟩
    · show s.w.step Signal.boundary = w0.run (s.sent ++ [Signal.boundary])
      rw [Writer.run_append, ← hw]
      rfl
    · show (s.w.step Signal.boundary).simpleWrite = false
      rw [Writer.step_simpleWrite]; exact hsw
    · exact Writer.step_boundary_project s.w hsw hKd hr'

theorem ExportState.inv_boundary_same (w0 : Writer) (s : ExportState) (hinv : s.inv w0) :
    s.boundary.1.inv w0 := by
  rcases ExportState.inv_boundary w0 s hinv with h | h
  · rw [h]; exact hinv
  · have := h s.boundary.1.prevProject
    exact this

/-- The invariant when `prevProject` is set for the first time, or set to the
project it already holds. -/
theorem ExportState.inv_set (w0 : Writer) (s : ExportState) (p : Bytes) (hinv : s.inv w0)
    (h : s.prevProject = [] ∨ s.prevProject = p) :
    ({ s with prevProject := p } : ExportState).inv w0 := by
  obtain ⟨hw, hsw, hK, hscan, hnv⟩ := hinv
  rcases h with h | h
  · refine ⟨hw, hsw, Or.inl ?_, Or.inl ?_, hnv⟩
    · rcases hK with h1 | h1
      · exact h1
      · rw [h1.1, h]
    · rcases hscan with h1 | h1
      · exact h1
      · exact absurd h h1.2
  · subst h
    exact ⟨hw, hsw, hK, hscan, hnv⟩

theorem exportRecords_inv (w0 : Writer) (projID mgID : Bytes) (fs : Nat → Bool × Int)
    (hne : projID ≠ []) :
    ∀ (fuel : Nat) (sr : Reader) (s : ExportState), s.inv w0 → s.prevProject = projID →
      (exportRecords projID mgID fs fuel sr s).1.inv w0 := by
  intro fuel
  induction fuel with
  | zero => intro sr s hinv _; exact hinv
  | succ fuel ih =>
    intro sr s hinv hp
    unfold exportRecords
    cases hrd : sr.Read with
    | none => exact hinv
    | some x =>
      obtain ⟨⟨seq, er⟩, sr'⟩ := x
      dsimp only
      by_cases he : er ≠ Err.nil ∧ er ≠ Err.EOF
      · rw [if_pos he]; exact hinv
      · rw [if_neg he]
        cases seq with
        | none =>
          dsimp only
          split
          · exact hinv
          · exact ih sr' s hinv hp
        | some sq =>
          dsimp only
          cases hsend : s.send (Signal.record
              { R := Seq.Record { ID := newHead projID mgID sq.ID, Seq := sq.Seq },
                P := projID, M := mgID } (fs s.sent.length).1 (fs s.sent.length).2) with
          | none => exact hinv
          | some s' =>
            have h1 := ExportState.inv_send_record w0 s s' _ _ _ hinv (by rw [hp])
              (by rw [hp]; exact hne) hsend
            dsimp only
            split
            · exact h1.1
            · exact ih sr' s' h1.1 (by rw [h1.2, hp])

theorem exportItems_inv (w0 : Writer) (fs : Nat → Bool × Int) (nextErr : Bool) :
    ∀ (items : List Item) (s : ExportState), s.inv w0 →
      (exportItems fs nextErr items s).1.inv w0 := by
  intro items
  induction items with
  | nil =>
    intro s hinv
    unfold exportItems
    split
    · exact hinv
    · dsimp only
      have h1 := ExportState.inv_boundary_same w0 s hinv
      have h2 := ExportState.inv_boundary_same w0 _ h1
      split
      · exact h1
      · split
        · exact h2
        · exact h2
  | cons item items ih =>
    intro s hinv
    unfold exportItems
    split
    · exact hinv
    · split
      · exact ih s hinv
      · split
        · exact ih s hinv
        · split
          · exact ih s hinv
          · rename_i hvalid hids hfirst hlater
            have hpne : item.projID ≠ [] := fun h => hids (Or.inl h)
            dsimp only
            by_cases hchg : s.prevProject ≠ [] ∧ s.prevProject ≠ item.projID
            · rw [if_pos hchg]
              split
              · exact ExportState.inv_boundary_same w0 s hinv
              · rename_i hack
                have hs1 : ({ s.boundary.1 with prevProject := item.projID } : ExportState).inv
                    w0 := by
                  rcases ExportState.inv_boundary w0 s hinv with h | h
                  · -- the send blocked: no acknowledgment
                    exfalso
                    apply hack
                    unfold ExportState.boundary at h ⊢
                    cases hsd : s.send Signal.boundary with
                    | none => rfl
                    | some s' =>
                      rw [hsd] at h
                      simp only at h
                      unfold ExportState.send at hsd
                      by_cases hr : s.w.returned = true
                      · simp [hr]
                      · rw [if_neg hr] at hsd
                        simp only [Option.some.injEq] at hsd
                        rw [← hsd] at h
                        have := congrArg (fun t => t.sent.length) h
                        simp at this
                  · exact h item.projID
                cases hstream : item.stream with
                | none => exact hs1
                | some bytes =>
                  dsimp only
                  have h2 := exportRecords_inv w0 item.projID item.mgID fs hpne
                    (bytes.length + 1) (NewReader bytes false) _ hs1 rfl
                  split
                  · rename_i s2 e heq
                    rw [heq] at h2
                    exact h2
                  · rename_i s2 heq
                    rw [heq] at h2
                    exact ih s2 h2
            · rw [if_neg hchg]
              have hsame : s.prevProject = [] ∨ s.prevProject = item.projID := by
                by_cases h0 : s.prevProject = []
                · exact Or.inl h0
                · right
                  by_contra h1
                  exact hchg ⟨h0, h1⟩
              have hs1 := ExportState.inv_set w0 s item.projID hinv hsame
              simp only [Bool.not_true, Bool.false_eq_true, if_false]
              cases hstream : item.stream with
              | none => exact hs1
              | some bytes =>
                dsimp only
                have h2 := exportRecords_inv w0 item.projID item.mgID fs hpne
                  (bytes.length + 1) (NewReader bytes false) _ hs1 rfl
                split
                · rename_i s2 e heq
                  rw [heq] at h2
                  exact h2
                · rename_i s2 heq
                  rw [heq] at h2
                  exact ih s2 h2

/-- The invariant holds when `Export` starts the writer. -/
theorem Export.start_inv (size : Int) (debug : Bool) (st : Store) :
    ({ prevProject := [], w := Export.writer size debug st, sent := [], queued := 0 } :
      ExportState).inv (Export.writer size debug st) := by
  refine ⟨rfl, rfl, Or.inl ?_, Or.inl rfl, ?_⟩
  · have h : (Export.writer size debug st).ExportIndex
        = Indexes.Init st.snapshot ++ [Index.new] := by
      simp [Export.writer, WriterHandle.start, Indexes.Add]
    rw [Writer.currIndex_concat _ _ _ h]
    rfl
  · intro a c r e z h
    exact absurd h (by simp)

theorem ReadBytes_found_length (d : Nat) (r : Bytes) (h : (ReadBytes d r).2.1 = false) :
    (ReadBytes d r).2.2.length < r.length := by
  induction r with
  | nil => simp [ReadBytes] at h
  | cons b r ih =>
    unfold ReadBytes at h ⊢
    by_cases hb : b = d
    · rw [if_pos hb]; simp
    · rw [if_neg hb] at h ⊢
      simp only [List.length_cons]
      have := ih h
      omega

theorem readStep_nil_consumes (p r : Bytes) (seq : Option Seq) (rest : Bytes)
    (h : readStep p r = Sum.inr ((seq, Err.nil), rest)) : rest.length < r.length := by
  unfold readStep at h
  dsimp only at h
  by_cases h1 : (if p.length > 0 then p ++ (ReadBytes GT r).1 else (ReadBytes GT r).1).length = 1
  · rw [if_pos h1] at h
    by_cases h2 : (ReadBytes GT r).2.1 = true
    · rw [if_pos h2] at h
      simp [readFinish, h2] at h
    · rw [if_neg h2] at h
      exact absurd h (by simp)
  · rw [if_neg h1] at h
    by_cases h3 : ¬ NL ∈ (if p.length > 0 then p ++ (ReadBytes GT r).1 else (ReadBytes GT r).1)
    · rw [if_pos h3] at h
      exact absurd h (by simp)
    · rw [if_neg h3] at h
      simp only [Sum.inr.injEq, Prod.mk.injEq, readFinish] at h
      obtain ⟨⟨_, herr⟩, hrest⟩ := h
      have heof : (ReadBytes GT r).2.1 = false := by
        cases hb : (ReadBytes GT r).2.1 with
        | false => rfl
        | true => rw [hb] at herr; simp at herr
      rw [← hrest]
      exact ReadBytes_found_length GT r heof

theorem readLoop_nil_consumes : ∀ (n : Nat) (p r : Bytes) (seq : Option Seq) (rest : Bytes),
    readLoop n p r = some ((seq, Err.nil), rest) → rest.length < r.length
  | 0, _, _, _, _, h => by simp [readLoop] at h
  | n + 1, p, r, seq, rest, h => by
    rw [readLoop_succ] at h
    cases hs : readStep p r with
    | inl pr =>
      obtain ⟨p', r'⟩ := pr
      rw [hs] at h
      have h1 := readLoop_nil_consumes n p' r' seq rest h
      have h2 := (readStep_rest p r p' r' hs).1
      omega
    | inr res =>
      rw [hs] at h
      simp only [Option.some.injEq] at h
      rw [h] at hs
      exact readStep_nil_consumes p r seq rest hs

/-- A `Read` that returns no error leaves fewer bytes unread. -/
theorem Read_nil_consumes (rd : Reader) (seq : Option Seq) (rd' : Reader)
    (h : rd.Read = some ((seq, Err.nil), rd')) : rd'.f.length < rd.f.length := by
  unfold Reader.Read at h
  by_cases hc : ¬ rd.opened = true ∧ rd.c = true ∧ rd.f = []
  · rw [if_pos hc] at h
    simp at h
  · rw [if_neg hc] at h
    cases hl : readLoop (rd.f.length + 2) [] rd.f with
    | none => rw [hl] at h; simp at h
    | some x =>
      obtain ⟨⟨sq, e⟩, rest⟩ := x
      rw [hl] at h
      simp only [Option.some.injEq, Prod.mk.injEq] at h
      obtain ⟨⟨h1, h2⟩, h3⟩ := h
      subst h1 h2
      rw [← h3]
      exact readLoop_nil_consumes _ [] rd.f sq rest hl

/-- The fuel of the record loop of `Export` decides: with more iterations than the
stream has bytes the loop gives the same answer. -/
theorem exportRecords_enough_fuel (projID mgID : Bytes) (fs : Nat → Bool × Int) :
    ∀ (fuel : Nat) (sr : Reader) (s : ExportState), sr.f.length < fuel →
      exportRecords projID mgID fs (fuel + 1) sr s = exportRecords projID mgID fs fuel sr s := by
  intro fuel
  induction fuel with
  | zero => intro sr s h; exact absurd h (by omega)
  | succ k ih =>
    intro sr s hlen
    rw [exportRecords]
    conv => rhs; rw [exportRecords]
    cases hrd : sr.Read with
    | none => rfl
    | some x =>
      obtain ⟨⟨seq, er⟩, sr'⟩ := x
      dsimp only
      by_cases he : er ≠ Err.nil ∧ er ≠ Err.EOF
      · rw [if_pos he, if_pos he]
      · rw [if_neg he, if_neg he]
        by_cases hnil : er = Err.nil
        · subst hnil
          have hlt := Read_nil_consumes sr seq sr' hrd
          have hk : sr'.f.length < k := by omega
          cases seq with
          | none =>
            simp only [ne_eq, not_true_eq_false, decide_False, Bool.false_eq_true, if_false]
            exact ih sr' s hk
          | some sq =>
            dsimp only
            cases s.send (Signal.record
                { R := Seq.Record { ID := newHead projID mgID sq.ID, Seq := sq.Seq },
                  P := projID, M := mgID } (fs s.sent.length).1 (fs s.sent.length).2) with
            | none => rfl
            | some s' =>
              simp only [ne_eq, not_true_eq_false, decide_False, Bool.false_eq_true, if_false]
              exact ih sr' s' hk
        · cases seq with
          | none => simp [hnil]
          | some sq =>
            dsimp only
            cases s.send (Signal.record
                { R := Seq.Record { ID := newHead projID mgID sq.ID, Seq := sq.Seq },
                  P := projID, M := mgID } (fs s.sent.length).1 (fs s.sent.length).2) with
            | none => rfl
            | some s' => simp [hnil]

/-- C22: in the sequence of signals `Export` submits to the writer, for every
list of source items, any two records with no boundary signal between them (so
all records between two consecutive boundaries, and all before the first one)
carry the same project ID; every record carries a non-empty project ID; and at
every record the test of the protocol-violation branch of the writer
(writer.go:132) is false in the state in which the writer receives the record.
The writer state `Export` reaches is the run of the writer over these signals. -/
theorem C22_one_project_between_boundaries (size : Int) (debug : Bool) (st : Store)
    (fs : Nat → Bool × Int) (items : List Item) (nextErr : Bool) (s : ExportState)
    (e : ExportEnd) (h : Export size debug st fs items nextErr = some (s, e)) :
    (∀ (a b c : List Signal) (r1 r2 : Record) (e1 e2 : Bool) (z1 z2 : Int),
      s.sent = a ++ Signal.record r1 e1 z1 :: (b ++ Signal.record r2 e2 z2 :: c) →
      Signal.boundary ∉ b → r1.P = r2.P) ∧
    (∀ (a c : List Signal) (r : Record) (e1 : Bool) (z : Int),
      s.sent = a ++ Signal.record r e1 z :: c →
        r.P ≠ [] ∧ ((Export.writer size debug st).run a).violation r = false) ∧
    s.w = (Export.writer size debug st).run s.sent := by
  unfold Export at h
  by_cases hv : Export.valid st = true
  · rw [if_pos hv] at h
    simp only [Option.some.injEq] at h
    have hinv := exportItems_inv (Export.writer size debug st) fs nextErr items _
      (Export.start_inv size debug st)
    rw [h] at hinv
    obtain ⟨hw, _, _, hscan, hnv⟩ := hinv
    have hscan0 : s.sent.foldl scanStep (some none) ≠ none := by
      rcases hscan with h1 | h1
      · rw [h1]; simp
      · rw [h1.1]; simp
    obtain ⟨hseg, hproj⟩ := scan_spec s.sent hscan0
    exact ⟨hseg, fun a c r e1 z hs => ⟨hproj a c r e1 z hs, hnv a c r e1 z hs⟩, hw⟩
  · rw [if_neg hv] at h
    exact absurd h (by simp)

/-- C22 at an export into an empty directory of two items, of projects `p` and
`q`: the stream `>r\na\n>s\nc\n` and the stream `>x\nt\n`.  The signals are the
two records of `p`, a boundary, the record of `q` and the two closing boundaries;
when the writer receives the record of `q` the test of the violation branch is
false. -/
theorem C22_one_project_between_boundaries_witness :
    (exportItems (fun _ => (false, 0)) false
        [⟨true, [112], [109], some [62, 114, 10, 97, 10, 62, 115, 10, 99, 10]⟩,
          ⟨true, [113], [110], some [62, 120, 10, 116, 10]⟩]
        { prevProject := [], w := Export.writer 1 true ⟨none, []⟩, sent := [], queued := 0 }).1.sent
      = [Signal.record ⟨[62, 112, 124, 109, 124, 114, 10, 65, 10], [112], [109]⟩ false 0,
          Signal.record ⟨[62, 112, 124, 109, 124, 115, 10, 67, 10], [112], [109]⟩ false 0,
          Signal.boundary,
          Signal.record ⟨[62, 113, 124, 110, 124, 120, 10, 84, 10], [113], [110]⟩ false 0,
          Signal.boundary, Signal.boundary] ∧
    ((⟨[62, 113, 124, 110, 124, 120, 10, 84, 10], [113], [110]⟩ : Record).P ≠ [] ∧
      ((Export.writer 1 true ⟨none, []⟩).run
          [Signal.record ⟨[62, 112, 124, 109, 124, 114, 10, 65, 10], [112], [109]⟩ false 0,
            Signal.record ⟨[62, 112, 124, 109, 124, 115, 10, 67, 10], [112], [109]⟩ false 0,
            Signal.boundary]).violation
        ⟨[62, 113, 124, 110, 124, 120, 10, 84, 10], [113], [110]⟩ = false) :=
  ⟨by decide,
    (C22_one_project_between_boundaries 1 true ⟨none, []⟩ (fun _ => (false, 0))
      [⟨true, [112], [109], some [62, 114, 10, 97, 10, 62, 115, 10, 99, 10]⟩,
        ⟨true, [113], [110], some [62, 120, 10, 116, 10]⟩] false _ _ rfl).2.1
      [Signal.record ⟨[62, 112, 124, 109, 124, 114, 10, 65, 10], [112], [109]⟩ false 0,
        Signal.record ⟨[62, 112, 124, 109, 124, 115, 10, 67, 10], [112], [109]⟩ false 0,
        Signal.boundary]
      [Signal.boundary, Signal.boundary]
      ⟨[62, 113, 124, 110, 124, 120, 10, 84, 10], [113], [110]⟩ false 0 (by decide)⟩

end MGRast
